import Mathlib

/-!
Verification development for the structured screenshot-to-text converter
(`ss_txt2.py`) of the File_Converter repository.

The pure text-processing core of the script is embedded shallowly:
Python strings become Lean `String`s (lists of characters), the concrete
`re.sub` calls of the source are executed by a small backtracking matcher
over an explicit pattern datatype (the source only uses literals, the
classes `\s`, `\d`, `[a-z]`, greedy `*`/`+`, one capture group, `\b`, `^`,
`$` and the MULTILINE flag), Python `float` ratios of integer quantities
are represented exactly by rationals, and the OCR / OpenCV collaborators
(black boxes for the script itself) become explicit oracles.  Exceptions
are modelled with `Except` / `Option`.
-/

set_option maxRecDepth 100000

namespace SS2

/-- Python whitespace predicate: the six ASCII whitespace characters used by
`str.strip`, `str.split` and the regex class `\s` on the ASCII text this
pipeline processes. -/
def isPySpace (c : Char) : Bool :=
  c = ' ' || c = '\t' || c = '\n' || c = '\r' || c = '\x0b' || c = '\x0c'

/-- Word character for the regex `\b` boundary (`\w`): alphanumeric or
underscore. -/
def isWordChar (c : Char) : Bool :=
  c.isAlphanum || c = '_'

def isAsciiDigit (c : Char) : Bool :=
  '0' ≤ c && c ≤ '9'

def isLowerAZ (c : Char) : Bool :=
  'a' ≤ c && c ≤ 'z'

/-- Python `str.strip()` on a character list. -/
def pyStripList (s : List Char) : List Char :=
  ((s.dropWhile isPySpace).reverse.dropWhile isPySpace).reverse

/-- Python `str.strip()`. -/
def pyStrip (s : String) : String :=
  String.mk (pyStripList s.data)

/-- Python `str.lower()` (ASCII case fold, which covers the OCR output the
script handles). -/
def pyLower (s : String) : String :=
  String.mk (s.data.map Char.toLower)

/-- Python `text.split(sep)` for a single-character separator: keeps empty
pieces, and the empty string yields `[""]`. -/
def splitOnCharList (sep : Char) : List Char → List (List Char)
  | [] => [[]]
  | c :: cs =>
    match splitOnCharList sep cs with
    | [] => [[]]
    | r :: rs => if c = sep then [] :: r :: rs else (c :: r) :: rs

/-- Python `text.split('\n')`. -/
def splitLines (s : String) : List String :=
  (splitOnCharList '\n' s.data).map String.mk

/-- Python `'\n'.join(lines)`. -/
def joinLines (lines : List String) : String :=
  String.mk (List.intercalate ['\n'] (lines.map String.data))

/-- Python `sep.join(parts)` for an arbitrary separator string. -/
def joinSep (sep : String) (parts : List String) : String :=
  String.mk (List.intercalate sep.data (parts.map String.data))

/-- Python whitespace `str.split()` (no argument): splits on runs of
whitespace and never yields empty pieces.  Fuel-driven recursion; the fuel
`s.length + 1` always suffices. -/
def pySplitWsGo : Nat → List Char → List (List Char)
  | 0, _ => []
  | _ + 1, [] => []
  | f + 1, c :: cs =>
    if isPySpace c then pySplitWsGo f cs
    else
      (c :: cs.takeWhile (fun d => !isPySpace d)) ::
        pySplitWsGo f (cs.dropWhile (fun d => !isPySpace d))

/-- Python `str.split()` on a string. -/
def pySplitWs (s : String) : List String :=
  (pySplitWsGo (s.data.length + 1) s.data).map String.mk

/-- Pattern items of the concrete regular expressions appearing in
`ss_txt2.py`: literal characters, character classes, greedy star/plus over a
class, a single capturing group (one-character `([a-z])` or greedy `(\d+)`),
the word boundary `\b`, line/string anchors `^` (with its MULTILINE variant)
and the MULTILINE `$`. -/
inductive RItem where
  | lit (c : Char)
  | cls (p : Char → Bool)
  | star (p : Char → Bool)
  | plus (p : Char → Bool)
  | grpPlus (p : Char → Bool)
  | grpAcc (p : Char → Bool) (acc : List Char)
  | grpOne (p : Char → Bool)
  | wb
  | bol (multiline : Bool)
  | eolM

def isWordCharOpt : Option Char → Bool
  | none => false
  | some c => isWordChar c

def headIsWord : List Char → Bool
  | [] => false
  | c :: _ => isWordChar c

/-- Backtracking matcher for a pattern (list of items) against the character
list `s`, where `prev` is the character immediately before the current
position in the whole subject (for `\b`, `^`).  Returns the number of
characters consumed and the capture of the (single) group, if any.  Greedy
quantifiers try the longest extension first, exactly as Python `re` does for
these patterns.  The internal `grpAcc` item carries the capture accumulated
so far for a greedy `(\d+)`-style group; its exit branch charges the whole
capture length to the consumed count at once.  `fuel` bounds the recursion
depth; the callers always pass enough. -/
def matchItems : Nat → List RItem → Option Char → List Char → Option (Nat × List Char)
  | 0, _, _, _ => none
  | _ + 1, [], _, _ => some (0, [])
  | f + 1, .lit c :: rest, _, d :: s =>
    if d = c then (matchItems f rest (some d) s).map (fun r => (r.1 + 1, r.2)) else none
  | _ + 1, .lit _ :: _, _, [] => none
  | f + 1, .cls p :: rest, _, d :: s =>
    if p d then (matchItems f rest (some d) s).map (fun r => (r.1 + 1, r.2)) else none
  | _ + 1, .cls _ :: _, _, [] => none
  | f + 1, .star p :: rest, prev, s =>
    match s with
    | d :: s' =>
      if p d then
        match matchItems f (.star p :: rest) (some d) s' with
        | some r => some (r.1 + 1, r.2)
        | none => matchItems f rest prev s
      else matchItems f rest prev s
    | [] => matchItems f rest prev []
  | f + 1, .plus p :: rest, _, d :: s =>
    if p d then (matchItems f (.star p :: rest) (some d) s).map (fun r => (r.1 + 1, r.2))
    else none
  | _ + 1, .plus _ :: _, _, [] => none
  | f + 1, .grpPlus p :: rest, _, d :: s =>
    if p d then matchItems f (.grpAcc p [d] :: rest) (some d) s else none
  | _ + 1, .grpPlus _ :: _, _, [] => none
  | f + 1, .grpAcc p acc :: rest, prev, s =>
    let ext : Option (Nat × List Char) :=
      match s with
      | d :: s' => if p d then matchItems f (.grpAcc p (acc ++ [d]) :: rest) (some d) s' else none
      | [] => none
    match ext with
    | some r => some r
    | none => (matchItems f rest prev s).map (fun r => (r.1 + acc.length, acc))
  | f + 1, .grpOne p :: rest, _, d :: s =>
    if p d then (matchItems f rest (some d) s).map (fun r => (r.1 + 1, [d])) else none
  | _ + 1, .grpOne _ :: _, _, [] => none
  | f + 1, .wb :: rest, prev, s =>
    if isWordCharOpt prev != headIsWord s then matchItems f rest prev s else none
  | f + 1, .bol m :: rest, prev, s =>
    match prev with
    | none => matchItems f rest prev s
    | some c => if m && c = '\n' then matchItems f rest (some c) s else none
  | f + 1, .eolM :: rest, prev, s =>
    match s with
    | [] => matchItems f rest prev []
    | c :: _ => if c = '\n' then matchItems f rest prev s else none

/-- One scanning pass of Python `re.sub`: at each position try the pattern;
on a match, emit the replacement (a function of the capture) and continue
after the consumed characters of the original subject, otherwise copy one
character.  All patterns in the source match at least one character. -/
def reSubGo (pat : List RItem) (repl : List Char → List Char) :
    Nat → Option Char → List Char → List Char
  | 0, _, s => s
  | _ + 1, _, [] => []
  | f + 1, prev, d :: rest =>
    match matchItems (rest.length + 60) pat prev (d :: rest) with
    | some (n, g) =>
      if n = 0 then d :: reSubGo pat repl f (some d) rest
      else repl g ++ reSubGo pat repl f (((d :: rest).take n).getLast?) ((d :: rest).drop n)
    | none => d :: reSubGo pat repl f (some d) rest

/-- Python `re.sub(pattern, repl, s)` for the pattern shapes of the source. -/
def reSub (pat : List RItem) (repl : List Char → List Char) (s : List Char) : List Char :=
  reSubGo pat repl (s.length + 1) none s

/-- Literal pattern from a plain string. -/
def lits (s : String) : List RItem :=
  s.data.map RItem.lit

/-- Constant replacement. -/
def rconst (s : String) : List Char → List Char :=
  fun _ => s.data

/-- Replacement `\1`: the capture itself. -/
def rgrp : List Char → List Char :=
  fun g => g

/-- Replacement `\g<1>1`: the capture followed by the digit `1`. -/
def rgrp1 : List Char → List Char :=
  fun g => g ++ ['1']

/-- Word-delimited token pattern `\btok\b`. -/
def wtok (s : String) : List RItem :=
  [.wb] ++ lits s ++ [.wb]

def spCls : RItem := .cls isPySpace

def spStar : RItem := .star isPySpace

def spPlus : RItem := .plus isPySpace

/-- The ordered list of `re.sub` rules of `fix_common_ocr_errors`
(`ss_txt2.py` lines 323-419), in source order: the `©` bubble removals, the
`I`/`l` single-letter misreads, the start-of-string and whitespace-delimited
variants, the table-header patterns, the `Oo` empty-circle removals,
`Os<digits>`, letter+`i`/`l`/`t` misreads of letter+`1`, and the fixed
letter/digit corrections table. -/
def ocrRules : List ((List RItem) × (List Char → List Char)) :=
  [ ([.lit '©', spStar, .grpPlus isAsciiDigit], rgrp),
    ([.lit '©', spStar, .lit ')'], rconst ")"),
    ([.lit '©', spStar], rconst ""),
    ([.lit '©'], rconst ""),
    (wtok "Ic", rconst "c"),
    (wtok "Ia", rconst "a"),
    (wtok "Ib", rconst "b"),
    (wtok "la", rconst "a"),
    (wtok "lc", rconst "c"),
    (wtok "lb", rconst "b"),
    ([.bol false] ++ lits "Ia" ++ [spCls], rconst "a "),
    ([.bol false] ++ lits "Ic" ++ [spCls], rconst "c "),
    ([.bol false] ++ lits "Ib" ++ [spCls], rconst "b "),
    ([.bol false] ++ lits "la" ++ [spCls], rconst "a "),
    ([.bol false] ++ lits "lc" ++ [spCls], rconst "c "),
    ([.bol false] ++ lits "lb" ++ [spCls], rconst "b "),
    ([spCls] ++ lits "Ia" ++ [spCls], rconst " a "),
    ([spCls] ++ lits "Ic" ++ [spCls], rconst " c "),
    ([spCls] ++ lits "Ib" ++ [spCls], rconst " b "),
    ([spCls] ++ lits "la" ++ [spCls], rconst " a "),
    ([spCls] ++ lits "lc" ++ [spCls], rconst " c "),
    ([spCls] ++ lits "lb" ++ [spCls], rconst " b "),
    ([.wb] ++ lits "Ia" ++ [spPlus, .lit 'b', spPlus] ++ lits "Ic" ++ [.wb], rconst "a b c"),
    ([.wb] ++ lits "la" ++ [spPlus, .lit 'b', spPlus] ++ lits "lc" ++ [.wb], rconst "a b c"),
    ([.bol true] ++ lits "Ia" ++ [spPlus, .lit 'b', spPlus] ++ lits "Ic" ++ [spStar, .eolM],
      rconst "a b c"),
    ([.bol true] ++ lits "la" ++ [spPlus, .lit 'b', spPlus] ++ lits "lc" ++ [spStar, .eolM],
      rconst "a b c"),
    (wtok "Oo", rconst ""),
    ([.bol true] ++ lits "Oo" ++ [spStar, .eolM], rconst ""),
    ([.wb] ++ lits "Os" ++ [.grpPlus isAsciiDigit, .wb], rgrp),
    ([.wb, .grpOne isLowerAZ, .lit 'i', .wb], rgrp1),
    ([.wb, .grpOne isLowerAZ, .lit 'l', .wb], rgrp1),
    (wtok "lon", rconst "c1"),
    (wtok "1t", rconst "a1"),
    (wtok "at", rconst "a1"),
    ([.wb, .grpOne isLowerAZ, .lit 't', .wb], rgrp1),
    (wtok "l0", rconst "0"),
    (wtok "l1", rconst "1"),
    (wtok "l2", rconst "2"),
    (wtok "l3", rconst "3"),
    (wtok "l4", rconst "4"),
    (wtok "l5", rconst "5"),
    (wtok "l6", rconst "6"),
    (wtok "l7", rconst "7"),
    (wtok "l8", rconst "8"),
    (wtok "l9", rconst "9"),
    (wtok "O0", rconst "0"),
    (wtok "O1", rconst "1"),
    (wtok "O2", rconst "2"),
    (wtok "O3", rconst "3"),
    (wtok "O4", rconst "4"),
    (wtok "O5", rconst "5"),
    (wtok "O6", rconst "6"),
    (wtok "O7", rconst "7"),
    (wtok "O8", rconst "8"),
    (wtok "O9", rconst "9"),
    (wtok "I0", rconst "10"),
    (wtok "I1", rconst "11") ]

/-- Does a one-character stripped line consist of an alphanumeric character
(Python `stripped.isalnum()` on the single character kept by the cleanup)? -/
def singleAlnum : List Char → Bool
  | [c] => c.isAlphanum
  | _ => false

/-- One step of the line cleanup at the end of `fix_common_ocr_errors`
(lines 422-431): keep lines with more than one stripped character or a
single alphanumeric one, and keep a blank line only when the previously
kept line is non-blank. -/
def cleanupStep (acc : List (List Char)) (line : List Char) : List (List Char) :=
  let stripped := pyStripList line
  if stripped.length > 1 || singleAlnum stripped then acc ++ [line]
  else if stripped.isEmpty && !acc.isEmpty && !(pyStripList (acc.getLastD [])).isEmpty then
    acc ++ [line]
  else acc

/-- The line cleanup of `fix_common_ocr_errors`: split on newlines, filter
as above, rejoin. -/
def cleanupLines (text : List Char) : List Char :=
  List.intercalate ['\n'] ((splitOnCharList '\n' text).foldl cleanupStep [])

/-- Embedding of `fix_common_ocr_errors` (`ss_txt2.py` lines 309-435): the
ordered regex substitutions, then the line cleanup, then a final
`str.strip()`; the empty string is returned unchanged. -/
def fix_common_ocr_errors (s : String) : String :=
  if s = "" then s
  else
    String.mk (pyStripList (cleanupLines
      (ocrRules.foldl (fun acc r => reSub r.1 r.2 acc) s.data)))

/-- Normalisation inside `are_texts_similar`:
`re.sub(r'\s+', ' ', t.lower().strip())`. -/
def normalizeText (t : String) : String :=
  String.mk (reSub [spPlus] (rconst " ") (pyStripList (pyLower t).data))

/-- Word set of a normalized text: `set(norm.split())`. -/
def wordSet (n : String) : Finset String :=
  (pySplitWs n).toFinset

/-- Selection `shorter` of the two normalized texts (`norm1` when strictly
shorter, else `norm2`), as in `are_texts_similar`. -/
def shorterOf (n1 n2 : String) : String :=
  if n1.length < n2.length then n1 else n2

/-- Selection `longer` of the two normalized texts. -/
def longerOf (n1 n2 : String) : String :=
  if n1.length < n2.length then n2 else n1

/-- Embedding of `are_texts_similar` (`ss_txt2.py` lines 263-307).  The
threshold and the two length ratios are exact rationals; for the integer
lengths involved the Python float comparisons against 0.7 agree with the
exact rational ones. -/
def are_texts_similar (text1 text2 : String) (threshold : ℚ) : Bool :=
  if text1 = "" ∨ text2 = "" then false
  else
    if 0 < (shorterOf (normalizeText text1) (normalizeText text2)).length ∧
        (if 0 < (longerOf (normalizeText text1) (normalizeText text2)).length then
          ((shorterOf (normalizeText text1) (normalizeText text2)).length : ℚ) /
            ((longerOf (normalizeText text1) (normalizeText text2)).length : ℚ)
        else 0) ≥ threshold then
      true
    else
      if (wordSet (normalizeText text1)).card = 0 ∨ (wordSet (normalizeText text2)).card = 0 then
        false
      else
        decide ((if 0 < (wordSet (normalizeText text1) ∪ wordSet (normalizeText text2)).card then
            ((wordSet (normalizeText text1) ∩ wordSet (normalizeText text2)).card : ℚ) /
              ((wordSet (normalizeText text1) ∪ wordSet (normalizeText text2)).card : ℚ)
          else 0) ≥ threshold)

/-- Python `str.rstrip()`. -/
def pyRstrip (s : String) : String :=
  String.mk (s.data.reverse.dropWhile isPySpace).reverse

/-- Table-cell line test of `detect_and_group_table_lines` (line 683):
non-blank after stripping, at most 8 characters, no space character. -/
def isCellLine (l : String) : Bool :=
  pyStrip l ≠ "" && (pyStrip l).length ≤ 8 && !((pyStrip l).data.contains ' ')

/-- Pipe-delimited table row: `'| ' + ' | '.join(cells) + ' |'`. -/
def mkPipeRow (cells : List String) : String :=
  "| " ++ joinSep " | " cells ++ " |"

/-- Fit score of a candidate column count (lines 695-705): exact fits score
`complete_rows * 100` plus a bonus of 10 for three columns; inexact fits
score `complete_rows * 10 - remainder * 5`. -/
def fitScore (n col : Nat) : ℤ :=
  if n % col = 0 then (n / col : ℤ) * 100 + (if col = 3 then 10 else 0)
  else (n / col : ℤ) * 10 - (n % col : ℤ) * 5

/-- Column count chosen by `detect_and_group_table_lines`: the best scoring
count among 3, 2, 4 (tried in that order, strict improvement required). -/
def bestColumnCount (n : Nat) : Nat :=
  (([3, 2, 4] : List Nat).foldl
    (fun best col => if fitScore n col > best.2 then (col, fitScore n col) else best)
    (3, (-1000 : ℤ))).1

/-- Fuel-driven chunking `table_cells[i:i+col]` for `i in range(0, len, col)`. -/
def listChunks (k : Nat) : Nat → List String → List (List String)
  | 0, _ => []
  | _, [] => []
  | f + 1, l => l.take k :: listChunks k f (l.drop k)

/-- Consecutive chunks of size `k` (last one possibly shorter). -/
def chunksOf (k : Nat) (l : List String) : List (List String) :=
  listChunks k (l.length + 1) l

/-- Inner while loop of the rebuild pass of `detect_and_group_table_lines`
(lines 730-741): starting at `j`, consume the consecutive table section —
cell-line indices, and blank lines immediately followed by a cell line —
returning the first index after the section and the updated processed set. -/
def tableSectionEnd (lines : List String) (idxs : List Nat) :
    Nat → Nat → List Nat → Nat × List Nat
  | 0, j, processed => (j, processed)
  | f + 1, j, processed =>
    if j < lines.length then
      if idxs.contains j then tableSectionEnd lines idxs f (j + 1) (processed ++ [j])
      else if pyStrip (lines.getD j "") = "" ∧ j + 1 < lines.length ∧ idxs.contains (j + 1) then
        tableSectionEnd lines idxs f (j + 1) processed
      else (j, processed)
    else (j, processed)

/-- Outer while loop of the rebuild pass (lines 719-753): on the first
unprocessed cell-line index, emit the grouped `tableRows` and skip the whole
table section; otherwise copy the line (unless already processed). -/
def rebuildLines (lines : List String) (idxs : List Nat) (tableRows : List String) :
    Nat → Nat → List Nat → List String
  | 0, _, _ => []
  | f + 1, i, processed =>
    if i < lines.length then
      if idxs.contains i ∧ ¬ processed.contains i then
        let jp := tableSectionEnd lines idxs (lines.length + 1) i processed
        tableRows ++ rebuildLines lines idxs tableRows f jp.1 jp.2
      else
        if ¬ processed.contains i then
          lines.getD i "" :: rebuildLines lines idxs tableRows f (i + 1) processed
        else rebuildLines lines idxs tableRows f (i + 1) processed
    else []

/-- Embedding of `detect_and_group_table_lines` (`ss_txt2.py` lines
665-755): collect short no-space lines as table cells; with at least 4 of
them, choose a column count by `bestColumnCount`, group the cells into
pipe rows of that size (dropping a trailing group of fewer than 2 cells),
and splice the grouped rows over the table sections of the original lines. -/
def detect_and_group_table_lines (lines : List String) : List String :=
  if lines = [] then lines
  else
    let idxs := (List.range lines.length).filter (fun i => isCellLine (lines.getD i ""))
    let cells := idxs.map (fun i => pyStrip (lines.getD i ""))
    if cells.length < 4 then lines
    else
      let tableRows :=
        ((chunksOf (bestColumnCount cells.length) cells).filter (fun r => 2 ≤ r.length)).map
          mkPipeRow
      rebuildLines lines idxs tableRows (lines.length + 1) 0 []

/-- Head-is-whitespace helper for the delimiter splitter. -/
def headIsPySpace : List Char → Bool
  | [] => false
  | c :: _ => isPySpace c

/-- Does the line contain a run of 3 or more whitespace characters
(`re.search(r'\s{3,}', line)`)? -/
def hasWsRun3 : List Char → Bool
  | a :: b :: c :: rest => (isPySpace a && isPySpace b && isPySpace c) || hasWsRun3 (b :: c :: rest)
  | _ => false

/-- Splitter `re.split(r'\s{2,}|\t+', line)`: a delimiter is a maximal run
of at least 2 whitespace characters, or else a tab run (which, given the
first alternative, can only be a single tab). -/
def splitDelimGo : Nat → List Char → List Char → List (List Char)
  | 0, acc, s => [acc.reverse ++ s]
  | _ + 1, acc, [] => [acc.reverse]
  | f + 1, acc, c :: cs =>
    if isPySpace c && headIsPySpace cs then
      acc.reverse :: splitDelimGo f [] ((c :: cs).dropWhile isPySpace)
    else if c = '\t' then
      acc.reverse :: splitDelimGo f [] ((c :: cs).dropWhile (fun d => d = '\t'))
    else splitDelimGo f (c :: acc) cs

def pySplitDelim (s : String) : List String :=
  (splitDelimGo (s.data.length + 1) [] s.data).map String.mk

/-- Whitespace-run table formatting of one line (`clean_structured_text`
lines 793-812): a line containing a 3+ whitespace run or a tab is split on
2+ whitespace runs / tab runs; if that yields 2-6 stripped non-empty parts,
all shorter than 50 characters and none a multi-word part longer than 30,
the line becomes a pipe row, otherwise it is kept as is. -/
def formatSpacedLine (line : String) : String :=
  if hasWsRun3 line.data || line.data.contains '\t' then
    let parts := ((pySplitDelim line).map pyStrip).filter (fun p => p ≠ "")
    if (2 ≤ parts.length ∧ parts.length ≤ 6) ∧
        (∀ p ∈ parts, p.length < 50) ∧
        ¬ (∃ p ∈ parts, 30 < p.length ∧ p.data.contains ' ') then
      mkPipeRow parts
    else line
  else line

/-- Collapse of 3+ newline runs to a blank line:
`re.sub(r'\n{3,}', '\n\n', text)`. -/
def collapseBlankRuns (s : List Char) : List Char :=
  reSub [.lit '\n', .lit '\n', .lit '\n', .star (fun c => c = '\n')] (rconst "\n\n") s

/-- Embedding of `clean_structured_text` (`ss_txt2.py` lines 757-816):
fix OCR errors, collapse 3+ blank runs, strip line trailing whitespace;
then, ONLY when `is_table` is false, apply the line-level table regrouping
(`detect_and_group_table_lines`) and the whitespace-run row splitting
(`formatSpacedLine`); finally strip. -/
def clean_structured_text (text : String) (is_table : Bool) : String :=
  if text = "" then ""
  else
    let cleaned := joinLines ((splitLines
      (String.mk (collapseBlankRuns (fix_common_ocr_errors text).data))).map pyRstrip)
    if is_table then pyStrip cleaned
    else
      pyStrip (joinLines
        ((detect_and_group_table_lines (splitLines cleaned)).map formatSpacedLine))

/-- Normalization WITHOUT the two table heuristics, as claim C1 describes
the no-table output: fix OCR errors, collapse 3+ blank runs, strip each
line's trailing whitespace, strip the result — and nothing else.  This is
the claim-side definition, to be compared with what the code computes. -/
def basicCleaned (text : String) : String :=
  if text = "" then ""
  else
    pyStrip (joinLines ((splitLines
      (String.mk (collapseBlankRuns (fix_common_ocr_errors text).data))).map pyRstrip))

/-- The merge step of `convert_image_to_structured_text` (`ss_txt2.py`
lines 842-864) as a function of the aggregated table-cell extraction output
and the whole-page OCR output: non-empty table text is primary (whole-page
lines not similar to any table line are prepended when the two texts are
dissimilar at threshold 0.3), cleaned with `is_table := true`; empty table
text falls back to the whole-page text cleaned with `is_table := false`. -/
def reconcile (table_text regular_text : String) : String :=
  if table_text ≠ "" ∧ pyStrip table_text ≠ "" then
    clean_structured_text
      (if regular_text ≠ "" ∧ are_texts_similar table_text regular_text (3 / 10) = false then
        (let regular_lines := ((splitLines regular_text).map pyStrip).filter (fun l => l ≠ "")
         let table_lines := ((splitLines table_text).map pyStrip).filter (fun l => l ≠ "")
         let unique_regular := regular_lines.filter
           (fun l => !(table_lines.any (fun tl => are_texts_similar l tl (1 / 2))))
         if unique_regular ≠ [] then joinLines unique_regular ++ "\n\n" ++ table_text
         else table_text)
      else table_text)
      true
  else clean_structured_text regular_text false

/-- Cell rectangle `(x, y, w, h)` in pixel coordinates, as produced by the
OpenCV detection stages. -/
structure Cell where
  x : Nat
  y : Nat
  w : Nat
  h : Nat
deriving DecidableEq, Repr

/-- Vertical center `y + h // 2` of a cell (Python integer division). -/
def cellCenterY (c : Cell) : Nat :=
  c.y + c.h / 2

/-- Sort key order `(cell[1], cell[0])`, i.e. `(y, x)` lexicographically.
`List.insertionSort` with this non-strict order is stable exactly like
Python `sorted`. -/
def leYX (a b : Cell) : Prop :=
  a.y < b.y ∨ (a.y = b.y ∧ a.x ≤ b.x)

instance : DecidableRel leYX := fun a b => by
  unfold leYX
  infer_instance

def sortByYX (cells : List Cell) : List Cell :=
  List.insertionSort leYX cells

/-- Sort key order `c[0]`, i.e. `x`. -/
def leX (a b : Cell) : Prop :=
  a.x ≤ b.x

instance : DecidableRel leX := fun a b => by
  unfold leX
  infer_instance

def sortByX (cells : List Cell) : List Cell :=
  List.insertionSort leX cells

/-- Average of the vertical centers of the cells of a row (exact rational;
Python computes the same ratio of integers in floats). -/
def rowCenterAvg (row : List Cell) : ℚ :=
  (row.map (fun d => (cellCenterY d : ℚ))).sum / (row.length : ℚ)

/-- Average height of a list of cells. -/
def avgCellHeight (cells : List Cell) : ℚ :=
  (cells.map (fun c => (c.h : ℚ))).sum / (cells.length : ℚ)

/-- One step of the greedy row grouping of `group_cells_into_rows`: the
state is (finished rows, current row, `current_row_y`).  A cell joins the
current row when its center is within tolerance of the running center
average (`None` accepts unconditionally, as for the very first cell), and
the row average is recomputed after the addition; otherwise the current row
is closed (sorted by x) and a new row starts at this cell. -/
def groupStep (tol : ℚ) (st : List (List Cell) × List Cell × Option ℚ) (c : Cell) :
    List (List Cell) × List Cell × Option ℚ :=
  match st with
  | (rows, cur, none) => (rows, cur ++ [c], some ((cellCenterY c : ℚ)))
  | (rows, cur, some ry) =>
    if |(cellCenterY c : ℚ) - ry| ≤ tol then
      (rows, cur ++ [c], some (rowCenterAvg (cur ++ [c])))
    else
      (if cur ≠ [] then rows ++ [sortByX cur] else rows, [c], some ((cellCenterY c : ℚ)))

/-- Close of the grouping loop: append the final current row (sorted by x)
when non-empty. -/
def finishRows (st : List (List Cell) × List Cell × Option ℚ) : List (List Cell) :=
  if st.2.1 ≠ [] then st.1 ++ [sortByX st.2.1] else st.1

/-- Embedding of `group_cells_into_rows` (`ss_txt2.py` lines 468-519) with
the default `row_tolerance=None` (the only way the source calls it):
tolerance `max(avg_height * 0.5, 15)`, sort by `(y, x)`, greedy grouping of
successive cells by distance of the cell center to the running average of
the current row's centers, each finished row sorted by `x`. -/
def group_cells_into_rows (table_cells : List Cell) : List (List Cell) :=
  if table_cells = [] then []
  else
    finishRows ((sortByYX table_cells).foldl
      (groupStep (max (avgCellHeight table_cells * (1 / 2)) 15)) ([], [], none))

/-- Claim-side description of the grouping (C7), written as direct
recursion over the `(y, x)`-sorted cells: keep a non-empty current row,
admit the next cell exactly when its vertical center lies within the
tolerance — the larger of half the average cell height and 15 — of the
current row's center average, recomputing the average after each addition;
close rows sorted by `x` ascending. -/
def specGroupGo (tol : ℚ) : List Cell → List (List Cell) → List Cell → List (List Cell)
  | cur, rows, [] => rows ++ [sortByX cur]
  | cur, rows, c :: cs =>
    if |(cellCenterY c : ℚ) - rowCenterAvg cur| ≤ tol then
      specGroupGo tol (cur ++ [c]) rows cs
    else
      specGroupGo tol [c] (rows ++ [sortByX cur]) cs

/-- Claim-side grouping function for C7. -/
def spec_group_into_rows (cells : List Cell) : List (List Cell) :=
  match sortByYX cells with
  | [] => []
  | c :: cs => specGroupGo (max (avgCellHeight cells * (1 / 2)) 15) [c] [] cs

/-- Python `round` (banker's rounding, half to even) of an exact rational
(`int(round(x))` in the source; for the ratios of small integers involved
the float and exact values agree). -/
def pyRound (q : ℚ) : ℤ :=
  if q - ⌊q⌋ < 1 / 2 then ⌊q⌋
  else if 1 / 2 < q - ⌊q⌋ then ⌊q⌋ + 1
  else if ⌊q⌋ % 2 = 0 then ⌊q⌋ else ⌊q⌋ + 1

/-- Sort key order `r[1]`, i.e. `y` (the borderless detector sorts regions
by y only). -/
def leY (a b : Cell) : Prop :=
  a.y ≤ b.y

instance : DecidableRel leY := fun a b => by
  unfold leY
  infer_instance

def sortByY (cells : List Cell) : List Cell :=
  List.insertionSort leY cells

/-- One step of the borderless detector's row grouping
(`detect_table_structure` lines 124-132): state is (rows, current row,
`last_y`).  Note that `last_y` is anchored at the y of the row-starting
region and is NOT updated while a row grows — exactly as in the source. -/
def regionStep (tol : ℚ) (st : List (List Cell) × List Cell × Nat) (r : Cell) :
    List (List Cell) × List Cell × Nat :=
  if |(r.y : ℚ) - (st.2.2 : ℚ)| ≤ tol then (st.1, st.2.1 ++ [r], st.2.2)
  else ((if st.2.1 ≠ [] then st.1 ++ [st.2.1] else st.1), [r], r.y)

/-- Close of the region row grouping (lines 133-134). -/
def finishRegions (st : List (List Cell) × List Cell × Nat) : List (List Cell) :=
  if st.2.1 ≠ [] then st.1 ++ [st.2.1] else st.1

/-- Row grouping of the borderless table detector (lines 114-134): sort by
y, tolerance `max(avg_height * 0.6, 20)`, `last_y` initialised to the first
sorted region's y, then the greedy loop over all sorted regions. -/
def regionRows (regions : List Cell) : List (List Cell) :=
  match sortByY regions with
  | [] => []
  | c :: cs =>
    finishRegions ((c :: cs).foldl
      (regionStep (max (avgCellHeight regions * (6 / 10)) 20)) ([], [], c.y))

/-- Mean column count over the grouped rows (line 143). -/
def regionAvgCols (regions : List Cell) : ℚ :=
  ((regionRows regions).map (fun row => (row.length : ℚ))).sum /
    ((regionRows regions).length : ℚ)

/-- Number of rows whose column count is within ±1 of the mean (line 146). -/
def similarColsCount (regions : List Cell) : Nat :=
  (((regionRows regions).map List.length).filter
    (fun c => decide (|(c : ℚ) - regionAvgCols regions| ≤ 1))).length

/-- `num_cols = int(round(avg_cols))` (line 154). -/
def regionNumCols (regions : List Cell) : ℤ :=
  pyRound (regionAvgCols regions)

/-- The grouped rows, each sorted by x (lines 150-151). -/
def rowsSortedByX (regions : List Cell) : List (List Cell) :=
  (regionRows regions).map sortByX

/-- The x positions of the first row, provided it has at least `num_cols`
cells (line 157). -/
def firstRowX (regions : List Cell) : List Nat :=
  match rowsSortedByX regions with
  | [] => []
  | r0 :: _ => if (r0.length : ℤ) ≥ regionNumCols regions then r0.map Cell.x else []

/-- Number of rows aligned with the first row (lines 160-172): the first
row always counts; a later row counts when it has at least `num_cols` cells
and each of its first `min(len(row), len(first_row_x))` x positions is
within `width * 0.15` of the first row's. -/
def alignedRowsCount (regions : List Cell) (width : Nat) : Nat :=
  1 + ((rowsSortedByX regions).tail.filter (fun row =>
    decide ((row.length : ℤ) ≥ regionNumCols regions) &&
    (row.zip (firstRowX regions)).all
      (fun p => decide (|(p.1.x : ℚ) - (p.2 : ℚ)| ≤ (width : ℚ) * (15 / 100))))).length

/-- Embedding of the borderless-table validation of `detect_table_structure`
(`ss_txt2.py` lines 112-176): the text regions are promoted to candidate
cells only when at least 4 regions group into at least 2 rows, at least 70%
of the rows have a column count within ±1 of the mean, the rounded mean
column count is at least 2, the first row is long enough to provide column
x positions, and at least 60% of the rows align with the first row within
15% of the image width; otherwise the detector contributes no cells. -/
def validateTextRegions (regions : List Cell) (width : Nat) : List Cell :=
  if regions.length ≥ 4 then
    if (regionRows regions).length ≥ 2 then
      if (similarColsCount regions : ℚ) ≥ ((regionRows regions).length : ℚ) * (7 / 10) then
        if regionNumCols regions ≥ 2 then
          if firstRowX regions ≠ [] then
            if (alignedRowsCount regions width : ℚ) ≥
                ((regionRows regions).length : ℚ) * (6 / 10) then
              regions
            else []
          else []
        else []
      else []
    else []
  else []

/-- The page-level PSM modes tried by `extract_with_multiple_psm_modes`
(`ss_txt2.py` lines 614-619): uniform block (6), sparse text (11), single
column (4), automatic (3). -/
def pagePsmModes : List (Nat × String) :=
  [(6, "Uniform block"), (11, "Sparse text"), (4, "Single column"), (3, "Automatic")]

/-- The per-cell PSM modes tried by `extract_table_cells` (line 571):
single line (7), single word (8), uniform block (6), sparse text (11). -/
def cellPsmModes : List Nat :=
  [7, 8, 6, 11]

/-- One OCR candidate of the whole-image engine (the dict of line 630). -/
structure OcrResult where
  text : String
  psm : Nat
  descr : String
  length : Nat
deriving DecidableEq, Repr

/-- First result with maximal `length` (Python `max(..., key=len)` keeps the
first maximum). -/
def maxByLength (h : OcrResult) (t : List OcrResult) : OcrResult :=
  t.foldl (fun acc r => if r.length > acc.length then r else acc) h

/-- First string with maximal length. -/
def maxByLenStr (h : String) (t : List String) : String :=
  t.foldl (fun acc s => if s.length > acc.length then s else acc) h

/-- Deduplication step of the whole-image engine (lines 644-656): against
the FIRST similar existing unique result, keep the longer of the two
(remove + append); with no similar existing result, append. -/
def dedupStep (uniq : List OcrResult) (r : OcrResult) : List OcrResult :=
  match uniq.find? (fun e => are_texts_similar r.text e.text (7 / 10)) with
  | some e => if r.length > e.length then uniq.erase e ++ [r] else uniq
  | none => uniq ++ [r]

/-- Embedding of `extract_with_multiple_psm_modes` (lines 597-663) over an
OCR oracle `recognize psm` (`none` models an exception, swallowed by the
per-mode `try`).  Stripped results of at most 10 characters are discarded
as noise; the rest are OCR-error-fixed, deduplicated by similarity at the
default threshold 0.7 keeping the longer of a similar pair, and the longest
unique result's text is returned (empty string when nothing qualifies). -/
def extract_with_multiple_psm_modes (recognize : Nat → Option String) : String :=
  match pagePsmModes.foldl (fun acc pd =>
      match recognize pd.1 with
      | none => acc
      | some raw =>
        if pyStrip raw ≠ "" ∧ (pyStrip raw).length > 10 then
          acc ++ [OcrResult.mk (fix_common_ocr_errors (pyStrip raw)) pd.1 pd.2
            (fix_common_ocr_errors (pyStrip raw)).length]
        else acc) [] with
  | [] => ""
  | r :: rs =>
    match (r :: rs).foldl dedupStep [] with
    | [] => ""
    | u :: us => (maxByLength u us).text

/-- Per-image oracle for the stages of `convert_image_to_structured_text`
that touch the filesystem, OpenCV or Tesseract: the grayscale image
dimensions, the outcome of `Image.open`, the outcome of
`detect_table_structure` (its cell list), the per-cell OCR results by PSM
mode and the whole-page OCR results by PSM mode (`none` = exception or
unavailable). -/
structure ImgOracle where
  imgH : Nat
  imgW : Nat
  openRes : Except String Unit
  detectRes : Except String (List Cell)
  cellOcr : Cell → Nat → Option String
  pageOcr : Nat → Option String

/-- Text of one table cell in `extract_table_cells` (lines 552-589): pad
the rectangle by 5 clamped to the image, skip crops of fewer than 100
pixels, try the four cell PSM modes collecting non-empty stripped results
(error-fixed), then take the longest, strip and error-fix once more; `none`
when the cell contributes nothing to its row. -/
def cellText (o : ImgOracle) (c : Cell) : Option String :=
  if (min o.imgH (c.y + c.h + 5) - (c.y - 5)) * (min o.imgW (c.x + c.w + 5) - (c.x - 5)) < 100
  then none
  else
    match cellPsmModes.foldl (fun ts psm =>
        match o.cellOcr c psm with
        | none => ts
        | some raw =>
          if pyStrip raw ≠ "" then ts ++ [fix_common_ocr_errors (pyStrip raw)] else ts) [] with
    | [] => none
    | t :: ts =>
      if fix_common_ocr_errors (pyStrip (maxByLenStr t ts)) ≠ "" then
        some (fix_common_ocr_errors (pyStrip (maxByLenStr t ts)))
      else none

/-- Embedding of `extract_table_cells` (lines 521-595): group the cells
into rows, extract each cell's text, drop empty cells, render each
non-empty row as a pipe row, join rows with newlines. -/
def extract_table_cells (o : ImgOracle) (table_cells : List Cell) : String :=
  if table_cells = [] then ""
  else
    match group_cells_into_rows table_cells with
    | [] => ""
    | rows =>
      joinLines ((rows.map (fun row => row.filterMap (cellText o))).filterMap
        (fun rowTexts => if rowTexts ≠ [] then some (mkPipeRow rowTexts) else none))

/-- The `try` body of `convert_image_to_structured_text` (lines 827-865):
open the image, detect the table structure, extract per-cell table text
when at least 2 cells were detected, extract whole-page text, reconcile. -/
def convertBody (o : ImgOracle) : Except String String := do
  let _ ← o.openRes
  let cells ← o.detectRes
  pure (reconcile
    (if cells.length ≥ 2 then extract_table_cells o cells else "")
    (extract_with_multiple_psm_modes o.pageOcr))

/-- Embedding of `convert_image_to_structured_text` (lines 818-871): any
exception raised inside the body is caught and the function returns `None`
(here `none`); no exception ever propagates to the caller. -/
def convert_image_to_structured_text (o : ImgOracle) : Option String :=
  match convertBody o with
  | .ok s => some s
  | .error _ => none

/-- Batch accumulator of `main` (lines 917-932): the collected text parts
(joined into the single output file), the number of images reported
`Success` and the number reported `Failed`. -/
structure BatchResult where
  parts : List String
  succeeded : Nat
  failed : Nat
deriving DecidableEq, Repr

/-- One image of the batch loop: truthy text (`if text:` — neither `None`
nor empty) is collected and counted as a success, anything else as a
failure; processing always continues. -/
def batchStep (b : BatchResult) (o : ImgOracle) : BatchResult :=
  match convert_image_to_structured_text o with
  | some t =>
    if t ≠ "" then BatchResult.mk (b.parts ++ [t]) (b.succeeded + 1) b.failed
    else BatchResult.mk b.parts b.succeeded (b.failed + 1)
  | none => BatchResult.mk b.parts b.succeeded (b.failed + 1)

/-- The image-processing loop of `main`: a left fold over the images in
directory order. -/
def processBatch (os : List ImgOracle) : BatchResult :=
  os.foldl batchStep (BatchResult.mk [] 0 0)

/-- Oracle of an unreadable image: `Image.open` raises. -/
def badOracle : ImgOracle :=
  ImgOracle.mk 0 0 (Except.error "unreadable image") (Except.ok [])
    (fun _ _ => none) (fun _ => none)

/-- Oracle of an image with no table whose page OCR recognises one line. -/
def goodPageOracle : ImgOracle :=
  ImgOracle.mk 100 100 (Except.ok ()) (Except.ok []) (fun _ _ => none)
    (fun _ => some "hello world from the page")

/-- Page OCR oracle that recognises text only under PSM 7 (single line) —
a mode the cell engine uses but the page engine never requests. -/
def psm7Oracle : Nat → Option String :=
  fun psm => if psm = 7 then some "recognized only at psm seven" else none

/-- Contiguous-substring test on character lists (Python `shorter in longer`
on strings). -/
def isSubstrOf (needle hay : List Char) : Bool :=
  (List.range (hay.length + 1)).any (fun i => (hay.drop i).take needle.length = needle)

/-- Similarity predicate as the specification and claim C4 word it: true
exactly when the shorter whitespace-normalized lowercased text IS CONTAINED
in the longer one with a length ratio of at least the threshold, or the
Jaccard similarity of the two word sets is at least the threshold.  This is
the claim-side definition, to be compared with `are_texts_similar` above
(which never performs the containment test). -/
def are_texts_similar_spec (text1 text2 : String) (threshold : ℚ) : Bool :=
  let norm1 := normalizeText text1
  let norm2 := normalizeText text2
  let shorter := if norm1.length < norm2.length then norm1 else norm2
  let longer := if norm1.length < norm2.length then norm2 else norm1
  (isSubstrOf shorter.data longer.data &&
      decide (0 < longer.length ∧ (shorter.length : ℚ) / (longer.length : ℚ) ≥ threshold)) ||
    (!((wordSet norm1).card = 0 ∨ (wordSet norm2).card = 0 : Bool) &&
      decide (0 < (wordSet norm1 ∪ wordSet norm2).card ∧
        ((wordSet norm1 ∩ wordSet norm2).card : ℚ) /
            ((wordSet norm1 ∪ wordSet norm2).card : ℚ) ≥ threshold))

/-! Token analysis for the idempotence of `fix_common_ocr_errors` (claim
C5).  A token is a maximal run of word characters.  After the four leading
`©` rules every `©` is gone, and each remaining substitution acts on whole
tokens (or cannot fire at all once the single-token rules have run), so the
idempotence proof tracks which tokens can appear after each rule. -/

/-- Maximal word-character runs of a string, in order (fuel-driven; the
fuel `s.length + 1` always suffices). -/
def tokensOfF : Nat → List Char → List (List Char)
  | 0, _ => []
  | _ + 1, [] => []
  | fl + 1, d :: s =>
    if isWordChar d then
      (d :: s).takeWhile isWordChar :: tokensOfF fl ((d :: s).dropWhile isWordChar)
    else tokensOfF fl s

def tokensOf (s : List Char) : List (List Char) :=
  tokensOfF (s.length + 1) s

/-- Application of a transformation to every maximal word token, leaving
separator characters untouched. -/
def mapTokensF (f : List Char → List Char) : Nat → List Char → List Char
  | 0, s => s
  | _ + 1, [] => []
  | fl + 1, d :: s =>
    if isWordChar d then
      f ((d :: s).takeWhile isWordChar) ++ mapTokensF f fl ((d :: s).dropWhile isWordChar)
    else d :: mapTokensF f fl s

def mapTokens (f : List Char → List Char) (s : List Char) : List Char :=
  mapTokensF f (s.length + 1) s

/-- The `prev` character after consuming the characters `cs`: the last of
`cs`, or the old `prev` when `cs` is empty. -/
def advPrev (prev : Option Char) (cs : List Char) : Option Char :=
  match cs.getLast? with
  | none => prev
  | some c => some c

/-- Pattern items whose fuel consumption does not depend on the subject. -/
def itemStarFree : RItem → Bool
  | .star _ => false
  | .plus _ => false
  | .grpPlus _ => false
  | .grpAcc _ _ => false
  | _ => true

/-- Token transformation of the rules `\b([a-z])x\b -> \g<1>1` (`x` one of
`i`, `l`, `t`): a two-character token of a lowercase letter followed by `x`
becomes the letter followed by `1`. -/
def fcPair (x : Char) (t : List Char) : List Char :=
  match t with
  | [c, y] => if isLowerAZ c && y == x then [c, '1'] else t
  | _ => t

/-- Pattern of the rules `\b([a-z])x\b`. -/
def patPair (x : Char) : List RItem :=
  [.wb, .grpOne isLowerAZ, .lit x, .wb]

/-- Tokens of the form `Os<digits>` (`O`, `s`, then at least one digit and
nothing else). -/
def osShape (t : List Char) : Bool :=
  match t with
  | c1 :: c2 :: ds => c1 == 'O' && c2 == 's' && !ds.isEmpty && ds.all isAsciiDigit
  | _ => false

/-- Token transformation of `\bOs(\d+)\b -> \1`. -/
def fcOs (t : List Char) : List Char :=
  if osShape t then t.drop 2 else t

/-- Pattern of `\bOs(\d+)\b`. -/
def patOs : List RItem :=
  [.wb, .lit 'O', .lit 's', .grpPlus isAsciiDigit, .wb]

def headIsDigit : List Char → Bool
  | [] => false
  | c :: _ => isAsciiDigit c

/-- Token transformation of a single-token rule `\bw\b -> r`. -/
def fcW (w r : String) (t : List Char) : List Char :=
  if t = w.data then r.data else t

/-- One step of the per-token composite of the token rules: an empty token
stays empty (it has been deleted), otherwise the next rule is applied. -/
def stepFc (u : List Char) (fc : List Char → List Char) : List Char :=
  if u.isEmpty then [] else fc u

/-- The token transformations of the token-shaped rules of
`fix_common_ocr_errors`, in source order (rules on lines 333-346, 363-366,
371-381 and the corrections table 383-419 of `ss_txt2.py`; the anchored and
whitespace-delimited variants in between act on no string reaching them and
are handled separately). -/
def fcList : List (List Char → List Char) :=
  [ fcW "Ic" "c", fcW "Ia" "a", fcW "Ib" "b", fcW "la" "a", fcW "lc" "c",
    fcW "lb" "b", fcW "Oo" "", fcOs, fcPair 'i', fcPair 'l',
    fcW "lon" "c1", fcW "1t" "a1", fcW "at" "a1", fcPair 't',
    fcW "l0" "0", fcW "l1" "1", fcW "l2" "2", fcW "l3" "3", fcW "l4" "4",
    fcW "l5" "5", fcW "l6" "6", fcW "l7" "7", fcW "l8" "8", fcW "l9" "9",
    fcW "O0" "0", fcW "O1" "1", fcW "O2" "2", fcW "O3" "3", fcW "O4" "4",
    fcW "O5" "5", fcW "O6" "6", fcW "O7" "7", fcW "O8" "8", fcW "O9" "9",
    fcW "I0" "10", fcW "I1" "11" ]

/-- Composite action of all token rules on one token. -/
def FCtotal (t : List Char) : List Char :=
  fcList.foldl stepFc t

/-- The tokens some substitution rule rewrites: the single-token rule words,
the `Os<digits>` shapes and the lowercase-letter pairs `_i`, `_l`, `_t`. -/
def badList : List (List Char) :=
  [ "Ic".data, "Ia".data, "Ib".data, "la".data, "lc".data, "lb".data,
    "Oo".data, "lon".data, "1t".data, "at".data,
    "l0".data, "l1".data, "l2".data, "l3".data, "l4".data, "l5".data,
    "l6".data, "l7".data, "l8".data, "l9".data,
    "O0".data, "O1".data, "O2".data, "O3".data, "O4".data, "O5".data,
    "O6".data, "O7".data, "O8".data, "O9".data, "I0".data, "I1".data ]

def pairShape (t : List Char) : Bool :=
  match t with
  | [c, y] => isLowerAZ c && (y == 'i' || y == 'l' || y == 't')
  | _ => false

def badTok (t : List Char) : Bool :=
  badList.contains t || osShape t || pairShape t

/-- A token no substitution rule can rewrite. -/
def stableTok (t : List Char) : Bool :=
  !badTok t

def fcPre7 : List (List Char → List Char) :=
  [ fcW "Ic" "c", fcW "Ia" "a", fcW "Ib" "b", fcW "la" "a", fcW "lc" "c",
    fcW "lb" "b", fcW "Oo" "" ]

def fcCorr : List (List Char → List Char) :=
  [ fcW "l0" "0", fcW "l1" "1", fcW "l2" "2", fcW "l3" "3", fcW "l4" "4",
    fcW "l5" "5", fcW "l6" "6", fcW "l7" "7", fcW "l8" "8", fcW "l9" "9",
    fcW "O0" "0", fcW "O1" "1", fcW "O2" "2", fcW "O3" "3", fcW "O4" "4",
    fcW "O5" "5", fcW "O6" "6", fcW "O7" "7", fcW "O8" "8", fcW "O9" "9",
    fcW "I0" "10", fcW "I1" "11" ]

def fcSix : List (List Char → List Char) :=
  [ fcW "Ic" "c", fcW "Ia" "a", fcW "Ib" "b", fcW "la" "a", fcW "lc" "c",
    fcW "lb" "b" ]

/-- Composite of the six first single-token substitutions. -/
def FC6 (t : List Char) : List Char :=
  fcSix.foldl stepFc t

def sixWords : List (List Char) :=
  ["Ic".data, "Ia".data, "Ib".data, "la".data, "lc".data, "lb".data]

/-- The four leading `©` removal rules of `fix_common_ocr_errors`. -/
def fixA (x : List Char) : List Char :=
  reSub [.lit '©'] (rconst "")
    (reSub [.lit '©', spStar] (rconst "")
      (reSub [.lit '©', spStar, .lit ')'] (rconst ")")
        (reSub [.lit '©', spStar, .grpPlus isAsciiDigit] rgrp x)))

def fcRest : List (List Char → List Char) :=
  [ fcW "Oo" "", fcOs, fcPair 'i', fcPair 'l', fcW "lon" "c1", fcW "1t" "a1",
    fcW "at" "a1", fcPair 't' ] ++ fcCorr

def rulesA : List ((List RItem) × (List Char → List Char)) :=
  [ ([.lit '©', spStar, .grpPlus isAsciiDigit], rgrp),
    ([.lit '©', spStar, .lit ')'], rconst ")"),
    ([.lit '©', spStar], rconst ""),
    ([.lit '©'], rconst "") ]

def rulesB1 : List ((List RItem) × (List Char → List Char)) :=
  [ (wtok "Ic", rconst "c"),
    (wtok "Ia", rconst "a"),
    (wtok "Ib", rconst "b"),
    (wtok "la", rconst "a"),
    (wtok "lc", rconst "c"),
    (wtok "lb", rconst "b") ]

def rulesB2 : List ((List RItem) × (List Char → List Char)) :=
  [ ([.bol false] ++ lits "Ia" ++ [spCls], rconst "a "),
    ([.bol false] ++ lits "Ic" ++ [spCls], rconst "c "),
    ([.bol false] ++ lits "Ib" ++ [spCls], rconst "b "),
    ([.bol false] ++ lits "la" ++ [spCls], rconst "a "),
    ([.bol false] ++ lits "lc" ++ [spCls], rconst "c "),
    ([.bol false] ++ lits "lb" ++ [spCls], rconst "b "),
    ([spCls] ++ lits "Ia" ++ [spCls], rconst " a "),
    ([spCls] ++ lits "Ic" ++ [spCls], rconst " c "),
    ([spCls] ++ lits "Ib" ++ [spCls], rconst " b "),
    ([spCls] ++ lits "la" ++ [spCls], rconst " a "),
    ([spCls] ++ lits "lc" ++ [spCls], rconst " c "),
    ([spCls] ++ lits "lb" ++ [spCls], rconst " b "),
    ([.wb] ++ lits "Ia" ++ [spPlus, .lit 'b', spPlus] ++ lits "Ic" ++ [.wb], rconst "a b c"),
    ([.wb] ++ lits "la" ++ [spPlus, .lit 'b', spPlus] ++ lits "lc" ++ [.wb], rconst "a b c"),
    ([.bol true] ++ lits "Ia" ++ [spPlus, .lit 'b', spPlus] ++ lits "Ic" ++ [spStar, .eolM],
      rconst "a b c"),
    ([.bol true] ++ lits "la" ++ [spPlus, .lit 'b', spPlus] ++ lits "lc" ++ [spStar, .eolM],
      rconst "a b c") ]

def rulesC : List ((List RItem) × (List Char → List Char)) :=
  [ (wtok "Oo", rconst ""),
    ([.bol true] ++ lits "Oo" ++ [spStar, .eolM], rconst "") ]

def rulesD : List ((List RItem) × (List Char → List Char)) :=
  [ ([.wb] ++ lits "Os" ++ [.grpPlus isAsciiDigit, .wb], rgrp),
    ([.wb, .grpOne isLowerAZ, .lit 'i', .wb], rgrp1),
    ([.wb, .grpOne isLowerAZ, .lit 'l', .wb], rgrp1),
    (wtok "lon", rconst "c1"),
    (wtok "1t", rconst "a1"),
    (wtok "at", rconst "a1"),
    ([.wb, .grpOne isLowerAZ, .lit 't', .wb], rgrp1),
    (wtok "l0", rconst "0"),
    (wtok "l1", rconst "1"),
    (wtok "l2", rconst "2"),
    (wtok "l3", rconst "3"),
    (wtok "l4", rconst "4"),
    (wtok "l5", rconst "5"),
    (wtok "l6", rconst "6"),
    (wtok "l7", rconst "7"),
    (wtok "l8", rconst "8"),
    (wtok "l9", rconst "9"),
    (wtok "O0", rconst "0"),
    (wtok "O1", rconst "1"),
    (wtok "O2", rconst "2"),
    (wtok "O3", rconst "3"),
    (wtok "O4", rconst "4"),
    (wtok "O5", rconst "5"),
    (wtok "O6", rconst "6"),
    (wtok "O7", rconst "7"),
    (wtok "O8", rconst "8"),
    (wtok "O9", rconst "9"),
    (wtok "I0", rconst "10"),
    (wtok "I1", rconst "11") ]

/-- Token line in the sense of claim C3: non-empty, at most 8 characters,
containing no whitespace (in particular no space, and stripping is the
identity on it). -/
def isTokenLine (l : String) : Prop :=
  l ≠ "" ∧ l.length ≤ 8 ∧ ∀ c ∈ l.data, isPySpace c = false

/-- Python `str.rstrip()` on a character list. -/
def rstripL (s : List Char) : List Char :=
  (s.reverse.dropWhile isPySpace).reverse

/-- First keep-condition of the line cleanup: the stripped line has more than
one character, or is a single alphanumeric character. -/
def goodB (l : List Char) : Bool :=
  (pyStripList l).length > 1 || singleAlnum (pyStripList l)

/-- Blank line: stripping removes every character. -/
def blankB (l : List Char) : Bool :=
  (pyStripList l).isEmpty

/-- Line the cleanup keeps: good, or blank (after a non-blank line). -/
def lineOK (l : List Char) : Bool :=
  goodB l || blankB l

/-- No kept blank line directly follows another blank line. -/
def chainOK : List (List Char) → Bool
  | [] => true
  | [_] => true
  | a :: b :: t => (!blankB b || !blankB a) && chainOK (b :: t)

/-- The kept lines start with a good line. -/
def headOK : List (List Char) → Bool
  | [] => true
  | h :: _ => goodB h

theorem shorterOf_length_comm (x y : String) :
    (shorterOf x y).length = (shorterOf y x).length := by
  unfold shorterOf
  rcases lt_trichotomy x.length y.length with h | h | h
  · rw [if_pos h, if_neg (not_lt.mpr h.le)]
  · rw [if_neg (by omega), if_neg (by omega)]
    exact h.symm
  · rw [if_neg (not_lt.mpr h.le), if_pos h]

theorem longerOf_length_comm (x y : String) :
    (longerOf x y).length = (longerOf y x).length := by
  unfold longerOf
  rcases lt_trichotomy x.length y.length with h | h | h
  · rw [if_pos h, if_neg (not_lt.mpr h.le)]
  · rw [if_neg (by omega), if_neg (by omega)]
    exact h
  · rw [if_neg (not_lt.mpr h.le), if_pos h]

theorem rowCenterAvg_single (c : Cell) : rowCenterAvg [c] = (cellCenterY c : ℚ) := by
  unfold rowCenterAvg
  simp

theorem groupFold_eq_spec (tol : ℚ) :
    ∀ (cs : List Cell) (rows : List (List Cell)) (cur : List Cell), cur ≠ [] →
      finishRows (cs.foldl (groupStep tol) (rows, cur, some (rowCenterAvg cur))) =
      specGroupGo tol cur rows cs := by
  intro cs
  induction cs with
  | nil =>
    intro rows cur hcur
    simp only [List.foldl_nil, specGroupGo, finishRows]
    rw [if_pos hcur]
  | cons c cs ih =>
    intro rows cur hcur
    simp only [List.foldl_cons, specGroupGo]
    by_cases h : |(cellCenterY c : ℚ) - rowCenterAvg cur| ≤ tol
    · have hst : groupStep tol (rows, cur, some (rowCenterAvg cur)) c =
          (rows, cur ++ [c], some (rowCenterAvg (cur ++ [c]))) := by
        simp only [groupStep]
        rw [if_pos h]
      rw [hst, if_pos h]
      exact ih rows (cur ++ [c]) (by simp)
    · have hst : groupStep tol (rows, cur, some (rowCenterAvg cur)) c =
          (rows ++ [sortByX cur], [c], some ((cellCenterY c : ℚ))) := by
        simp only [groupStep]
        rw [if_neg h, if_pos hcur]
      rw [hst, if_neg h, show ((cellCenterY c : ℚ)) = rowCenterAvg [c] from
        (rowCenterAvg_single c).symm]
      exact ih (rows ++ [sortByX cur]) [c] (by simp)

/-- C7: `group_cells_into_rows` computes exactly the grouping described by
the claim — tolerance `max(average height * 0.5, 15)`, `(y, x)` sort,
greedy assignment by distance of each cell's vertical center to the running
average of the current row's centers (recomputed after each addition), new
row otherwise, rows sorted by `x`. -/
theorem c7_group_matches_spec (cells : List Cell) :
    group_cells_into_rows cells = spec_group_into_rows cells := by
  by_cases hc : cells = []
  · rw [hc]
    rfl
  · unfold group_cells_into_rows spec_group_into_rows
    rw [if_neg hc]
    cases hs : sortByYX cells with
    | nil =>
      exfalso
      have := (List.perm_insertionSort leYX cells).length_eq
      rw [show List.insertionSort leYX cells = sortByYX cells from rfl, hs] at this
      simp at this
      exact hc (List.eq_nil_of_length_eq_zero this.symm)
    | cons c cs =>
      simp only [List.foldl_cons]
      have hst : groupStep (max (avgCellHeight cells * (1 / 2)) 15) ([], [], none) c =
          ([], [c], some ((cellCenterY c : ℚ))) := rfl
      rw [hst, show ((cellCenterY c : ℚ)) = rowCenterAvg [c] from (rowCenterAvg_single c).symm]
      exact groupFold_eq_spec _ cs [] [c] (by simp)

theorem groupFold_perm (tol : ℚ) :
    ∀ (cs : List Cell) (rows : List (List Cell)) (cur : List Cell) (ry : Option ℚ),
      List.Perm
        ((cs.foldl (groupStep tol) (rows, cur, ry)).1.flatten ++
          (cs.foldl (groupStep tol) (rows, cur, ry)).2.1)
        (rows.flatten ++ cur ++ cs) := by
  intro cs
  induction cs with
  | nil =>
    intro rows cur ry
    simp
  | cons c cs ih =>
    intro rows cur ry
    simp only [List.foldl_cons]
    match ry with
    | none =>
      have hst : groupStep tol (rows, cur, none) c =
          (rows, cur ++ [c], some ((cellCenterY c : ℚ))) := rfl
      rw [hst]
      have h1 := ih rows (cur ++ [c]) (some ((cellCenterY c : ℚ)))
      refine h1.trans ?_
      simp [List.append_assoc]
    | some ry =>
      by_cases h : |(cellCenterY c : ℚ) - ry| ≤ tol
      · have hst : groupStep tol (rows, cur, some ry) c =
            (rows, cur ++ [c], some (rowCenterAvg (cur ++ [c]))) := by
          simp only [groupStep]
          rw [if_pos h]
        rw [hst]
        refine (ih rows (cur ++ [c]) _).trans ?_
        simp [List.append_assoc]
      · have hst : groupStep tol (rows, cur, some ry) c =
            ((if cur ≠ [] then rows ++ [sortByX cur] else rows), [c],
              some ((cellCenterY c : ℚ))) := by
          simp only [groupStep]
          rw [if_neg h]
        rw [hst]
        by_cases hcur : cur = []
        · rw [if_neg (by simp [hcur])]
          refine (ih rows [c] _).trans ?_
          simp [hcur]
        · rw [if_pos hcur]
          refine (ih (rows ++ [sortByX cur]) [c] _).trans ?_
          simp only [List.flatten_append, List.flatten_cons, List.flatten_nil, List.append_nil,
            List.append_assoc]
          exact List.Perm.append_left _
            ((List.perm_insertionSort leX cur).append_right (c :: cs))

/-- C9: for every non-empty list of cell rectangles the rows returned by
`group_cells_into_rows` form a partition of the input — their concatenation
is a permutation of the input list (no cell dropped, duplicated or
invented). -/
theorem c9_group_partition (cells : List Cell) (hne : cells ≠ []) :
    List.Perm (group_cells_into_rows cells).flatten cells := by
  unfold group_cells_into_rows
  rw [if_neg hne]
  have inv := groupFold_perm (max (avgCellHeight cells * (1 / 2)) 15) (sortByYX cells) [] [] none
  have hsorted : List.Perm (sortByYX cells) cells := List.perm_insertionSort leYX cells
  simp only [List.flatten_nil, List.nil_append] at inv
  unfold finishRows
  by_cases hcur :
      ((sortByYX cells).foldl (groupStep (max (avgCellHeight cells * (1 / 2)) 15))
        ([], [], none)).2.1 = []
  · rw [if_neg (fun hx => hx hcur)]
    have h2 : List.Perm
        (((sortByYX cells).foldl (groupStep (max (avgCellHeight cells * (1 / 2)) 15))
          ([], [], none)).1.flatten) (sortByYX cells) := by
      have h3 := inv
      rw [hcur, List.append_nil] at h3
      exact h3
    exact h2.trans hsorted
  · rw [if_pos hcur]
    rw [List.flatten_append, List.flatten_cons, List.flatten_nil, List.append_nil]
    refine (List.Perm.append_left _ (List.perm_insertionSort leX _)).trans ?_
    exact inv.trans hsorted

/-- Witness for C9 at a concrete non-empty input. -/
theorem c9_group_partition_witness :
    List.Perm (group_cells_into_rows
      [Cell.mk 50 0 10 10, Cell.mk 0 2 10 10, Cell.mk 0 40 10 10]).flatten
      [Cell.mk 50 0 10 10, Cell.mk 0 2 10 10, Cell.mk 0 40 10 10] :=
  c9_group_partition _ (by decide)

/-- C8: the borderless table detector promotes its text regions to
candidate cells only when every validation passes — the regions group into
at least 2 rows, at least 70% of the rows have a column count within ±1 of
the rows' mean column count, and at least 60% of the rows are x-aligned
with the first row within 15% of the image width.  If any validation fails
the detector returns zero candidate cells, so a non-empty result implies
all three. -/
theorem c8_validations_necessary (regions : List Cell) (width : Nat)
    (h : validateTextRegions regions width ≠ []) :
    2 ≤ (regionRows regions).length ∧
    ((regionRows regions).length : ℚ) * (7 / 10) ≤ (similarColsCount regions : ℚ) ∧
    ((regionRows regions).length : ℚ) * (6 / 10) ≤ (alignedRowsCount regions width : ℚ) := by
  unfold validateTextRegions at h
  split_ifs at h with h1 h2 h3 h4 h5 h6
  · exact ⟨h2, h3, h6⟩
  all_goals exact absurd rfl h

/-- Witness for C8 at a concrete promoted input: a clean 2-by-2 grid of
text regions in a 200px-wide image passes all validations. -/
theorem c8_validations_necessary_witness :
    2 ≤ (regionRows
      [Cell.mk 0 0 10 10, Cell.mk 50 0 10 10, Cell.mk 0 100 10 10,
        Cell.mk 50 100 10 10]).length ∧
    ((regionRows [Cell.mk 0 0 10 10, Cell.mk 50 0 10 10, Cell.mk 0 100 10 10,
        Cell.mk 50 100 10 10]).length : ℚ) * (7 / 10) ≤
      (similarColsCount [Cell.mk 0 0 10 10, Cell.mk 50 0 10 10, Cell.mk 0 100 10 10,
        Cell.mk 50 100 10 10] : ℚ) ∧
    ((regionRows [Cell.mk 0 0 10 10, Cell.mk 50 0 10 10, Cell.mk 0 100 10 10,
        Cell.mk 50 100 10 10]).length : ℚ) * (6 / 10) ≤
      (alignedRowsCount [Cell.mk 0 0 10 10, Cell.mk 50 0 10 10, Cell.mk 0 100 10 10,
        Cell.mk 50 100 10 10] 200 : ℚ) :=
  c8_validations_necessary
    [Cell.mk 0 0 10 10, Cell.mk 50 0 10 10, Cell.mk 0 100 10 10, Cell.mk 50 100 10 10] 200
    (by with_unfolding_all decide)

theorem batchStep_decomp (b : BatchResult) (o : ImgOracle) :
    batchStep b o = BatchResult.mk
      (b.parts ++ (batchStep (BatchResult.mk [] 0 0) o).parts)
      (b.succeeded + (batchStep (BatchResult.mk [] 0 0) o).succeeded)
      (b.failed + (batchStep (BatchResult.mk [] 0 0) o).failed) := by
  cases h : convert_image_to_structured_text o with
  | none => simp [batchStep, h]
  | some t =>
    by_cases ht : t ≠ ""
    · simp [batchStep, h, ht]
    · simp [batchStep, h, ht]

theorem processBatch_go (os : List ImgOracle) :
    ∀ (b : BatchResult), os.foldl batchStep b = BatchResult.mk
      (b.parts ++ (processBatch os).parts)
      (b.succeeded + (processBatch os).succeeded)
      (b.failed + (processBatch os).failed) := by
  induction os with
  | nil =>
    intro b
    cases b
    simp [processBatch]
  | cons o os ih =>
    intro b
    show os.foldl batchStep (batchStep b o) = _
    have hr : processBatch (o :: os) = BatchResult.mk
        ((batchStep (BatchResult.mk [] 0 0) o).parts ++ (processBatch os).parts)
        ((batchStep (BatchResult.mk [] 0 0) o).succeeded + (processBatch os).succeeded)
        ((batchStep (BatchResult.mk [] 0 0) o).failed + (processBatch os).failed) := by
      show os.foldl batchStep (batchStep (BatchResult.mk [] 0 0) o) = _
      rw [ih (batchStep (BatchResult.mk [] 0 0) o)]
    rw [ih (batchStep b o), hr, batchStep_decomp b o]
    simp only [BatchResult.mk.injEq]
    refine ⟨by simp, by omega, by omega⟩

theorem processBatch_append (xs ys : List ImgOracle) :
    processBatch (xs ++ ys) = BatchResult.mk
      ((processBatch xs).parts ++ (processBatch ys).parts)
      ((processBatch xs).succeeded + (processBatch ys).succeeded)
      ((processBatch xs).failed + (processBatch ys).failed) := by
  unfold processBatch
  rw [List.foldl_append]
  exact processBatch_go ys _

theorem length_dropWhile_le' (p : Char → Bool) :
    ∀ (s : List Char), (s.dropWhile p).length ≤ s.length := by
  intro s
  induction s with
  | nil => simp
  | cons a t ih =>
    rw [List.dropWhile_cons]
    split
    · exact le_trans ih (by simp)
    · simp

theorem dropWhile_cons_word_lt (p : Char → Bool) (d : Char) (s : List Char)
    (hd : p d = true) : ((d :: s).dropWhile p).length < (d :: s).length := by
  rw [List.dropWhile_cons_of_pos hd]
  exact Nat.lt_succ_of_le (length_dropWhile_le' p s)

theorem tokensOfF_fuel :
    ∀ f g (s : List Char), s.length < f → s.length < g → tokensOfF f s = tokensOfF g s := by
  intro f
  induction f with
  | zero => intro g s hf; omega
  | succ f ih =>
    intro g s hf hg
    cases g with
    | zero => omega
    | succ g =>
      cases s with
      | nil => rfl
      | cons d s =>
        show (if isWordChar d then _ else _) = (if isWordChar d then _ else _)
        by_cases hd : isWordChar d = true
        · rw [if_pos hd, if_pos hd]
          have hlt := dropWhile_cons_word_lt isWordChar d s hd
          rw [ih g ((d :: s).dropWhile isWordChar) (by omega) (by omega)]
        · rw [if_neg (by simpa using hd), if_neg (by simpa using hd)]
          exact ih g s (by simp at hf; omega) (by simp at hg; omega)

theorem mapTokensF_fuel (fc : List Char → List Char) :
    ∀ f g (s : List Char), s.length < f → s.length < g → mapTokensF fc f s = mapTokensF fc g s := by
  intro f
  induction f with
  | zero => intro g s hf; omega
  | succ f ih =>
    intro g s hf hg
    cases g with
    | zero => omega
    | succ g =>
      cases s with
      | nil => rfl
      | cons d s =>
        show (if isWordChar d then _ else _) = (if isWordChar d then _ else _)
        by_cases hd : isWordChar d = true
        · rw [if_pos hd, if_pos hd]
          have hlt := dropWhile_cons_word_lt isWordChar d s hd
          rw [ih g ((d :: s).dropWhile isWordChar) (by omega) (by omega)]
        · rw [if_neg (by simpa using hd), if_neg (by simpa using hd)]
          rw [ih g s (by simp at hf; omega) (by simp at hg; omega)]

theorem tokensOf_cons_word (d : Char) (s : List Char) (hd : isWordChar d = true) :
    tokensOf (d :: s) =
      (d :: s).takeWhile isWordChar :: tokensOf ((d :: s).dropWhile isWordChar) := by
  show tokensOfF ((d :: s).length + 1) (d :: s) = _
  rw [show tokensOfF ((d :: s).length + 1) (d :: s) =
      (if isWordChar d then (d :: s).takeWhile isWordChar ::
        tokensOfF (d :: s).length ((d :: s).dropWhile isWordChar)
      else tokensOfF (d :: s).length s) from rfl, if_pos hd]
  rw [tokensOfF_fuel (d :: s).length (((d :: s).dropWhile isWordChar).length + 1)
    ((d :: s).dropWhile isWordChar) (dropWhile_cons_word_lt isWordChar d s hd) (by omega)]
  rfl

theorem tokensOf_cons_sep (d : Char) (s : List Char) (hd : isWordChar d = false) :
    tokensOf (d :: s) = tokensOf s := by
  show tokensOfF ((d :: s).length + 1) (d :: s) = _
  rw [show tokensOfF ((d :: s).length + 1) (d :: s) =
      (if isWordChar d then (d :: s).takeWhile isWordChar ::
        tokensOfF (d :: s).length ((d :: s).dropWhile isWordChar)
      else tokensOfF (d :: s).length s) from rfl, if_neg (by simp [hd])]
  exact tokensOfF_fuel (d :: s).length (s.length + 1) s (by simp) (by omega)

theorem mapTokens_cons_word (fc : List Char → List Char) (d : Char) (s : List Char)
    (hd : isWordChar d = true) :
    mapTokens fc (d :: s) =
      fc ((d :: s).takeWhile isWordChar) ++ mapTokens fc ((d :: s).dropWhile isWordChar) := by
  show mapTokensF fc ((d :: s).length + 1) (d :: s) = _
  rw [show mapTokensF fc ((d :: s).length + 1) (d :: s) =
      (if isWordChar d then fc ((d :: s).takeWhile isWordChar) ++
        mapTokensF fc (d :: s).length ((d :: s).dropWhile isWordChar)
      else d :: mapTokensF fc (d :: s).length s) from rfl, if_pos hd]
  rw [mapTokensF_fuel fc (d :: s).length (((d :: s).dropWhile isWordChar).length + 1)
    ((d :: s).dropWhile isWordChar) (dropWhile_cons_word_lt isWordChar d s hd) (by omega)]
  rfl

theorem mapTokens_cons_sep (fc : List Char → List Char) (d : Char) (s : List Char)
    (hd : isWordChar d = false) :
    mapTokens fc (d :: s) = d :: mapTokens fc s := by
  show mapTokensF fc ((d :: s).length + 1) (d :: s) = _
  rw [show mapTokensF fc ((d :: s).length + 1) (d :: s) =
      (if isWordChar d then fc ((d :: s).takeWhile isWordChar) ++
        mapTokensF fc (d :: s).length ((d :: s).dropWhile isWordChar)
      else d :: mapTokensF fc (d :: s).length s) from rfl, if_neg (by simp [hd])]
  rw [mapTokensF_fuel fc (d :: s).length (s.length + 1) s (by simp) (by omega)]
  rfl

theorem takeWhile_word_of_head_false (s : List Char) (h : headIsWord s = false) :
    s.takeWhile isWordChar = [] := by
  cases s with
  | nil => rfl
  | cons a t =>
    rw [List.takeWhile_cons_of_neg]
    simp only [headIsWord] at h
    simp [h]

theorem dropWhile_word_of_head_false (s : List Char) (h : headIsWord s = false) :
    s.dropWhile isWordChar = s := by
  cases s with
  | nil => rfl
  | cons a t =>
    rw [List.dropWhile_cons_of_neg]
    simp only [headIsWord] at h
    simp [h]

theorem headIsWord_dropWhile_word (s : List Char) :
    headIsWord (s.dropWhile isWordChar) = false := by
  induction s with
  | nil => rfl
  | cons a t ih =>
    rw [List.dropWhile_cons]
    split
    · exact ih
    · simp only [headIsWord]
      rename_i h
      simpa using h

theorem tokensOf_token_block (t rest : List Char) (ht : t ≠ [])
    (hw : ∀ c ∈ t, isWordChar c = true) (hr : headIsWord rest = false) :
    tokensOf (t ++ rest) = t :: tokensOf rest := by
  cases t with
  | nil => exact absurd rfl ht
  | cons c t' =>
    rw [show (c :: t') ++ rest = c :: (t' ++ rest) from rfl,
      tokensOf_cons_word c (t' ++ rest) (hw c (by simp))]
    have htake : (c :: (t' ++ rest)).takeWhile isWordChar = c :: t' := by
      rw [List.takeWhile_cons_of_pos (hw c (by simp)),
        List.takeWhile_append_of_pos (fun a ha => hw a (by simp [ha])),
        takeWhile_word_of_head_false rest hr, List.append_nil]
    have hdrop : (c :: (t' ++ rest)).dropWhile isWordChar = rest := by
      rw [List.dropWhile_cons_of_pos (hw c (by simp)),
        List.dropWhile_append_of_pos (fun a ha => hw a (by simp [ha])),
        dropWhile_word_of_head_false rest hr]
    rw [htake, hdrop]

theorem mapTokens_token_block (fc : List Char → List Char) (t rest : List Char) (ht : t ≠ [])
    (hw : ∀ c ∈ t, isWordChar c = true) (hr : headIsWord rest = false) :
    mapTokens fc (t ++ rest) = fc t ++ mapTokens fc rest := by
  cases t with
  | nil => exact absurd rfl ht
  | cons c t' =>
    rw [show (c :: t') ++ rest = c :: (t' ++ rest) from rfl,
      mapTokens_cons_word fc c (t' ++ rest) (hw c (by simp))]
    have htake : (c :: (t' ++ rest)).takeWhile isWordChar = c :: t' := by
      rw [List.takeWhile_cons_of_pos (hw c (by simp)),
        List.takeWhile_append_of_pos (fun a ha => hw a (by simp [ha])),
        takeWhile_word_of_head_false rest hr, List.append_nil]
    have hdrop : (c :: (t' ++ rest)).dropWhile isWordChar = rest := by
      rw [List.dropWhile_cons_of_pos (hw c (by simp)),
        List.dropWhile_append_of_pos (fun a ha => hw a (by simp [ha])),
        dropWhile_word_of_head_false rest hr]
    rw [htake, hdrop]

theorem headIsWord_mapTokens (fc : List Char → List Char) (s : List Char)
    (h : headIsWord s = false) : headIsWord (mapTokens fc s) = false := by
  cases s with
  | nil => rfl
  | cons d s' =>
    simp only [headIsWord] at h
    rw [mapTokens_cons_sep fc d s' h]
    simpa [headIsWord] using h

theorem tokensOf_all_word_aux :
    ∀ n (s : List Char), s.length ≤ n →
      ∀ t ∈ tokensOf s, t ≠ [] ∧ ∀ c ∈ t, isWordChar c = true := by
  intro n
  induction n with
  | zero =>
    intro s hs t htm
    have : s = [] := List.eq_nil_of_length_eq_zero (by omega)
    rw [this] at htm
    simp [tokensOf, tokensOfF] at htm
  | succ n ih =>
    intro s hs t htm
    cases s with
    | nil => simp [tokensOf, tokensOfF] at htm
    | cons d s' =>
      by_cases hd : isWordChar d = true
      · rw [tokensOf_cons_word d s' hd] at htm
        rcases List.mem_cons.mp htm with h | h
        · constructor
          · rw [h, List.takeWhile_cons_of_pos hd]
            simp
          · intro c hc
            rw [h] at hc
            exact List.mem_takeWhile_imp hc
        · have hlt := dropWhile_cons_word_lt isWordChar d s' hd
          exact ih ((d :: s').dropWhile isWordChar) (by simp only [List.length_cons] at hs hlt; omega) t h
      · rw [tokensOf_cons_sep d s' (by simpa using hd)] at htm
        exact ih s' (by simp only [List.length_cons] at hs; omega) t htm

theorem tokensOf_all_word (s : List Char) :
    ∀ t ∈ tokensOf s, t ≠ [] ∧ ∀ c ∈ t, isWordChar c = true :=
  tokensOf_all_word_aux s.length s (le_refl _)

theorem mapTokens_id_aux (fc : List Char → List Char) :
    ∀ n (s : List Char), s.length ≤ n → (∀ t ∈ tokensOf s, fc t = t) →
      mapTokens fc s = s := by
  intro n
  induction n with
  | zero =>
    intro s hs _
    have : s = [] := List.eq_nil_of_length_eq_zero (by omega)
    rw [this]
    rfl
  | succ n ih =>
    intro s hs hid
    cases s with
    | nil => rfl
    | cons d s' =>
      by_cases hd : isWordChar d = true
      · rw [mapTokens_cons_word fc d s' hd]
        have h0 : fc ((d :: s').takeWhile isWordChar) = (d :: s').takeWhile isWordChar := by
          apply hid
          rw [tokensOf_cons_word d s' hd]
          simp
        have hlt := dropWhile_cons_word_lt isWordChar d s' hd
        rw [h0, ih ((d :: s').dropWhile isWordChar)
          (by simp only [List.length_cons] at hs hlt; omega)
          (by
            intro t htm
            apply hid
            rw [tokensOf_cons_word d s' hd]
            simp [htm]),
          List.takeWhile_append_dropWhile]
      · rw [mapTokens_cons_sep fc d s' (by simpa using hd)]
        rw [ih s' (by simp only [List.length_cons] at hs; omega)
          (by
            intro t htm
            apply hid
            rw [tokensOf_cons_sep d s' (by simpa using hd)]
            exact htm)]

theorem mapTokens_id (fc : List Char → List Char) (s : List Char)
    (h : ∀ t ∈ tokensOf s, fc t = t) : mapTokens fc s = s :=
  mapTokens_id_aux fc s.length s (le_refl _) h

theorem tokensOf_mapTokens_aux (fc : List Char → List Char) :
    ∀ n (s : List Char), s.length ≤ n →
      (∀ t ∈ tokensOf s, ∀ c ∈ fc t, isWordChar c = true) →
      tokensOf (mapTokens fc s) = ((tokensOf s).map fc).filter (fun u => !u.isEmpty) := by
  intro n
  induction n with
  | zero =>
    intro s hs _
    have : s = [] := List.eq_nil_of_length_eq_zero (by omega)
    rw [this]
    rfl
  | succ n ih =>
    intro s hs hf
    cases s with
    | nil => rfl
    | cons d s' =>
      by_cases hd : isWordChar d = true
      · have htokmem : (d :: s').takeWhile isWordChar ∈ tokensOf (d :: s') := by
          rw [tokensOf_cons_word d s' hd]
          simp
        have hlt := dropWhile_cons_word_lt isWordChar d s' hd
        have hretok : ∀ t ∈ tokensOf ((d :: s').dropWhile isWordChar),
            ∀ c ∈ fc t, isWordChar c = true := by
          intro t htm
          apply hf
          rw [tokensOf_cons_word d s' hd]
          simp [htm]
        have hIH := ih ((d :: s').dropWhile isWordChar)
          (by simp only [List.length_cons] at hs hlt; omega) hretok
        rw [mapTokens_cons_word fc d s' hd, tokensOf_cons_word d s' hd]
        by_cases hft : fc ((d :: s').takeWhile isWordChar) = []
        · rw [hft, List.nil_append, hIH]
          simp [hft]
        · have hr : headIsWord ((d :: s').dropWhile isWordChar) = false :=
            headIsWord_dropWhile_word (d :: s')
          rw [tokensOf_token_block (fc ((d :: s').takeWhile isWordChar))
            (mapTokens fc ((d :: s').dropWhile isWordChar)) hft
            (hf _ htokmem) (headIsWord_mapTokens fc _ hr), hIH]
          simp [hft]
      · rw [mapTokens_cons_sep fc d s' (by simpa using hd),
          tokensOf_cons_sep d (mapTokens fc s') (by simpa using hd),
          tokensOf_cons_sep d s' (by simpa using hd)]
        exact ih s' (by simp only [List.length_cons] at hs; omega)
          (by
            intro t htm
            apply hf
            rw [tokensOf_cons_sep d s' (by simpa using hd)]
            exact htm)

theorem tokensOf_mapTokens (fc : List Char → List Char) (s : List Char)
    (hf : ∀ t ∈ tokensOf s, ∀ c ∈ fc t, isWordChar c = true) :
    tokensOf (mapTokens fc s) = ((tokensOf s).map fc).filter (fun u => !u.isEmpty) :=
  tokensOf_mapTokens_aux fc s.length s (le_refl _) hf

theorem not_mem_mapTokens_aux (fc : List Char → List Char) (ch : Char) :
    ∀ n (s : List Char), s.length ≤ n → ch ∉ s → (∀ t ∈ tokensOf s, ch ∉ fc t) →
      ch ∉ mapTokens fc s := by
  intro n
  induction n with
  | zero =>
    intro s hs _ _
    have : s = [] := List.eq_nil_of_length_eq_zero (by omega)
    rw [this]
    simp [mapTokens, mapTokensF]
  | succ n ih =>
    intro s hs hcs hft
    cases s with
    | nil => simp [mapTokens, mapTokensF]
    | cons d s' =>
      by_cases hd : isWordChar d = true
      · rw [mapTokens_cons_word fc d s' hd]
        intro hmem
        rcases List.mem_append.mp hmem with h | h
        · exact hft _ (by rw [tokensOf_cons_word d s' hd]; simp) h
        · have hlt := dropWhile_cons_word_lt isWordChar d s' hd
          refine ih ((d :: s').dropWhile isWordChar)
            (by simp only [List.length_cons] at hs hlt; omega)
            (fun hm => hcs ((List.dropWhile_sublist isWordChar).mem hm))
            ?_ h
          intro t htm
          exact hft t (by rw [tokensOf_cons_word d s' hd]; simp [htm])
      · rw [mapTokens_cons_sep fc d s' (by simpa using hd)]
        intro hmem
        rcases List.mem_cons.mp hmem with h | h
        · exact hcs (by simp [h])
        · refine ih s' (by simp only [List.length_cons] at hs; omega)
            (fun hm => hcs (by simp [hm])) ?_ h
          intro t htm
          exact hft t (by rw [tokensOf_cons_sep d s' (by simpa using hd)]; exact htm)

theorem not_mem_mapTokens (fc : List Char → List Char) (ch : Char) (s : List Char)
    (hcs : ch ∉ s) (hft : ∀ t ∈ tokensOf s, ch ∉ fc t) : ch ∉ mapTokens fc s :=
  not_mem_mapTokens_aux fc ch s.length s (le_refl _) hcs hft

theorem m_zero (pat : List RItem) (prev : Option Char) (s : List Char) :
    matchItems 0 pat prev s = none := rfl

theorem m_nil (f : Nat) (prev : Option Char) (s : List Char) :
    matchItems (f + 1) [] prev s = some (0, []) := rfl

theorem m_lit_cons (f : Nat) (c : Char) (k : List RItem) (prev : Option Char) (d : Char)
    (s : List Char) :
    matchItems (f + 1) (.lit c :: k) prev (d :: s) =
      if d = c then (matchItems f k (some d) s).map (fun r => (r.1 + 1, r.2)) else none := rfl

theorem m_lit_nil (f : Nat) (c : Char) (k : List RItem) (prev : Option Char) :
    matchItems (f + 1) (.lit c :: k) prev [] = none := rfl

theorem m_cls_cons (f : Nat) (p : Char → Bool) (k : List RItem) (prev : Option Char) (d : Char)
    (s : List Char) :
    matchItems (f + 1) (.cls p :: k) prev (d :: s) =
      if p d then (matchItems f k (some d) s).map (fun r => (r.1 + 1, r.2)) else none := rfl

theorem m_cls_nil (f : Nat) (p : Char → Bool) (k : List RItem) (prev : Option Char) :
    matchItems (f + 1) (.cls p :: k) prev [] = none := rfl

theorem m_star_nil (f : Nat) (p : Char → Bool) (k : List RItem) (prev : Option Char) :
    matchItems (f + 1) (.star p :: k) prev [] = matchItems f k prev [] := rfl

theorem m_star_cons (f : Nat) (p : Char → Bool) (k : List RItem) (prev : Option Char) (d : Char)
    (s : List Char) :
    matchItems (f + 1) (.star p :: k) prev (d :: s) =
      if p d then
        match matchItems f (.star p :: k) (some d) s with
        | some r => some (r.1 + 1, r.2)
        | none => matchItems f k prev (d :: s)
      else matchItems f k prev (d :: s) := rfl

theorem m_plus_cons (f : Nat) (p : Char → Bool) (k : List RItem) (prev : Option Char) (d : Char)
    (s : List Char) :
    matchItems (f + 1) (.plus p :: k) prev (d :: s) =
      if p d then (matchItems f (.star p :: k) (some d) s).map (fun r => (r.1 + 1, r.2))
      else none := rfl

theorem m_plus_nil (f : Nat) (p : Char → Bool) (k : List RItem) (prev : Option Char) :
    matchItems (f + 1) (.plus p :: k) prev [] = none := rfl

theorem m_grpPlus_cons (f : Nat) (p : Char → Bool) (k : List RItem) (prev : Option Char) (d : Char)
    (s : List Char) :
    matchItems (f + 1) (.grpPlus p :: k) prev (d :: s) =
      if p d then matchItems f (.grpAcc p [d] :: k) (some d) s else none := rfl

theorem m_grpPlus_nil (f : Nat) (p : Char → Bool) (k : List RItem) (prev : Option Char) :
    matchItems (f + 1) (.grpPlus p :: k) prev [] = none := rfl

theorem m_grpAcc_nil (f : Nat) (p : Char → Bool) (acc : List Char) (k : List RItem)
    (prev : Option Char) :
    matchItems (f + 1) (.grpAcc p acc :: k) prev [] =
      (matchItems f k prev []).map (fun r => (r.1 + acc.length, acc)) := rfl

theorem m_grpAcc_cons (f : Nat) (p : Char → Bool) (acc : List Char) (k : List RItem)
    (prev : Option Char) (d : Char) (s : List Char) :
    matchItems (f + 1) (.grpAcc p acc :: k) prev (d :: s) =
      match (if p d then matchItems f (.grpAcc p (acc ++ [d]) :: k) (some d) s else none) with
      | some r => some r
      | none => (matchItems f k prev (d :: s)).map (fun r => (r.1 + acc.length, acc)) := rfl

theorem m_grpOne_cons (f : Nat) (p : Char → Bool) (k : List RItem) (prev : Option Char) (d : Char)
    (s : List Char) :
    matchItems (f + 1) (.grpOne p :: k) prev (d :: s) =
      if p d then (matchItems f k (some d) s).map (fun r => (r.1 + 1, [d])) else none := rfl

theorem m_grpOne_nil (f : Nat) (p : Char → Bool) (k : List RItem) (prev : Option Char) :
    matchItems (f + 1) (.grpOne p :: k) prev [] = none := rfl

theorem m_wb (f : Nat) (k : List RItem) (prev : Option Char) (s : List Char) :
    matchItems (f + 1) (.wb :: k) prev s =
      if isWordCharOpt prev != headIsWord s then matchItems f k prev s else none := rfl

theorem m_bol_none (f : Nat) (m : Bool) (k : List RItem) (s : List Char) :
    matchItems (f + 1) (.bol m :: k) none s = matchItems f k none s := rfl

theorem m_bol_some (f : Nat) (m : Bool) (k : List RItem) (c : Char) (s : List Char) :
    matchItems (f + 1) (.bol m :: k) (some c) s =
      if m && c = '\n' then matchItems f k (some c) s else none := rfl

theorem m_eolM_nil (f : Nat) (k : List RItem) (prev : Option Char) :
    matchItems (f + 1) (.eolM :: k) prev [] = matchItems f k prev [] := rfl

theorem m_eolM_cons (f : Nat) (k : List RItem) (prev : Option Char) (c : Char) (s : List Char) :
    matchItems (f + 1) (.eolM :: k) prev (c :: s) =
      if c = '\n' then matchItems f k prev (c :: s) else none := rfl

theorem advPrev_nil (prev : Option Char) : advPrev prev [] = prev := rfl

theorem advPrev_cons (prev : Option Char) (a : Char) (l : List Char) :
    advPrev prev (a :: l) = advPrev (some a) l := by
  cases l with
  | nil => rfl
  | cons b t =>
    cases h : (b :: t).getLast? with
    | none => exact absurd (List.getLast?_eq_none_iff.mp h) (by simp)
    | some c => simp [advPrev, List.getLast?_cons_cons, h]

theorem advPrev_word (prev : Option Char) (w : List Char) (hne : w ≠ [])
    (hw : ∀ c ∈ w, isWordChar c = true) : isWordCharOpt (advPrev prev w) = true := by
  cases h : w.getLast? with
  | none => exact absurd (List.getLast?_eq_none_iff.mp h) hne
  | some c =>
    have hc : c ∈ w := by
      have := List.getLast?_eq_some_iff.mp h
      obtain ⟨l, hl⟩ := this
      rw [hl]
      simp
    simp [advPrev, h, isWordCharOpt, hw c hc]

theorem matchItems_lits (cs : List Char) :
    ∀ (f : Nat) (k : List RItem) (prev : Option Char) (s : List Char),
    matchItems (f + cs.length) (cs.map RItem.lit ++ k) prev s =
      if cs.isPrefixOf s then
        (matchItems f k (advPrev prev cs) (s.drop cs.length)).map
          (fun r => (r.1 + cs.length, r.2))
      else none := by
  induction cs with
  | nil =>
    intro f k prev s
    simp only [List.map_nil, List.nil_append, List.isPrefixOf, if_true, List.length_nil,
      List.drop_zero, advPrev_nil, Nat.add_zero]
    cases matchItems f k prev s with
    | none => rfl
    | some r => rfl
  | cons c cs ih =>
    intro f k prev s
    cases s with
    | nil =>
      rw [show f + (c :: cs).length = (f + cs.length) + 1 from rfl]
      rw [List.map_cons, List.cons_append, m_lit_nil]
      rw [show (c :: cs).isPrefixOf ([] : List Char) = false from rfl]
      simp
    | cons d s' =>
      rw [show f + (c :: cs).length = (f + cs.length) + 1 from rfl]
      rw [List.map_cons, List.cons_append, m_lit_cons]
      rw [show (c :: cs).isPrefixOf (d :: s') = (c == d && cs.isPrefixOf s') from rfl]
      rw [show ((d :: s').drop (c :: cs).length) = s'.drop cs.length from rfl]
      by_cases hdc : d = c
      · subst hdc
        rw [if_pos rfl, ih f k (some d) s', advPrev_cons]
        rw [show (d == d && cs.isPrefixOf s') = cs.isPrefixOf s' by simp]
        by_cases hp : cs.isPrefixOf s' = true
        · rw [if_pos hp, if_pos hp]
          cases matchItems f k (advPrev (some d) cs) (s'.drop cs.length) with
          | none => rfl
          | some r => rfl
        · rw [if_neg hp, if_neg hp]
          rfl
      · rw [if_neg hdc]
        have hcd : (c == d) = false := beq_eq_false_iff_ne.mpr (fun h => hdc h.symm)
        rw [hcd]
        simp

theorem matchItems_fuel_sf :
    ∀ (pat : List RItem), (∀ i ∈ pat, itemStarFree i = true) →
    ∀ f g (prev : Option Char) (s : List Char), pat.length < f → pat.length < g →
    matchItems f pat prev s = matchItems g pat prev s := by
  intro pat
  induction pat with
  | nil =>
    intro _ f g prev s hf hg
    cases f with
    | zero => omega
    | succ f =>
      cases g with
      | zero => omega
      | succ g => rw [m_nil, m_nil]
  | cons i k ih =>
    intro hsf f g prev s hf hg
    have hk : ∀ j ∈ k, itemStarFree j = true := fun j hj => hsf j (by simp [hj])
    cases f with
    | zero => omega
    | succ f =>
      cases g with
      | zero => omega
      | succ g =>
        have hfk : k.length < f := by simp only [List.length_cons] at hf; omega
        have hgk : k.length < g := by simp only [List.length_cons] at hg; omega
        cases i with
        | lit c =>
          cases s with
          | nil => rw [m_lit_nil, m_lit_nil]
          | cons d s' => rw [m_lit_cons, m_lit_cons, ih hk f g (some d) s' hfk hgk]
        | cls p =>
          cases s with
          | nil => rw [m_cls_nil, m_cls_nil]
          | cons d s' => rw [m_cls_cons, m_cls_cons, ih hk f g (some d) s' hfk hgk]
        | grpOne p =>
          cases s with
          | nil => rw [m_grpOne_nil, m_grpOne_nil]
          | cons d s' => rw [m_grpOne_cons, m_grpOne_cons, ih hk f g (some d) s' hfk hgk]
        | wb => rw [m_wb, m_wb, ih hk f g prev s hfk hgk]
        | bol m =>
          cases prev with
          | none => rw [m_bol_none, m_bol_none, ih hk f g none s hfk hgk]
          | some c => rw [m_bol_some, m_bol_some, ih hk f g (some c) s hfk hgk]
        | eolM =>
          cases s with
          | nil => rw [m_eolM_nil, m_eolM_nil, ih hk f g prev [] hfk hgk]
          | cons c s' => rw [m_eolM_cons, m_eolM_cons, ih hk f g prev (c :: s') hfk hgk]
        | star p => exact absurd (hsf (.star p) (by simp)) (by simp [itemStarFree])
        | plus p => exact absurd (hsf (.plus p) (by simp)) (by simp [itemStarFree])
        | grpPlus p => exact absurd (hsf (.grpPlus p) (by simp)) (by simp [itemStarFree])
        | grpAcc p acc => exact absurd (hsf (.grpAcc p acc) (by simp)) (by simp [itemStarFree])

theorem wtok_starFree (w : List Char) :
    ∀ i ∈ [RItem.wb] ++ w.map RItem.lit ++ [RItem.wb], itemStarFree i = true := by
  intro i hi
  simp only [List.mem_append, List.mem_singleton, List.mem_map] at hi
  rcases hi with (h | ⟨c, _, h⟩) | h
  · rw [h]; rfl
  · rw [← h]; rfl
  · rw [h]; rfl

theorem headIsWord_of_isPrefixOf (w s : List Char) (hne : w ≠ [])
    (hw : ∀ c ∈ w, isWordChar c = true) (hp : w.isPrefixOf s = true) :
    headIsWord s = true := by
  have hpre : w <+: s := List.isPrefixOf_iff_prefix.mp hp
  obtain ⟨t, ht⟩ := hpre
  cases w with
  | nil => exact absurd rfl hne
  | cons c w' =>
    rw [← ht]
    exact hw c (by simp)

/-- Full characterization of the `\btok\b` patterns: they match exactly when
the position starts a maximal word run equal to `w` (previous character not a
word character, `w` a prefix, next character after `w` not a word character),
consuming exactly `w` and capturing nothing. -/
theorem matchItems_wtok (w : List Char) (hne : w ≠ []) (hw : ∀ c ∈ w, isWordChar c = true)
    (f : Nat) (hf : w.length + 2 < f) (prev : Option Char) (s : List Char) :
    matchItems f ([RItem.wb] ++ w.map RItem.lit ++ [RItem.wb]) prev s =
      if !isWordCharOpt prev && w.isPrefixOf s && !headIsWord (s.drop w.length)
      then some (w.length, [])
      else none := by
  rw [matchItems_fuel_sf _ (wtok_starFree w) f (w.length + 3) prev s
    (by simp only [List.length_append, List.length_map, List.length_singleton]; omega)
    (by simp only [List.length_append, List.length_map, List.length_singleton]; omega)]
  rw [show ([RItem.wb] ++ w.map RItem.lit ++ [RItem.wb]) =
    RItem.wb :: (w.map RItem.lit ++ [RItem.wb]) from rfl]
  rw [show w.length + 3 = (w.length + 2) + 1 from rfl, m_wb]
  rw [show w.length + 2 = 2 + w.length by omega, matchItems_lits w 2 [RItem.wb] prev s]
  by_cases hpre : w.isPrefixOf s = true
  · have hhead : headIsWord s = true := headIsWord_of_isPrefixOf w s hne hw hpre
    rw [hhead, hpre]
    by_cases hprev : isWordCharOpt prev = true
    · rw [hprev]
      simp
    · have hprev' : isWordCharOpt prev = false := by
        cases h : isWordCharOpt prev
        · rfl
        · exact absurd h hprev
      rw [hprev']
      rw [show (2 : Nat) = 1 + 1 from rfl, show [RItem.wb] = RItem.wb :: [] from rfl, m_wb]
      rw [advPrev_word prev w hne hw]
      by_cases hdrop : headIsWord (s.drop w.length) = true
      · rw [hdrop]
        simp
      · have hdrop' : headIsWord (s.drop w.length) = false := by
          cases h : headIsWord (s.drop w.length)
          · rfl
          · exact absurd h hdrop
        rw [hdrop', m_nil]
        simp
  · have hpre' : w.isPrefixOf s = false := by
      cases h : w.isPrefixOf s
      · rfl
      · exact absurd h hpre
    rw [hpre']
    simp

theorem rg_zero (pat : List RItem) (repl : List Char → List Char) (prev : Option Char)
    (s : List Char) : reSubGo pat repl 0 prev s = s := rfl

theorem rg_nil (pat : List RItem) (repl : List Char → List Char) (f : Nat) (prev : Option Char) :
    reSubGo pat repl (f + 1) prev [] = [] := rfl

theorem rg_cons (pat : List RItem) (repl : List Char → List Char) (f : Nat) (prev : Option Char)
    (d : Char) (rest : List Char) :
    reSubGo pat repl (f + 1) prev (d :: rest) =
      match matchItems (rest.length + 60) pat prev (d :: rest) with
      | some (n, g) =>
        if n = 0 then d :: reSubGo pat repl f (some d) rest
        else repl g ++ reSubGo pat repl f (((d :: rest).take n).getLast?) ((d :: rest).drop n)
      | none => d :: reSubGo pat repl f (some d) rest := rfl

theorem rg_any_nil (pat : List RItem) (repl : List Char → List Char) (f : Nat)
    (prev : Option Char) : reSubGo pat repl f prev [] = [] := by
  cases f with
  | zero => rfl
  | succ f => rfl

theorem m_nil' (f : Nat) (h : 1 ≤ f) (prev : Option Char) (s : List Char) :
    matchItems f [] prev s = some (0, []) := by
  cases f with
  | zero => omega
  | succ f => rw [m_nil]

theorem advPrev_word' (prev : Option Char) (l : List Char)
    (hprev : isWordCharOpt prev = true) (hl : ∀ c ∈ l, isWordChar c = true) :
    isWordCharOpt (advPrev prev l) = true := by
  cases l with
  | nil => rw [advPrev_nil]; exact hprev
  | cons a t => exact advPrev_word prev (a :: t) (by simp) hl

theorem getLast_word (t : List Char) (hne : t ≠ []) (hw : ∀ c ∈ t, isWordChar c = true) :
    isWordCharOpt t.getLast? = true := by
  cases h : t.getLast? with
  | none => exact absurd (List.getLast?_eq_none_iff.mp h) hne
  | some c =>
    obtain ⟨l, hl⟩ := List.getLast?_eq_some_iff.mp h
    simp only [isWordCharOpt]
    exact hw c (by rw [hl]; simp)

/-- Provided the pattern can never match with a word character immediately
before the position (hypothesis `H1`), the scanner copies a run of word
characters unchanged. -/
theorem scanCopy (pat : List RItem) (repl : List Char → List Char)
    (H1 : ∀ f prev s, isWordCharOpt prev = true → matchItems f pat prev s = none) :
    ∀ (t : List Char) (f : Nat) (prev : Option Char) (z : List Char),
      (∀ c ∈ t, isWordChar c = true) → isWordCharOpt prev = true → (t ++ z).length ≤ f →
      reSubGo pat repl f prev (t ++ z) =
        t ++ reSubGo pat repl (f - t.length) (advPrev prev t) z := by
  intro t
  induction t with
  | nil =>
    intro f prev z _ _ _
    simp [advPrev_nil]
  | cons a t ih =>
    intro f prev z hword hprev hf
    cases f with
    | zero => simp only [List.cons_append, List.length_cons] at hf; omega
    | succ f =>
      rw [show (a :: t) ++ z = a :: (t ++ z) from rfl, rg_cons, H1 _ prev _ hprev]
      show a :: reSubGo pat repl f (some a) (t ++ z) = _
      rw [ih f (some a) z (fun c hc => hword c (by simp [hc]))
        (by simp only [isWordCharOpt]; exact hword a (by simp))
        (by simp only [List.cons_append, List.length_cons] at hf; omega)]
      rw [advPrev_cons]
      rw [show f + 1 - (a :: t).length = f - t.length by simp only [List.length_cons]; omega]
      rfl

/-- Scanner-to-token-map correspondence.  A pattern that (H1) never fires
mid-token, (H2) never fires at a separator, and (H3) at a token start fires
exactly when the token transformation `fc` is not the identity, consuming
exactly the token and producing `fc` of it, makes `re.sub` act as `fc` on
every maximal word token. -/
theorem scanTok_aux (pat : List RItem) (repl fc : List Char → List Char)
    (H1 : ∀ f prev s, isWordCharOpt prev = true → matchItems f pat prev s = none)
    (H2 : ∀ f prev s, headIsWord s = false → matchItems f pat prev s = none)
    (H3 : ∀ (f : Nat) (prev : Option Char) (t rest : List Char),
        isWordCharOpt prev = false → t ≠ [] → (∀ c ∈ t, isWordChar c = true) →
        headIsWord rest = false → (t ++ rest).length + 59 ≤ f →
        (fc t = t → matchItems f pat prev (t ++ rest) = none) ∧
        (fc t ≠ t → ∃ cap, matchItems f pat prev (t ++ rest) = some (t.length, cap) ∧
          repl cap = fc t)) :
    ∀ n (s : List Char) (f : Nat) (prev : Option Char), s.length ≤ n → s.length ≤ f →
      isWordCharOpt prev = false → reSubGo pat repl f prev s = mapTokens fc s := by
  intro n
  induction n with
  | zero =>
    intro s f prev hs _ _
    have hnil : s = [] := List.eq_nil_of_length_eq_zero (by omega)
    subst hnil
    rw [rg_any_nil]
    rfl
  | succ n ih =>
    intro s f prev hs hf hprev
    cases s with
    | nil =>
      rw [rg_any_nil]
      rfl
    | cons d rest =>
      cases f with
      | zero => simp only [List.length_cons] at hf; omega
      | succ f =>
        by_cases hd : isWordChar d = true
        · have hts : rest.takeWhile isWordChar ++ rest.dropWhile isWordChar = rest :=
            List.takeWhile_append_dropWhile isWordChar rest
          have htw : ∀ c ∈ d :: rest.takeWhile isWordChar, isWordChar c = true := by
            intro c hc
            rcases List.mem_cons.mp hc with h | h
            · rw [h]; exact hd
            · exact List.mem_takeWhile_imp h
          have hrh : headIsWord (rest.dropWhile isWordChar) = false := by
            have := headIsWord_dropWhile_word (d :: rest)
            rwa [List.dropWhile_cons_of_pos hd] at this
          have hsplit : (d :: rest.takeWhile isWordChar) ++ rest.dropWhile isWordChar
              = d :: rest := by
            rw [List.cons_append, hts]
          have hfuel : ((d :: rest.takeWhile isWordChar) ++ rest.dropWhile isWordChar).length + 59
              ≤ rest.length + 60 := by
            rw [hsplit]
            simp only [List.length_cons]
            omega
          have h3 := H3 (rest.length + 60) prev (d :: rest.takeWhile isWordChar)
            (rest.dropWhile isWordChar) hprev (by simp) htw hrh hfuel
          by_cases hfc : fc (d :: rest.takeWhile isWordChar) = d :: rest.takeWhile isWordChar
          · have hnone : matchItems (rest.length + 60) pat prev (d :: rest) = none := by
              rw [← hsplit]
              exact h3.1 hfc
            rw [rg_cons, hnone]
            show d :: reSubGo pat repl f (some d) rest = _
            have hcopy := scanCopy pat repl H1 (rest.takeWhile isWordChar) f (some d)
              (rest.dropWhile isWordChar) (fun c hc => List.mem_takeWhile_imp hc)
              (by simp only [isWordCharOpt]; exact hd)
              (by rw [hts]; simp only [List.length_cons] at hf; omega)
            rw [show reSubGo pat repl f (some d) rest =
                reSubGo pat repl f (some d)
                  (rest.takeWhile isWordChar ++ rest.dropWhile isWordChar) by rw [hts],
              hcopy]
            rw [mapTokens_cons_word fc d rest hd, List.takeWhile_cons_of_pos hd,
              List.dropWhile_cons_of_pos hd, hfc]
            have hpv : isWordCharOpt (advPrev (some d) (rest.takeWhile isWordChar)) = true :=
              advPrev_word' (some d) _ (by simp only [isWordCharOpt]; exact hd)
                (fun c hc => List.mem_takeWhile_imp hc)
            cases hrw : rest.dropWhile isWordChar with
            | nil =>
              rw [rg_any_nil]
              rfl
            | cons e rest'' =>
              have he : isWordChar e = false := by
                rw [hrw] at hrh
                simpa [headIsWord] using hrh
              have hlen : rest''.length + 1 ≤ rest.length := by
                have := length_dropWhile_le' isWordChar rest
                rw [hrw] at this
                simp only [List.length_cons] at this
                omega
              have hg : 1 ≤ f - (rest.takeWhile isWordChar).length := by
                have h1 : (rest.takeWhile isWordChar).length + rest''.length + 1
                    = rest.length := by
                  have := congrArg List.length hts
                  rw [hrw] at this
                  simp only [List.length_append, List.length_cons] at this
                  omega
                simp only [List.length_cons] at hf
                omega
              obtain ⟨g, hgeq⟩ : ∃ g, f - (rest.takeWhile isWordChar).length = g + 1 :=
                ⟨f - (rest.takeWhile isWordChar).length - 1, by omega⟩
              rw [hgeq, rg_cons, H2 _ _ _ (by simp [headIsWord, he])]
              show d :: (rest.takeWhile isWordChar ++
                (e :: reSubGo pat repl g (some e) rest'')) = _
              rw [ih rest'' g (some e)
                (by
                  have h1 : (rest.takeWhile isWordChar).length + rest''.length + 1
                      = rest.length := by
                    have := congrArg List.length hts
                    rw [hrw] at this
                    simp only [List.length_append, List.length_cons] at this
                    omega
                  simp only [List.length_cons] at hs
                  omega)
                (by
                  have h1 : (rest.takeWhile isWordChar).length + rest''.length + 1
                      = rest.length := by
                    have := congrArg List.length hts
                    rw [hrw] at this
                    simp only [List.length_append, List.length_cons] at this
                    omega
                  simp only [List.length_cons] at hf
                  omega)
                (by simp only [isWordCharOpt]; exact he)]
              rw [mapTokens_cons_sep fc e rest'' he]
              rfl
          · obtain ⟨cap, hsome, hrepl⟩ := h3.2 hfc
            have hsome' : matchItems (rest.length + 60) pat prev (d :: rest) =
                some ((d :: rest.takeWhile isWordChar).length, cap) := by
              rw [← hsplit]
              exact hsome
            rw [rg_cons, hsome']
            show (if (d :: rest.takeWhile isWordChar).length = 0 then
                d :: reSubGo pat repl f (some d) rest
              else repl cap ++ reSubGo pat repl f
                (((d :: rest).take (d :: rest.takeWhile isWordChar).length).getLast?)
                ((d :: rest).drop (d :: rest.takeWhile isWordChar).length)) = _
            rw [if_neg (by simp)]
            have htake : (d :: rest).take (d :: rest.takeWhile isWordChar).length =
                d :: rest.takeWhile isWordChar := by
              rw [← hsplit]
              exact List.take_left _ _
            have hdrop : (d :: rest).drop (d :: rest.takeWhile isWordChar).length =
                rest.dropWhile isWordChar := by
              rw [← hsplit]
              exact List.drop_left _ _
            rw [htake, hdrop, hrepl]
            have hpl : isWordCharOpt (d :: rest.takeWhile isWordChar).getLast? = true :=
              getLast_word _ (by simp) htw
            rw [mapTokens_cons_word fc d rest hd, List.takeWhile_cons_of_pos hd,
              List.dropWhile_cons_of_pos hd]
            cases hrw : rest.dropWhile isWordChar with
            | nil =>
              rw [rg_any_nil]
              rfl
            | cons e rest'' =>
              have he : isWordChar e = false := by
                rw [hrw] at hrh
                simpa [headIsWord] using hrh
              have h1 : (rest.takeWhile isWordChar).length + rest''.length + 1
                  = rest.length := by
                have := congrArg List.length hts
                rw [hrw] at this
                simp only [List.length_append, List.length_cons] at this
                omega
              obtain ⟨g, hgeq⟩ : ∃ g, f = g + 1 := by
                refine ⟨f - 1, ?_⟩
                simp only [List.length_cons] at hf
                omega
              rw [hgeq, rg_cons, H2 _ _ _ (by simp [headIsWord, he])]
              show fc (d :: rest.takeWhile isWordChar) ++
                (e :: reSubGo pat repl g (some e) rest'') = _
              rw [ih rest'' g (some e)
                (by simp only [List.length_cons] at hs; omega)
                (by rw [hgeq] at hf; simp only [List.length_cons] at hf; omega)
                (by simp only [isWordCharOpt]; exact he)]
              rw [mapTokens_cons_sep fc e rest'' he]
        · have hdf : isWordChar d = false := by
            cases h : isWordChar d
            · rfl
            · exact absurd h hd
          rw [rg_cons, H2 _ prev _ (by simp [headIsWord, hdf])]
          show d :: reSubGo pat repl f (some d) rest = _
          rw [ih rest f (some d) (by simp only [List.length_cons] at hs; omega)
            (by simp only [List.length_cons] at hf; omega)
            (by simp only [isWordCharOpt]; exact hdf)]
          rw [mapTokens_cons_sep fc d rest hdf]

/-- The `re.sub` of a token rule acts as the token transformation `fc`. -/
theorem reSub_eq_mapTokens (pat : List RItem) (repl fc : List Char → List Char)
    (H1 : ∀ f prev s, isWordCharOpt prev = true → matchItems f pat prev s = none)
    (H2 : ∀ f prev s, headIsWord s = false → matchItems f pat prev s = none)
    (H3 : ∀ (f : Nat) (prev : Option Char) (t rest : List Char),
        isWordCharOpt prev = false → t ≠ [] → (∀ c ∈ t, isWordChar c = true) →
        headIsWord rest = false → (t ++ rest).length + 59 ≤ f →
        (fc t = t → matchItems f pat prev (t ++ rest) = none) ∧
        (fc t ≠ t → ∃ cap, matchItems f pat prev (t ++ rest) = some (t.length, cap) ∧
          repl cap = fc t)) (s : List Char) :
    reSub pat repl s = mapTokens fc s :=
  scanTok_aux pat repl fc H1 H2 H3 s.length s (s.length + 1) none (le_refl _) (by omega) rfl

theorem lower_word (c : Char) (h : isLowerAZ c = true) : isWordChar c = true := by
  simp only [isLowerAZ, Bool.and_eq_true, decide_eq_true_eq] at h
  obtain ⟨h1, h2⟩ := h
  rw [Char.le_def] at h1 h2
  have h' : c.isLower = true := by
    simp only [Char.isLower, Bool.and_eq_true, decide_eq_true_eq]
    exact ⟨h1, h2⟩
  simp [isWordChar, Char.isAlphanum, Char.isAlpha, h']

theorem digit_word (c : Char) (h : isAsciiDigit c = true) : isWordChar c = true := by
  simp only [isAsciiDigit, Bool.and_eq_true, decide_eq_true_eq] at h
  obtain ⟨h1, h2⟩ := h
  rw [Char.le_def] at h1 h2
  have h' : c.isDigit = true := by
    simp only [Char.isDigit, Bool.and_eq_true, decide_eq_true_eq]
    exact ⟨h1, h2⟩
  simp [isWordChar, Char.isAlphanum, h']

theorem lit_head_HK (c : Char) (hc : isWordChar c = true) (k : List RItem) :
    ∀ f (prev : Option Char) (s : List Char), headIsWord s = false →
      matchItems f (.lit c :: k) prev s = none := by
  intro f prev s hh
  cases f with
  | zero => rw [m_zero]
  | succ f =>
    cases s with
    | nil => rw [m_lit_nil]
    | cons d s' =>
      have hd : isWordChar d = false := by simpa [headIsWord] using hh
      rw [m_lit_cons, if_neg]
      intro h
      rw [h, hc] at hd
      simp at hd

theorem lits_head_HK (w : List Char) (hne : w ≠ []) (hw : ∀ c ∈ w, isWordChar c = true)
    (k : List RItem) :
    ∀ f (prev : Option Char) (s : List Char), headIsWord s = false →
      matchItems f (w.map RItem.lit ++ k) prev s = none := by
  cases w with
  | nil => exact absurd rfl hne
  | cons c w' =>
    intro f prev s hh
    rw [List.map_cons, List.cons_append]
    exact lit_head_HK c (hw c (by simp)) _ f prev s hh

theorem grpOne_head_HK (p : Char → Bool) (hp : ∀ c, p c = true → isWordChar c = true)
    (k : List RItem) :
    ∀ f (prev : Option Char) (s : List Char), headIsWord s = false →
      matchItems f (.grpOne p :: k) prev s = none := by
  intro f prev s hh
  cases f with
  | zero => rw [m_zero]
  | succ f =>
    cases s with
    | nil => rw [m_grpOne_nil]
    | cons d s' =>
      have hd : isWordChar d = false := by simpa [headIsWord] using hh
      rw [m_grpOne_cons, if_neg]
      intro h
      rw [hp d h] at hd
      simp at hd

/-- A pattern starting with `\b` whose continuation requires a word character
at the head never fires with a word character immediately before the
position. -/
theorem wbpat_H1 (k : List RItem)
    (HK : ∀ f (prev : Option Char) (s : List Char), headIsWord s = false →
      matchItems f k prev s = none) :
    ∀ f (prev : Option Char) (s : List Char), isWordCharOpt prev = true →
      matchItems f (.wb :: k) prev s = none := by
  intro f prev s hprev
  cases f with
  | zero => rw [m_zero]
  | succ f =>
    rw [m_wb, hprev]
    by_cases hh : headIsWord s = true
    · rw [hh]
      simp
    · have hh' : headIsWord s = false := by
        cases h : headIsWord s
        · rfl
        · exact absurd h hh
      rw [hh', HK f prev s hh']
      simp

theorem wbpat_H2 (k : List RItem)
    (HK : ∀ f (prev : Option Char) (s : List Char), headIsWord s = false →
      matchItems f k prev s = none) :
    ∀ f (prev : Option Char) (s : List Char), headIsWord s = false →
      matchItems f (.wb :: k) prev s = none := by
  intro f prev s hh
  cases f with
  | zero => rw [m_zero]
  | succ f =>
    rw [m_wb, hh, HK f prev s hh]
    simp

/-- If a whole-word pattern `w` is a prefix at the start of a maximal token
`t` (the characters after both the match and the token are non-word), the
token is `w` itself. -/
theorem token_prefix_eq (w t rest : List Char) (hne : w ≠ [])
    (hw : ∀ c ∈ w, isWordChar c = true) (htw : ∀ c ∈ t, isWordChar c = true)
    (hrh : headIsWord rest = false) (hp : w.isPrefixOf (t ++ rest) = true)
    (hd : headIsWord ((t ++ rest).drop w.length) = false) : t = w := by
  obtain ⟨u, hu⟩ := List.isPrefixOf_iff_prefix.mp hp
  by_cases hlen : w.length ≤ t.length
  · have hweq : w = t.take w.length := by
      have h1 : (w ++ u).take w.length = w := List.take_left w u
      rw [hu] at h1
      conv_lhs => rw [← h1]
      rw [List.take_append_of_le_length hlen]
    by_cases heq : w.length = t.length
    · rw [hweq, heq, List.take_length]
    · exfalso
      have hlt : w.length < t.length := by omega
      rw [List.drop_append_of_le_length hlen] at hd
      cases h : t.drop w.length with
      | nil =>
        have := congrArg List.length h
        simp only [List.length_drop, List.length_nil] at this
        omega
      | cons e t' =>
        have he : e ∈ t := by
          have h2 : e ∈ t.drop w.length := by rw [h]; simp
          exact List.mem_of_mem_drop h2
        rw [h] at hd
        simp only [List.cons_append, headIsWord] at hd
        rw [htw e he] at hd
        simp at hd
  · exfalso
    have hlt : t.length < w.length := by omega
    have hrest : rest = w.drop t.length ++ u := by
      have h1 : (t ++ rest).drop t.length = rest := List.drop_left t rest
      conv_lhs => rw [← h1, ← hu]
      rw [List.drop_append_of_le_length (by omega)]
    cases h : w.drop t.length with
    | nil =>
      have := congrArg List.length h
      simp only [List.length_drop, List.length_nil] at this
      omega
    | cons e w' =>
      have he : e ∈ w := by
        have h2 : e ∈ w.drop t.length := by rw [h]; simp
        exact List.mem_of_mem_drop h2
      rw [h] at hrest
      rw [hrest] at hrh
      simp only [List.cons_append, headIsWord] at hrh
      rw [hw e he] at hrh
      simp at hrh

/-- The single-token substitutions `re.sub(r'\btok\b', r, s)` replace exactly
the maximal word tokens equal to `tok` by `r` and touch nothing else. -/
theorem reSub_wtok_eq (w r : String) (hne : w.data ≠ [])
    (hw : ∀ c ∈ w.data, isWordChar c = true) (hrw : r.data ≠ w.data)
    (hwlen : w.data.length ≤ 50) (s : List Char) :
    reSub (wtok w) (rconst r) s =
      mapTokens (fun t => if t = w.data then r.data else t) s := by
  have hHK := lits_head_HK w.data hne hw [RItem.wb]
  apply reSub_eq_mapTokens
  · intro f prev s' hprev
    have h := wbpat_H1 (w.data.map RItem.lit ++ [RItem.wb]) hHK f prev s' hprev
    rw [show RItem.wb :: (w.data.map RItem.lit ++ [RItem.wb]) =
      ([RItem.wb] ++ w.data.map RItem.lit ++ [RItem.wb]) from rfl] at h
    exact h
  · intro f prev s' hh
    have h := wbpat_H2 (w.data.map RItem.lit ++ [RItem.wb]) hHK f prev s' hh
    rw [show RItem.wb :: (w.data.map RItem.lit ++ [RItem.wb]) =
      ([RItem.wb] ++ w.data.map RItem.lit ++ [RItem.wb]) from rfl] at h
    exact h
  · intro f prev t rest hprev htne htw hrh hfuel
    have hf' : w.data.length + 2 < f := by
      have h2 : (t ++ rest).length + 59 ≤ f := hfuel
      omega
    constructor
    · intro hfc
      have htnw : t ≠ w.data := by
        intro h
        rw [if_pos h] at hfc
        exact hrw (hfc.trans h)
      rw [show wtok w = [RItem.wb] ++ w.data.map RItem.lit ++ [RItem.wb] from rfl]
      rw [matchItems_wtok w.data hne hw f hf' prev (t ++ rest)]
      rw [if_neg]
      intro hcond
      simp only [Bool.and_eq_true, Bool.not_eq_true'] at hcond
      exact htnw (token_prefix_eq w.data t rest hne hw htw hrh hcond.1.2
        (by simpa using hcond.2))
    · intro hfc
      have ht : t = w.data := by
        by_cases h : t = w.data
        · exact h
        · exact absurd (if_neg h) hfc
      refine ⟨[], ?_, ?_⟩
      · rw [show wtok w = [RItem.wb] ++ w.data.map RItem.lit ++ [RItem.wb] from rfl]
        rw [matchItems_wtok w.data hne hw f hf' prev (t ++ rest)]
        rw [ht, hprev]
        have hpre : w.data.isPrefixOf (w.data ++ rest) = true :=
          List.isPrefixOf_iff_prefix.mpr (List.prefix_append w.data rest)
        rw [hpre, List.drop_left, hrh]
        rfl
      · rw [if_pos ht]
        rfl

theorem patPair_starFree (x : Char) : ∀ i ∈ patPair x, itemStarFree i = true := by
  intro i hi
  simp only [patPair, List.mem_cons, List.mem_singleton, List.not_mem_nil, or_false] at hi
  rcases hi with h | h | h | h
  all_goals rw [h]; rfl

theorem pair_H3 (x : Char) (hxw : isWordChar x = true) (hx1 : x ≠ '1') :
    ∀ (f : Nat) (prev : Option Char) (t rest : List Char),
      isWordCharOpt prev = false → t ≠ [] → (∀ c ∈ t, isWordChar c = true) →
      headIsWord rest = false → (t ++ rest).length + 59 ≤ f →
      (fcPair x t = t → matchItems f (patPair x) prev (t ++ rest) = none) ∧
      (fcPair x t ≠ t →
        ∃ cap, matchItems f (patPair x) prev (t ++ rest) = some (t.length, cap) ∧
          rgrp1 cap = fcPair x t) := by
  intro f prev t rest hprev htne htw hrh hfuel
  rw [matchItems_fuel_sf (patPair x) (patPair_starFree x) f 5 prev (t ++ rest)
    (by simp only [patPair, List.length_cons, List.length_nil]; omega)
    (by simp only [patPair, List.length_cons, List.length_nil]; omega)]
  cases t with
  | nil => exact absurd rfl htne
  | cons c t1 =>
    have hcw : isWordChar c = true := htw c (by simp)
    have hstep1 : matchItems 5 (patPair x) prev ((c :: t1) ++ rest) =
        matchItems 4 [.grpOne isLowerAZ, .lit x, .wb] prev ((c :: t1) ++ rest) := by
      rw [show (5 : Nat) = 4 + 1 from rfl,
        show patPair x = .wb :: [.grpOne isLowerAZ, .lit x, .wb] from rfl, m_wb, hprev]
      rw [show headIsWord ((c :: t1) ++ rest) = true by
        simp only [List.cons_append, headIsWord]; exact hcw]
      rfl
    rw [hstep1]
    cases t1 with
    | nil =>
      have hnone : matchItems 4 [.grpOne isLowerAZ, .lit x, .wb] prev ([c] ++ rest) = none := by
        rw [show ([c] ++ rest) = c :: rest from rfl,
          show (4 : Nat) = 3 + 1 from rfl, m_grpOne_cons]
        by_cases hlc : isLowerAZ c = true
        · rw [if_pos hlc]
          rw [lit_head_HK x hxw [RItem.wb] 3 (some c) rest hrh]
          rfl
        · rw [if_neg hlc]
      constructor
      · intro _
        exact hnone
      · intro hfc
        exact absurd rfl hfc
    | cons y t2 =>
      have hyw : isWordChar y = true := htw y (by simp)
      cases t2 with
      | nil =>
        by_cases hlc : isLowerAZ c = true
        · by_cases hyx : y = x
          · subst hyx
            have hsome : matchItems 4 [.grpOne isLowerAZ, .lit y, .wb] prev
                (([c, y]) ++ rest) = some (2, [c]) := by
              rw [show ([c, y] ++ rest) = c :: (y :: rest) from rfl,
                show (4 : Nat) = 3 + 1 from rfl, m_grpOne_cons, if_pos hlc,
                show (3 : Nat) = 2 + 1 from rfl, m_lit_cons, if_pos rfl,
                show (2 : Nat) = 1 + 1 from rfl, m_wb]
              rw [show isWordCharOpt (some y) = true from hyw]
              rw [hrh]
              rw [m_nil' 1 (by omega)]
              rfl
            have hfc1 : fcPair y [c, y] = [c, '1'] := by
              simp [fcPair, hlc]
            have hne2 : fcPair y [c, y] ≠ [c, y] := by
              rw [hfc1]
              intro h
              have h2 := List.cons.inj h
              have h3 := List.cons.inj h2.2
              exact hx1 h3.1.symm
            constructor
            · intro hfc
              exact absurd hfc hne2
            · intro _
              refine ⟨[c], hsome, ?_⟩
              rw [hfc1]
              rfl
          · have hnone : matchItems 4 [.grpOne isLowerAZ, .lit x, .wb] prev
                (([c, y]) ++ rest) = none := by
              rw [show ([c, y] ++ rest) = c :: (y :: rest) from rfl,
                show (4 : Nat) = 3 + 1 from rfl, m_grpOne_cons, if_pos hlc,
                show (3 : Nat) = 2 + 1 from rfl, m_lit_cons, if_neg hyx]
              rfl
            constructor
            · intro _
              exact hnone
            · intro hfc
              refine absurd ?_ hfc
              simp only [fcPair]
              rw [if_neg]
              intro h
              simp only [Bool.and_eq_true, beq_iff_eq] at h
              exact hyx h.2
        · have hnone : matchItems 4 [.grpOne isLowerAZ, .lit x, .wb] prev
              (([c, y]) ++ rest) = none := by
            rw [show ([c, y] ++ rest) = c :: (y :: rest) from rfl,
              show (4 : Nat) = 3 + 1 from rfl, m_grpOne_cons, if_neg hlc]
          constructor
          · intro _
            exact hnone
          · intro hfc
            refine absurd ?_ hfc
            simp only [fcPair]
            rw [if_neg]
            intro h
            simp only [Bool.and_eq_true, beq_iff_eq] at h
            exact hlc h.1
      | cons z t3 =>
        have hzw : isWordChar z = true := htw z (by simp)
        have hnone : matchItems 4 [.grpOne isLowerAZ, .lit x, .wb] prev
            ((c :: y :: z :: t3) ++ rest) = none := by
          rw [show ((c :: y :: z :: t3) ++ rest) = c :: (y :: z :: (t3 ++ rest)) from rfl,
            show (4 : Nat) = 3 + 1 from rfl, m_grpOne_cons]
          by_cases hlc : isLowerAZ c = true
          · rw [if_pos hlc, show (3 : Nat) = 2 + 1 from rfl, m_lit_cons]
            by_cases hyx : y = x
            · rw [if_pos hyx, show (2 : Nat) = 1 + 1 from rfl, m_wb]
              rw [show isWordCharOpt (some y) = true from hyw]
              rw [show headIsWord (z :: (t3 ++ rest)) = true from hzw]
              simp
            · rw [if_neg hyx]
              rfl
          · rw [if_neg hlc]
        constructor
        · intro _
          exact hnone
        · intro hfc
          exact absurd rfl hfc

/-- The `re.sub(r'\b([a-z])x\b', r'\g<1>1', s)` rules act as `fcPair x` on
every maximal word token. -/
theorem reSub_pair_eq (x : Char) (hxw : isWordChar x = true) (hx1 : x ≠ '1')
    (s : List Char) :
    reSub (patPair x) rgrp1 s = mapTokens (fcPair x) s := by
  have hHK := grpOne_head_HK isLowerAZ lower_word [RItem.lit x, RItem.wb]
  apply reSub_eq_mapTokens
  · intro f prev s' hprev
    exact wbpat_H1 [RItem.grpOne isLowerAZ, RItem.lit x, RItem.wb] hHK f prev s' hprev
  · intro f prev s' hh
    exact wbpat_H2 [RItem.grpOne isLowerAZ, RItem.lit x, RItem.wb] hHK f prev s' hh
  · exact pair_H3 x hxw hx1

theorem headIsDigit_of_not_word (rest : List Char) (h : headIsWord rest = false) :
    headIsDigit rest = false := by
  cases rest with
  | nil => rfl
  | cons e r =>
    simp only [headIsWord] at h
    cases he : isAsciiDigit e with
    | false => simp [headIsDigit, he]
    | true => rw [digit_word e he] at h; simp at h

/-- Behaviour of the greedy digit group followed by `\b`: on a subject that
starts with a maximal digit run `ds`, it consumes exactly `ds`, extends the
accumulated capture by `ds`, and succeeds exactly when the character after
the run is not a word character. -/
theorem grpAcc_digits_wb (ds : List Char) :
    ∀ (f : Nat) (acc : List Char) (prev : Option Char) (rest : List Char),
      ds.length + 3 ≤ f → (∀ c ∈ ds, isAsciiDigit c = true) →
      isWordCharOpt prev = true → headIsDigit rest = false →
      matchItems f (.grpAcc isAsciiDigit acc :: [.wb]) prev (ds ++ rest) =
        if headIsWord rest = false then some (acc.length + ds.length, acc ++ ds)
        else none := by
  induction ds with
  | nil =>
    intro f acc prev rest hf hds hprev hrd
    obtain ⟨g, rfl⟩ : ∃ g, f = g + 3 := ⟨f - 3, by omega⟩
    rw [List.nil_append]
    cases rest with
    | nil =>
      rw [show g + 3 = (g + 2) + 1 from rfl, m_grpAcc_nil,
        show g + 2 = (g + 1) + 1 from rfl, m_wb, hprev,
        show headIsWord [] = false from rfl, m_nil' (g + 1) (by omega)]
      simp
    | cons e rest' =>
      have hed : isAsciiDigit e = false := by simpa [headIsDigit] using hrd
      rw [show g + 3 = (g + 2) + 1 from rfl, m_grpAcc_cons, hed]
      simp only [Bool.false_eq_true, if_false]
      rw [show g + 2 = (g + 1) + 1 from rfl, m_wb, hprev]
      cases hew : isWordChar e with
      | true =>
        rw [show headIsWord (e :: rest') = true from hew]
        simp [headIsWord, hew]
      | false =>
        rw [show headIsWord (e :: rest') = false from hew, m_nil' (g + 1) (by omega)]
        simp [headIsWord, hew]
  | cons d ds' ih =>
    intro f acc prev rest hf hds hprev hrd
    obtain ⟨g, rfl⟩ : ∃ g, f = g + 1 := ⟨f - 1, by omega⟩
    rw [show (d :: ds') ++ rest = d :: (ds' ++ rest) from rfl, m_grpAcc_cons,
      hds d (by simp)]
    simp only [if_true]
    rw [ih g (acc ++ [d]) (some d) rest
      (by simp only [List.length_cons] at hf; omega)
      (fun c hc => hds c (by simp [hc]))
      (by simp only [isWordCharOpt]; exact digit_word d (hds d (by simp)))
      hrd]
    by_cases hw : headIsWord rest = false
    · rw [if_pos hw, if_pos hw]
      show some ((acc ++ [d]).length + ds'.length, acc ++ [d] ++ ds') = _
      refine congrArg some (Prod.ext ?_ ?_)
      · simp only [List.length_append, List.length_singleton, List.length_cons,
          List.length_nil]
        omega
      · simp only [List.append_assoc, List.singleton_append]
    · rw [if_neg hw, if_neg hw]
      obtain ⟨g', rfl⟩ : ∃ g', g = g' + 1 :=
        ⟨g - 1, by simp only [List.length_cons] at hf; omega⟩
      show (matchItems (g' + 1) [RItem.wb] prev (d :: (ds' ++ rest))).map
        (fun r => (r.1 + acc.length, acc)) = none
      rw [m_wb, hprev,
        show headIsWord (d :: (ds' ++ rest)) = true from digit_word d (hds d (by simp))]
      simp

theorem os_H3 :
    ∀ (f : Nat) (prev : Option Char) (t rest : List Char),
      isWordCharOpt prev = false → t ≠ [] → (∀ c ∈ t, isWordChar c = true) →
      headIsWord rest = false → (t ++ rest).length + 59 ≤ f →
      (fcOs t = t → matchItems f patOs prev (t ++ rest) = none) ∧
      (fcOs t ≠ t →
        ∃ cap, matchItems f patOs prev (t ++ rest) = some (t.length, cap) ∧
          rgrp cap = fcOs t) := by
  intro f prev t rest hprev htne htw hrh hfuel
  have hrd : headIsDigit rest = false := headIsDigit_of_not_word rest hrh
  cases t with
  | nil => exact absurd rfl htne
  | cons c t1 =>
    have hcw : isWordChar c = true := htw c (by simp)
    obtain ⟨f5, rfl⟩ : ∃ f5, f = f5 + 5 := ⟨f - 5, by
      simp only [List.length_append, List.length_cons] at hfuel
      omega⟩
    have hstep1 : matchItems (f5 + 5) patOs prev ((c :: t1) ++ rest) =
        matchItems (f5 + 4) [.lit 'O', .lit 's', .grpPlus isAsciiDigit, .wb] prev
          ((c :: t1) ++ rest) := by
      rw [show f5 + 5 = (f5 + 4) + 1 from rfl,
        show patOs = .wb :: [.lit 'O', .lit 's', .grpPlus isAsciiDigit, .wb] from rfl,
        m_wb, hprev]
      rw [show headIsWord ((c :: t1) ++ rest) = true by
        simp only [List.cons_append, headIsWord]; exact hcw]
      rfl
    rw [hstep1]
    by_cases hcO : c = 'O'
    · subst hcO
      rw [show (('O' :: t1) ++ rest) = 'O' :: (t1 ++ rest) from rfl,
        show f5 + 4 = (f5 + 3) + 1 from rfl, m_lit_cons, if_pos rfl]
      cases t1 with
      | nil =>
        have hnone : matchItems (f5 + 3) [.lit 's', .grpPlus isAsciiDigit, .wb]
            (some 'O') ([] ++ rest) = none := by
          rw [List.nil_append]
          cases rest with
          | nil => rw [show f5 + 3 = (f5 + 2) + 1 from rfl, m_lit_nil]
          | cons e rest' =>
            have hew : isWordChar e = false := by simpa [headIsWord] using hrh
            rw [show f5 + 3 = (f5 + 2) + 1 from rfl, m_lit_cons, if_neg]
            intro h
            rw [h] at hew
            rw [show isWordChar 's' = true by decide] at hew
            simp at hew
        rw [hnone]
        constructor
        · intro _
          rfl
        · intro hfc
          exact absurd rfl hfc
      | cons y t2 =>
        by_cases hys : y = 's'
        · subst hys
          rw [show (('s' :: t2) ++ rest) = 's' :: (t2 ++ rest) from rfl,
            show f5 + 3 = (f5 + 2) + 1 from rfl, m_lit_cons, if_pos rfl]
          cases t2 with
          | nil =>
            have hnone : matchItems (f5 + 2) [.grpPlus isAsciiDigit, .wb]
                (some 's') ([] ++ rest) = none := by
              rw [List.nil_append]
              cases rest with
              | nil => rw [show f5 + 2 = (f5 + 1) + 1 from rfl, m_grpPlus_nil]
              | cons e rest' =>
                have hew : isWordChar e = false := by simpa [headIsWord] using hrh
                rw [show f5 + 2 = (f5 + 1) + 1 from rfl, m_grpPlus_cons, if_neg]
                intro h
                rw [digit_word e h] at hew
                simp at hew
            rw [hnone]
            have hsh : osShape ['O', 's'] = false := by decide
            constructor
            · intro _
              rfl
            · intro hfc
              exact absurd (by rw [fcOs, hsh]; rfl) hfc
          | cons d ds' =>
            by_cases hdd : isAsciiDigit d = true
            · by_cases hall : (d :: ds').all isAsciiDigit = true
              · have hall' : ∀ x ∈ ds', isAsciiDigit x = true := by
                  intro x hx
                  exact List.all_eq_true.mp hall x (by simp [hx])
                rw [show ((d :: ds') ++ rest) = d :: (ds' ++ rest) from rfl,
                  show f5 + 2 = (f5 + 1) + 1 from rfl, m_grpPlus_cons, if_pos hdd]
                rw [grpAcc_digits_wb ds' (f5 + 1) [d] (some d) rest
                  (by
                    simp only [List.length_append, List.length_cons] at hfuel
                    omega)
                  hall'
                  (by simp only [isWordCharOpt]; exact digit_word d hdd)
                  hrd]
                rw [if_pos hrh]
                have hsh : osShape ('O' :: 's' :: d :: ds') = true := by
                  simp [osShape, hall]
                have hfc1 : fcOs ('O' :: 's' :: d :: ds') = d :: ds' := by
                  rw [fcOs, hsh]
                  rfl
                have hne2 : fcOs ('O' :: 's' :: d :: ds') ≠ 'O' :: 's' :: d :: ds' := by
                  rw [hfc1]
                  intro h
                  have := congrArg List.length h
                  simp only [List.length_cons] at this
                  omega
                constructor
                · intro hfc
                  exact absurd hfc hne2
                · intro _
                  refine ⟨[d] ++ ds', ?_, ?_⟩
                  · show some ([d].length + ds'.length + 1 + 1, [d] ++ ds') = _
                    refine congrArg some (Prod.ext ?_ ?_)
                    · simp only [List.length_singleton, List.length_cons,
                        List.length_nil]
                      omega
                    · simp only [List.singleton_append]
                  · rw [hfc1]
                    rfl
              · have hbad : (ds'.dropWhile isAsciiDigit) ≠ [] := by
                  intro h
                  have hall2 : ∀ x ∈ ds', isAsciiDigit x = true :=
                    List.dropWhile_eq_nil_iff.mp h
                  refine hall ?_
                  simp only [List.all_eq_true]
                  intro x hx
                  rcases List.mem_cons.mp hx with h1 | h1
                  · rw [h1]; exact hdd
                  · exact hall2 x h1
                obtain ⟨e, rem, hrem⟩ : ∃ e rem, ds'.dropWhile isAsciiDigit = e :: rem := by
                  cases h : ds'.dropWhile isAsciiDigit with
                  | nil => exact absurd h hbad
                  | cons e rem => exact ⟨e, rem, rfl⟩
                have hed : isAsciiDigit e = false := by
                  have := List.head?_dropWhile_not isAsciiDigit ds'
                  rw [hrem] at this
                  simpa using this
                have hew : isWordChar e = true := by
                  refine htw e ?_
                  have hmem : e ∈ ds' := by
                    have hsub := List.dropWhile_sublist (l := ds') isAsciiDigit
                    exact hsub.mem (by rw [hrem]; simp)
                  simp [hmem]
                have hsplit2 : ds' ++ rest =
                    ds'.takeWhile isAsciiDigit ++ ((e :: rem) ++ rest) := by
                  conv_rhs => rw [← hrem, ← List.append_assoc,
                    List.takeWhile_append_dropWhile]
                rw [show ((d :: ds') ++ rest) = d :: (ds' ++ rest) from rfl,
                  show f5 + 2 = (f5 + 1) + 1 from rfl, m_grpPlus_cons, if_pos hdd]
                rw [show ds' ++ rest =
                  ds'.takeWhile isAsciiDigit ++ ((e :: rem) ++ rest) from hsplit2]
                rw [grpAcc_digits_wb (ds'.takeWhile isAsciiDigit) (f5 + 1) [d] (some d)
                  ((e :: rem) ++ rest)
                  (by
                    have hle := (List.takeWhile_sublist (l := ds') isAsciiDigit).length_le
                    simp only [List.length_append, List.length_cons] at hfuel
                    omega)
                  (fun x hx => List.mem_takeWhile_imp hx)
                  (by simp only [isWordCharOpt]; exact digit_word d hdd)
                  (by simp [headIsDigit, hed])]
                rw [if_neg (by simp [headIsWord, hew])]
                have hallf : (d :: ds').all isAsciiDigit = false := by
                  cases h : (d :: ds').all isAsciiDigit
                  · rfl
                  · exact absurd h hall
                have hsh : osShape ('O' :: 's' :: d :: ds') = false := by
                  simp [osShape, hallf]
                constructor
                · intro _
                  rfl
                · intro hfc
                  exact absurd (by rw [fcOs, hsh]; rfl) hfc
            · rw [show ((d :: ds') ++ rest) = d :: (ds' ++ rest) from rfl,
                show f5 + 2 = (f5 + 1) + 1 from rfl, m_grpPlus_cons,
                if_neg (by simpa using hdd)]
              have hddf : isAsciiDigit d = false := by
                cases h : isAsciiDigit d
                · rfl
                · exact absurd h hdd
              have hallf : (d :: ds').all isAsciiDigit = false := by
                simp [List.all_cons, hddf]
              have hsh : osShape ('O' :: 's' :: d :: ds') = false := by
                simp [osShape, hallf]
              constructor
              · intro _
                rfl
              · intro hfc
                exact absurd (by rw [fcOs, hsh]; rfl) hfc
        · rw [show ((y :: t2) ++ rest) = y :: (t2 ++ rest) from rfl,
            show f5 + 3 = (f5 + 2) + 1 from rfl, m_lit_cons, if_neg hys]
          have hsh : osShape ('O' :: y :: t2) = false := by
            simp only [osShape]
            rw [show ((y : Char) == 's') = false from beq_eq_false_iff_ne.mpr hys]
            simp
          constructor
          · intro _
            rfl
          · intro hfc
            exact absurd (by rw [fcOs, hsh]; rfl) hfc
    · rw [show ((c :: t1) ++ rest) = c :: (t1 ++ rest) from rfl,
        show f5 + 4 = (f5 + 3) + 1 from rfl, m_lit_cons, if_neg hcO]
      · have hsh : osShape (c :: t1) = false := by
          cases t1 with
          | nil => rfl
          | cons y t2 =>
            simp only [osShape]
            rw [show ((c : Char) == 'O') = false from beq_eq_false_iff_ne.mpr hcO]
            simp
        constructor
        · intro _
          rfl
        · intro hfc
          exact absurd (by rw [fcOs, hsh]; rfl) hfc

/-- The rule `re.sub(r'\bOs(\d+)\b', r'\1', s)` acts as `fcOs` on every
maximal word token. -/
theorem reSub_os_eq (s : List Char) : reSub patOs rgrp s = mapTokens fcOs s := by
  have hHK := lit_head_HK 'O' (by decide)
    [RItem.lit 's', RItem.grpPlus isAsciiDigit, RItem.wb]
  apply reSub_eq_mapTokens
  · intro f prev s' hprev
    exact wbpat_H1 [RItem.lit 'O', RItem.lit 's', RItem.grpPlus isAsciiDigit, RItem.wb]
      hHK f prev s' hprev
  · intro f prev s' hh
    exact wbpat_H2 [RItem.lit 'O', RItem.lit 's', RItem.grpPlus isAsciiDigit, RItem.wb]
      hHK f prev s' hh
  · exact os_H3

theorem reSubGo_id_aux (pat : List RItem) (repl : List Char → List Char) (y : List Char)
    (H : ∀ (pre : List Char) (d : Char) (rest : List Char), y = pre ++ d :: rest →
      matchItems (rest.length + 60) pat pre.getLast? (d :: rest) = none) :
    ∀ (suf : List Char) (f : Nat) (pre : List Char), pre ++ suf = y → suf.length ≤ f →
      reSubGo pat repl f pre.getLast? suf = suf := by
  intro suf
  induction suf with
  | nil =>
    intro f pre _ _
    rw [rg_any_nil]
  | cons d rest ih =>
    intro f pre hy hf
    obtain ⟨g, rfl⟩ : ∃ g, f = g + 1 :=
      ⟨f - 1, by simp only [List.length_cons] at hf; omega⟩
    rw [rg_cons, H pre d rest hy.symm]
    show d :: reSubGo pat repl g (some d) rest = d :: rest
    have hlast : some d = (pre ++ [d]).getLast? := (List.getLast?_concat pre).symm
    rw [hlast, ih g (pre ++ [d])
      (by rw [List.append_assoc]; exact hy)
      (by simp only [List.length_cons] at hf; omega)]

/-- If the pattern matches nowhere in `y` (at each position, with the actual
preceding character), `re.sub` is the identity. -/
theorem reSub_id (pat : List RItem) (repl : List Char → List Char) (y : List Char)
    (H : ∀ (pre : List Char) (d : Char) (rest : List Char), y = pre ++ d :: rest →
      matchItems (rest.length + 60) pat pre.getLast? (d :: rest) = none) :
    reSub pat repl y = y :=
  reSubGo_id_aux pat repl y H y (y.length + 1) [] rfl (by omega)

theorem dropWhile_append_left (p : Char → Bool) (a b : List Char)
    (h : a.dropWhile p ≠ []) : (a ++ b).dropWhile p = a.dropWhile p ++ b := by
  rw [List.dropWhile_append, if_neg]
  simp only [List.isEmpty_iff]
  exact h

theorem getLast?_dropWhile (p : Char → Bool) (l : List Char)
    (h : l.dropWhile p ≠ []) : (l.dropWhile p).getLast? = l.getLast? := by
  have heq : l.getLast? = (l.dropWhile p).getLast?.or (l.takeWhile p).getLast? := by
    conv_lhs => rw [← List.takeWhile_append_dropWhile p l]
    rw [List.getLast?_append]
  cases h' : (l.dropWhile p).getLast? with
  | none => exact absurd (List.getLast?_eq_none_iff.mp h') h
  | some c =>
    rw [heq, h']
    rfl

/-- A maximal word run `t` occurring anywhere in a string (non-word or
nothing right before, non-word or nothing right after) is one of its
tokens. -/
theorem token_mem_aux :
    ∀ n (pre t rest : List Char), pre.length ≤ n →
      isWordCharOpt pre.getLast? = false → t ≠ [] →
      (∀ c ∈ t, isWordChar c = true) → headIsWord rest = false →
      t ∈ tokensOf (pre ++ (t ++ rest)) := by
  intro n
  induction n with
  | zero =>
    intro pre t rest hn hpre htne htw hrh
    have : pre = [] := List.eq_nil_of_length_eq_zero (by omega)
    subst this
    rw [List.nil_append, tokensOf_token_block t rest htne htw hrh]
    simp
  | succ n ih =>
    intro pre t rest hn hpre htne htw hrh
    cases pre with
    | nil =>
      rw [List.nil_append, tokensOf_token_block t rest htne htw hrh]
      simp
    | cons a pre' =>
      by_cases haw : isWordChar a = true
      · have hpne : pre' ≠ [] := by
          intro h
          subst h
          simp only [List.getLast?_singleton, isWordCharOpt] at hpre
          rw [haw] at hpre
          simp at hpre
        have hlast : (a :: pre').getLast? = pre'.getLast? := by
          cases pre' with
          | nil => exact absurd rfl hpne
          | cons b pre'' => exact List.getLast?_cons_cons
        rw [hlast] at hpre
        have hdne : pre'.dropWhile isWordChar ≠ [] := by
          intro h
          have hall := List.dropWhile_eq_nil_iff.mp h
          cases hl : pre'.getLast? with
          | none => exact hpne (List.getLast?_eq_none_iff.mp hl)
          | some c =>
            obtain ⟨l, hleq⟩ := List.getLast?_eq_some_iff.mp hl
            have hc : c ∈ pre' := by rw [hleq]; simp
            rw [hl] at hpre
            simp only [isWordCharOpt] at hpre
            rw [hall c hc] at hpre
            simp at hpre
        rw [show (a :: pre') ++ (t ++ rest) = a :: (pre' ++ (t ++ rest)) from rfl,
          tokensOf_cons_word a _ haw]
        refine List.mem_cons.mpr (Or.inr ?_)
        rw [List.dropWhile_cons_of_pos haw, dropWhile_append_left _ _ _ hdne]
        exact ih (pre'.dropWhile isWordChar) t rest
          (by
            have := length_dropWhile_le' isWordChar pre'
            simp only [List.length_cons] at hn
            omega)
          (by rw [getLast?_dropWhile _ _ hdne]; exact hpre)
          htne htw hrh
      · have hpre' : isWordCharOpt pre'.getLast? = false := by
          cases pre' with
          | nil => rfl
          | cons b pre'' =>
            rw [show (a :: b :: pre'').getLast? = (b :: pre'').getLast? from
              List.getLast?_cons_cons] at hpre
            exact hpre
        rw [show (a :: pre') ++ (t ++ rest) = a :: (pre' ++ (t ++ rest)) from rfl,
          tokensOf_cons_sep a _ (by
            cases h : isWordChar a
            · rfl
            · exact absurd h haw)]
        exact ih pre' t rest (by simp only [List.length_cons] at hn; omega)
          hpre' htne htw hrh

theorem token_mem_of_decomp (pre t rest : List Char)
    (hpre : isWordCharOpt pre.getLast? = false) (htne : t ≠ [])
    (htw : ∀ c ∈ t, isWordChar c = true) (hrh : headIsWord rest = false) :
    t ∈ tokensOf (pre ++ (t ++ rest)) :=
  token_mem_aux pre.length pre t rest (le_refl _) hpre htne htw hrh

theorem space_not_word (c : Char) (h : isPySpace c = true) : isWordChar c = false := by
  simp only [isPySpace, Bool.or_eq_true, decide_eq_true_eq] at h
  rcases h with ((((h | h) | h) | h) | h) | h
  all_goals rw [h]; decide

/-- A successful match of `\s*$` (MULTILINE) implies the position is not at a
word character. -/
theorem star_eol_head :
    ∀ f (prev : Option Char) (s : List Char) (r : Nat × List Char),
      matchItems f [spStar, RItem.eolM] prev s = some r → headIsWord s = false := by
  intro f
  induction f with
  | zero =>
    intro prev s r h
    rw [m_zero] at h
    exact absurd h (by simp)
  | succ f ih =>
    intro prev s r h
    cases s with
    | nil => rfl
    | cons d s' =>
      by_cases hsp : isPySpace d = true
      · simp only [headIsWord]
        exact space_not_word d hsp
      · rw [show [spStar, RItem.eolM] = spStar :: [RItem.eolM] from rfl] at h
        rw [show spStar = RItem.star isPySpace from rfl, m_star_cons,
          if_neg hsp] at h
        cases f with
        | zero => rw [m_zero] at h; exact absurd h (by simp)
        | succ f' =>
          rw [m_eolM_cons] at h
          by_cases hdn : d = '\n'
          · subst hdn
            simp only [headIsWord]
            decide
          · rw [if_neg hdn] at h
            exact absurd h (by simp)

/-- Rules `^Xy\s -> ...` (non-MULTILINE `^`): identity when the token `Xy`
does not occur in `y`. -/
theorem bolF_rule_id (w : String) (r : List Char → List Char) (hne : w.data ≠ [])
    (hw : ∀ c ∈ w.data, isWordChar c = true) (hwlen : w.data.length ≤ 50)
    (y : List Char) (habs : w.data ∉ tokensOf y) :
    reSub ([.bol false] ++ lits w ++ [spCls]) r y = y := by
  apply reSub_id
  intro pre d rest hy
  rw [show ([RItem.bol false] ++ lits w ++ [spCls]) =
    RItem.bol false :: (w.data.map RItem.lit ++ [spCls]) from rfl]
  cases hpre : pre.getLast? with
  | some c =>
    rw [show rest.length + 60 = (rest.length + 59) + 1 from rfl, m_bol_some]
    rw [if_neg]
    simp
  | none =>
    have hpre0 : pre = [] := List.getLast?_eq_none_iff.mp hpre
    rw [show rest.length + 60 = (rest.length + 59) + 1 from rfl, m_bol_none]
    rw [show rest.length + 59 = (rest.length + 59 - w.data.length) + w.data.length by
      omega, matchItems_lits]
    by_cases hp : w.data.isPrefixOf (d :: rest) = true
    · rw [if_pos hp]
      obtain ⟨u, hu⟩ := List.isPrefixOf_iff_prefix.mp hp
      have hueq : u = (d :: rest).drop w.data.length := by
        rw [← hu, List.drop_left]
      cases hdrop : (d :: rest).drop w.data.length with
      | nil =>
        obtain ⟨g, hg⟩ : ∃ g, rest.length + 59 - w.data.length = g + 1 :=
          ⟨rest.length + 59 - w.data.length - 1, by omega⟩
        rw [hg, show spCls = RItem.cls isPySpace from rfl, m_cls_nil]
        rfl
      | cons e s2 =>
        obtain ⟨g, hg⟩ : ∃ g, rest.length + 59 - w.data.length = g + 1 :=
          ⟨rest.length + 59 - w.data.length - 1, by omega⟩
        rw [hg, show spCls = RItem.cls isPySpace from rfl, m_cls_cons]
        by_cases hsp : isPySpace e = true
        · exfalso
          refine habs ?_
          have hyeq : y = w.data ++ (e :: s2) := by
            rw [hy, hpre0, List.nil_append, ← hu, hueq, hdrop]
          rw [hyeq]
          exact token_mem_of_decomp [] w.data (e :: s2) rfl hne hw
            (by simp only [headIsWord]; exact space_not_word e hsp)
        · rw [if_neg hsp]
          rfl
    · have hp' : w.data.isPrefixOf (d :: rest) = false := by
        cases h : w.data.isPrefixOf (d :: rest)
        · rfl
        · exact absurd h hp
      rw [hp']
      simp

/-- Rules `\sXy\s -> ...`: identity when the token `Xy` does not occur. -/
theorem spcls_rule_id (w : String) (r : List Char → List Char) (hne : w.data ≠ [])
    (hw : ∀ c ∈ w.data, isWordChar c = true) (hwlen : w.data.length ≤ 50)
    (y : List Char) (habs : w.data ∉ tokensOf y) :
    reSub ([spCls] ++ lits w ++ [spCls]) r y = y := by
  apply reSub_id
  intro pre d rest hy
  rw [show ([spCls] ++ lits w ++ [spCls]) =
    RItem.cls isPySpace :: (w.data.map RItem.lit ++ [spCls]) from rfl]
  rw [show rest.length + 60 = (rest.length + 59) + 1 from rfl, m_cls_cons]
  by_cases hd : isPySpace d = true
  · rw [if_pos hd]
    rw [show rest.length + 59 = (rest.length + 59 - w.data.length) + w.data.length by
      omega, matchItems_lits]
    by_cases hp : w.data.isPrefixOf rest = true
    · rw [if_pos hp]
      obtain ⟨u, hu⟩ := List.isPrefixOf_iff_prefix.mp hp
      have hueq : u = rest.drop w.data.length := by
        rw [← hu, List.drop_left]
      cases hdrop : rest.drop w.data.length with
      | nil =>
        obtain ⟨g, hg⟩ : ∃ g, rest.length + 59 - w.data.length = g + 1 :=
          ⟨rest.length + 59 - w.data.length - 1, by omega⟩
        rw [hg, show spCls = RItem.cls isPySpace from rfl, m_cls_nil]
        rfl
      | cons e s2 =>
        obtain ⟨g, hg⟩ : ∃ g, rest.length + 59 - w.data.length = g + 1 :=
          ⟨rest.length + 59 - w.data.length - 1, by omega⟩
        rw [hg, show spCls = RItem.cls isPySpace from rfl, m_cls_cons]
        by_cases hsp : isPySpace e = true
        · exfalso
          refine habs ?_
          have hyeq : y = (pre ++ [d]) ++ (w.data ++ (e :: s2)) := by
            rw [hy, List.append_assoc, List.singleton_append, ← hu, hueq, hdrop]
          rw [hyeq]
          exact token_mem_of_decomp (pre ++ [d]) w.data (e :: s2)
            (by
              rw [List.getLast?_concat]
              simp only [isWordCharOpt]
              exact space_not_word d hd)
            hne hw
            (by simp only [headIsWord]; exact space_not_word e hsp)
        · rw [if_neg hsp]
          rfl
    · have hp' : w.data.isPrefixOf rest = false := by
        cases h : w.data.isPrefixOf rest
        · rfl
        · exact absurd h hp
      rw [hp']
      simp
  · rw [if_neg hd]

/-- Shared core of the `\bXa\s+b\s+Xc\b`, `^...$` (MULTILINE) and `^Oo\s*$`
rules: a literal token followed by at least one whitespace (or by `\s*$`)
cannot match without exhibiting the token, provided the preceding character
is not a word character whenever the literals fit. -/
theorem lits_spPlus_none (w : List Char) (K : List RItem) (hne : w ≠ [])
    (hw : ∀ c ∈ w, isWordChar c = true) (y pre : List Char) (d : Char)
    (rest : List Char) (hy : y = pre ++ d :: rest)
    (hprev : w.isPrefixOf (d :: rest) = true → isWordCharOpt pre.getLast? = false)
    (habs : w ∉ tokensOf y) (F : Nat) (hF : w.length + 1 ≤ F) :
    matchItems F (w.map RItem.lit ++ (RItem.plus isPySpace :: K))
      pre.getLast? (d :: rest) = none := by
  rw [show F = (F - w.length) + w.length by omega, matchItems_lits]
  by_cases hp : w.isPrefixOf (d :: rest) = true
  · rw [if_pos hp]
    obtain ⟨u, hu⟩ := List.isPrefixOf_iff_prefix.mp hp
    have hueq : u = (d :: rest).drop w.length := by
      rw [← hu, List.drop_left]
    cases hdrop : (d :: rest).drop w.length with
    | nil =>
      obtain ⟨g, hg⟩ : ∃ g, F - w.length = g + 1 := ⟨F - w.length - 1, by omega⟩
      rw [hg, m_plus_nil]
      rfl
    | cons e s2 =>
      obtain ⟨g, hg⟩ : ∃ g, F - w.length = g + 1 := ⟨F - w.length - 1, by omega⟩
      rw [hg, m_plus_cons]
      by_cases hsp : isPySpace e = true
      · exfalso
        refine habs ?_
        have hyeq : y = pre ++ (w ++ (e :: s2)) := by
          rw [hy, ← hu, hueq, hdrop]
        rw [hyeq]
        exact token_mem_of_decomp pre w (e :: s2) (hprev hp) hne hw
          (by simp only [headIsWord]; exact space_not_word e hsp)
      · rw [if_neg hsp]
        rfl
  · have hp' : w.isPrefixOf (d :: rest) = false := by
      cases h : w.isPrefixOf (d :: rest)
      · rfl
      · exact absurd h hp
    rw [hp']
    simp

/-- Rules `\bXa\s+b\s+Xc\b -> a b c`: identity when the token `Xa` does not
occur. -/
theorem wb_spPlus_rule_id (w : String) (K : List RItem) (r : List Char → List Char)
    (hne : w.data ≠ []) (hw : ∀ c ∈ w.data, isWordChar c = true)
    (hwlen : w.data.length ≤ 50) (y : List Char) (habs : w.data ∉ tokensOf y) :
    reSub (RItem.wb :: (w.data.map RItem.lit ++ (RItem.plus isPySpace :: K))) r y = y := by
  apply reSub_id
  intro pre d rest hy
  rw [show rest.length + 60 = (rest.length + 59) + 1 from rfl, m_wb]
  by_cases hb : (isWordCharOpt pre.getLast? != headIsWord (d :: rest)) = true
  · rw [if_pos hb]
    refine lits_spPlus_none w.data K hne hw y pre d rest hy ?_ habs _ (by omega)
    intro hp
    have hhead : headIsWord (d :: rest) = true := headIsWord_of_isPrefixOf w.data _ hne hw hp
    rw [hhead] at hb
    cases h : isWordCharOpt pre.getLast? with
    | false => rfl
    | true => rw [h] at hb; simp at hb
  · rw [if_neg hb]

/-- Rules `^Xa\s+b\s+Xc\s*$ -> a b c` (MULTILINE `^`): identity when the
token `Xa` does not occur. -/
theorem bolT_spPlus_rule_id (w : String) (K : List RItem) (r : List Char → List Char)
    (hne : w.data ≠ []) (hw : ∀ c ∈ w.data, isWordChar c = true)
    (hwlen : w.data.length ≤ 50) (y : List Char) (habs : w.data ∉ tokensOf y) :
    reSub (RItem.bol true :: (w.data.map RItem.lit ++ (RItem.plus isPySpace :: K))) r y
      = y := by
  apply reSub_id
  intro pre d rest hy
  cases hpre : pre.getLast? with
  | none =>
    rw [show rest.length + 60 = (rest.length + 59) + 1 from rfl, m_bol_none]
    have h := lits_spPlus_none w.data K hne hw y pre d rest hy
      (fun _ => by rw [hpre]; rfl) habs (rest.length + 59) (by omega)
    rw [hpre] at h
    exact h
  | some c =>
    rw [show rest.length + 60 = (rest.length + 59) + 1 from rfl, m_bol_some]
    by_cases hc : c = '\n'
    · subst hc
      rw [if_pos (by simp)]
      have h := lits_spPlus_none w.data K hne hw y pre d rest hy
        (fun _ => by rw [hpre]; rfl) habs (rest.length + 59) (by omega)
      rw [hpre] at h
      exact h
    · rw [if_neg (by simp [hc])]

/-- Rule `^Oo\s*$ -> ''` (MULTILINE): identity when the token `Oo` does not
occur. -/
theorem bolT_starEol_rule_id (w : String) (r : List Char → List Char)
    (hne : w.data ≠ []) (hw : ∀ c ∈ w.data, isWordChar c = true)
    (hwlen : w.data.length ≤ 50) (y : List Char) (habs : w.data ∉ tokensOf y) :
    reSub (RItem.bol true :: (w.data.map RItem.lit ++ [spStar, RItem.eolM])) r y = y := by
  have hcore : ∀ (pre : List Char) (d : Char) (rest : List Char), y = pre ++ d :: rest →
      isWordCharOpt pre.getLast? = false →
      matchItems (rest.length + 59) (w.data.map RItem.lit ++ [spStar, RItem.eolM])
        pre.getLast? (d :: rest) = none := by
    intro pre d rest hy hprev
    rw [show rest.length + 59 = (rest.length + 59 - w.data.length) + w.data.length by
      omega, matchItems_lits]
    by_cases hp : w.data.isPrefixOf (d :: rest) = true
    · rw [if_pos hp]
      cases hm : matchItems (rest.length + 59 - w.data.length) [spStar, RItem.eolM]
          (advPrev pre.getLast? w.data) ((d :: rest).drop w.data.length) with
      | none => rfl
      | some res =>
        exfalso
        have hhead := star_eol_head _ _ _ res hm
        obtain ⟨u, hu⟩ := List.isPrefixOf_iff_prefix.mp hp
        have hueq : u = (d :: rest).drop w.data.length := by
          rw [← hu, List.drop_left]
        refine habs ?_
        have hyeq : y = pre ++ (w.data ++ u) := by rw [hy, hu]
        rw [hyeq]
        refine token_mem_of_decomp pre w.data u hprev hne hw ?_
        rw [hueq]
        exact hhead
    · have hp' : w.data.isPrefixOf (d :: rest) = false := by
        cases h : w.data.isPrefixOf (d :: rest)
        · rfl
        · exact absurd h hp
      rw [hp']
      simp
  apply reSub_id
  intro pre d rest hy
  cases hpre : pre.getLast? with
  | none =>
    rw [show rest.length + 60 = (rest.length + 59) + 1 from rfl, m_bol_none]
    have h := hcore pre d rest hy (by rw [hpre]; rfl)
    rw [hpre] at h
    exact h
  | some c =>
    rw [show rest.length + 60 = (rest.length + 59) + 1 from rfl, m_bol_some]
    by_cases hc : c = '\n'
    · subst hc
      rw [if_pos (by simp)]
      have h := hcore pre d rest hy (by rw [hpre]; decide)
      rw [hpre] at h
      exact h
    · rw [if_neg (by simp [hc])]

theorem lit_head_none (c : Char) (k : List RItem) :
    ∀ f (prev : Option Char) (d : Char) (s : List Char), d ≠ c →
      matchItems f (.lit c :: k) prev (d :: s) = none := by
  intro f prev d s hdc
  cases f with
  | zero => rw [m_zero]
  | succ f => rw [m_lit_cons, if_neg hdc]

/-- A rule whose pattern starts with the literal `c` is the identity on any
string not containing `c`. -/
theorem reSub_litHead_id (c : Char) (k : List RItem) (r : List Char → List Char)
    (y : List Char) (hc : c ∉ y) : reSub (.lit c :: k) r y = y := by
  apply reSub_id
  intro pre d rest hy
  apply lit_head_none
  intro h
  subst h
  exact hc (by rw [hy]; simp)

/-- After `re.sub('©', '', x)` the character `©` is gone. -/
theorem reSubGo_litdel_not_mem (c : Char) :
    ∀ (x : List Char) (f : Nat) (prev : Option Char), x.length ≤ f →
      c ∉ reSubGo [RItem.lit c] (rconst "") f prev x := by
  intro x
  induction x with
  | nil =>
    intro f prev _
    rw [rg_any_nil]
    simp
  | cons d rest ih =>
    intro f prev hf
    obtain ⟨g, rfl⟩ : ∃ g, f = g + 1 :=
      ⟨f - 1, by simp only [List.length_cons] at hf; omega⟩
    by_cases hdc : d = c
    · subst hdc
      have hm : matchItems (rest.length + 60) [RItem.lit d] prev (d :: rest) =
          some (1, []) := by
        rw [show rest.length + 60 = (rest.length + 59) + 1 from rfl, m_lit_cons,
          if_pos rfl, m_nil' _ (by omega)]
        rfl
      rw [rg_cons, hm]
      show d ∉ (if (1 : Nat) = 0 then d :: reSubGo [RItem.lit d] (rconst "") g (some d) rest
        else rconst "" [] ++ reSubGo [RItem.lit d] (rconst "") g
          (((d :: rest).take 1).getLast?) ((d :: rest).drop 1))
      rw [if_neg (by omega)]
      show d ∉ [] ++ reSubGo [RItem.lit d] (rconst "") g
        (((d :: rest).take 1).getLast?) rest
      rw [List.nil_append]
      exact ih g _ (by simp only [List.length_cons] at hf; omega)
    · rw [rg_cons, lit_head_none c [] (rest.length + 60) prev d rest hdc]
      show c ∉ d :: reSubGo [RItem.lit c] (rconst "") g (some d) rest
      intro hmem
      rcases List.mem_cons.mp hmem with h | h
      · exact hdc h.symm
      · exact ih g (some d) (by simp only [List.length_cons] at hf; omega) h

theorem reSub_litdel_not_mem (c : Char) (x : List Char) :
    c ∉ reSub [RItem.lit c] (rconst "") x :=
  reSubGo_litdel_not_mem c x (x.length + 1) none (by omega)

theorem mapTokens_congr (f g : List Char → List Char)
    (h : ∀ t, t ≠ [] → (∀ c ∈ t, isWordChar c = true) → f t = g t) :
    ∀ n (s : List Char), s.length ≤ n → mapTokens f s = mapTokens g s := by
  intro n
  induction n with
  | zero =>
    intro s hs
    have : s = [] := List.eq_nil_of_length_eq_zero (by omega)
    rw [this]
    rfl
  | succ n ih =>
    intro s hs
    cases s with
    | nil => rfl
    | cons d s' =>
      by_cases hd : isWordChar d = true
      · rw [mapTokens_cons_word f d s' hd, mapTokens_cons_word g d s' hd]
        rw [h _ (by simp [List.takeWhile_cons_of_pos hd])
          (fun c hc => List.mem_takeWhile_imp hc)]
        rw [ih _ (by
          have hlt := dropWhile_cons_word_lt isWordChar d s' hd
          simp only [List.length_cons] at hlt hs ⊢
          omega)]
      · have hd' : isWordChar d = false := by
          cases h' : isWordChar d
          · rfl
          · exact absurd h' hd
        rw [mapTokens_cons_sep f d s' hd', mapTokens_cons_sep g d s' hd',
          ih s' (by simp only [List.length_cons] at hs; omega)]

theorem mapTokens_comp (g f : List Char → List Char)
    (hf : ∀ t, t ≠ [] → (∀ c ∈ t, isWordChar c = true) → ∀ c ∈ f t, isWordChar c = true) :
    ∀ n (s : List Char), s.length ≤ n →
      mapTokens g (mapTokens f s) = mapTokens (fun t => stepFc (f t) g) s := by
  intro n
  induction n with
  | zero =>
    intro s hs
    have : s = [] := List.eq_nil_of_length_eq_zero (by omega)
    rw [this]
    rfl
  | succ n ih =>
    intro s hs
    cases s with
    | nil => rfl
    | cons d s' =>
      by_cases hd : isWordChar d = true
      · have htne : (d :: s').takeWhile isWordChar ≠ [] := by
          simp [List.takeWhile_cons_of_pos hd]
        have htw : ∀ c ∈ (d :: s').takeWhile isWordChar, isWordChar c = true :=
          fun c hc => List.mem_takeWhile_imp hc
        have hrh : headIsWord ((d :: s').dropWhile isWordChar) = false :=
          headIsWord_dropWhile_word (d :: s')
        have hlen : ((d :: s').dropWhile isWordChar).length ≤ n := by
          have hlt := dropWhile_cons_word_lt isWordChar d s' hd
          simp only [List.length_cons] at hlt hs ⊢
          omega
        rw [mapTokens_cons_word f d s' hd,
          mapTokens_cons_word (fun t => stepFc (f t) g) d s' hd]
        by_cases hft : f ((d :: s').takeWhile isWordChar) = []
        · rw [hft, List.nil_append, ih _ hlen]
          rw [show stepFc [] g = [] from rfl]
          rw [List.nil_append]
        · rw [mapTokens_token_block g (f ((d :: s').takeWhile isWordChar))
            (mapTokens f ((d :: s').dropWhile isWordChar)) hft
            (hf _ htne htw) (headIsWord_mapTokens f _ hrh)]
          rw [ih _ hlen]
          rw [show stepFc (f ((d :: s').takeWhile isWordChar)) g =
            g (f ((d :: s').takeWhile isWordChar)) by
              rw [stepFc, if_neg]
              simp only [List.isEmpty_iff]
              exact hft]
      · have hd' : isWordChar d = false := by
          cases h' : isWordChar d
          · rfl
          · exact absurd h' hd
        rw [mapTokens_cons_sep f d s' hd', mapTokens_cons_sep g d _ hd',
          mapTokens_cons_sep (fun t => stepFc (f t) g) d s' hd',
          ih s' (by simp only [List.length_cons] at hs; omega)]

theorem foldl_stepFc_nil (fcs : List (List Char → List Char)) :
    fcs.foldl stepFc [] = [] := by
  induction fcs with
  | nil => rfl
  | cons f fcs ih =>
    rw [List.foldl_cons, show stepFc [] f = [] from rfl, ih]

/-- Collapsing a chain of per-token substitutions into a single token map. -/
theorem mapTokens_chain :
    ∀ (fcs : List (List Char → List Char)),
      (∀ fc ∈ fcs, ∀ t, t ≠ [] → (∀ c ∈ t, isWordChar c = true) →
        ∀ c ∈ fc t, isWordChar c = true) →
      ∀ (s : List Char), fcs.foldl (fun s fc => mapTokens fc s) s =
        mapTokens (fun t => fcs.foldl stepFc t) s := by
  intro fcs
  induction fcs with
  | nil =>
    intro _ s
    rw [List.foldl_nil]
    rw [show (fun (t : List Char) => List.foldl stepFc t []) = fun t => t from rfl]
    exact (mapTokens_id _ s (fun t _ => rfl)).symm
  | cons f fcs ih =>
    intro hw s
    rw [List.foldl_cons, ih (fun fc hfc => hw fc (by simp [hfc])) (mapTokens f s)]
    rw [mapTokens_comp (fun t => fcs.foldl stepFc t) f
      (hw f (by simp)) s.length s (le_refl _)]
    refine mapTokens_congr _ _ ?_ s.length s (le_refl _)
    intro t htne htw
    rw [List.foldl_cons]
    have hstep : stepFc t f = f t := by
      rw [stepFc, if_neg]
      simp only [List.isEmpty_iff]
      exact htne
    rw [hstep]
    by_cases hft : f t = []
    · rw [hft]
      rw [show stepFc [] (fun u => List.foldl stepFc u fcs) = [] from rfl]
      exact (foldl_stepFc_nil fcs).symm
    · rw [show stepFc (f t) (fun u => List.foldl stepFc u fcs) =
        fcs.foldl stepFc (f t) from by
          rw [stepFc, if_neg (by simp only [List.isEmpty_iff]; exact hft)]]

theorem digit_not_lower (c : Char) (h : isAsciiDigit c = true) : isLowerAZ c = false := by
  simp only [isAsciiDigit, Bool.and_eq_true, decide_eq_true_eq] at h
  cases hl : isLowerAZ c with
  | false => rfl
  | true =>
    simp only [isLowerAZ, Bool.and_eq_true, decide_eq_true_eq] at hl
    have h2 : ('a' : Char) ≤ '9' := le_trans hl.1 h.2
    exact absurd h2 (by decide)

theorem lower_ne (a : Char) (hlc : isLowerAZ a = true) (d : Char)
    (hd : isLowerAZ d = false) : a ≠ d := by
  intro h
  rw [h] at hlc
  rw [hlc] at hd
  simp at hd

theorem allDigit_ne (ds w : List Char) (hds : ds.all isAsciiDigit = true)
    (hw : w.all isAsciiDigit = false) : ds ≠ w := by
  intro h
  rw [h] at hds
  rw [hds] at hw
  simp at hw

theorem fcW_ne (w r : String) (t : List Char) (h : t ≠ w.data) : fcW w r t = t := by
  rw [fcW, if_neg h]

theorem fcOs_id (t : List Char) (h : osShape t = false) : fcOs t = t := by
  rw [fcOs, h]
  simp

theorem osShape_digit (ds : List Char) (hall : ds.all isAsciiDigit = true) :
    osShape ds = false := by
  cases ds with
  | nil => rfl
  | cons a t1 =>
    cases t1 with
    | nil => rfl
    | cons b t2 =>
      have ha : isAsciiDigit a = true := by
        simp only [List.all_cons, Bool.and_eq_true] at hall
        exact hall.1
      have haO : (a == 'O') = false := by
        refine beq_eq_false_iff_ne.mpr ?_
        intro h
        rw [h] at ha
        exact absurd ha (by decide)
      simp [osShape, haO]

theorem pairShape_snd (c y : Char) (hy : (y == 'i' || y == 'l' || y == 't') = false) :
    pairShape [c, y] = false := by
  simp [pairShape, hy]

theorem pairShape_digit (ds : List Char) (hall : ds.all isAsciiDigit = true) :
    pairShape ds = false := by
  cases ds with
  | nil => rfl
  | cons a t1 =>
    cases t1 with
    | nil => rfl
    | cons b t2 =>
      cases t2 with
      | cons z t3 => rfl
      | nil =>
        have ha : isAsciiDigit a = true := by
          simp only [List.all_cons, Bool.and_eq_true] at hall
          exact hall.1
        simp [pairShape, digit_not_lower a ha]

theorem fcPair_id (x : Char) (hx : (x == 'i' || x == 'l' || x == 't') = true)
    (t : List Char) (hp : pairShape t = false) : fcPair x t = t := by
  cases t with
  | nil => rfl
  | cons a t1 =>
    cases t1 with
    | nil => rfl
    | cons b t2 =>
      cases t2 with
      | cons z t3 => rfl
      | nil =>
        simp only [fcPair]
        rw [if_neg]
        intro hcond
        simp only [Bool.and_eq_true, beq_iff_eq] at hcond
        obtain ⟨hla, hbx⟩ := hcond
        subst hbx
        rw [show pairShape [a, b] = (isLowerAZ a && (b == 'i' || b == 'l' || b == 't'))
          from rfl, hla, hx] at hp
        simp at hp

theorem fcPair_snd_ne (x c y : Char) (h : (y == x) = false) :
    fcPair x [c, y] = [c, y] := by
  simp [fcPair, h]

theorem fcPair_digit (x : Char) (ds : List Char) (hall : ds.all isAsciiDigit = true) :
    fcPair x ds = ds := by
  cases ds with
  | nil => rfl
  | cons a t1 =>
    cases t1 with
    | nil => rfl
    | cons b t2 =>
      cases t2 with
      | cons z t3 => rfl
      | nil =>
        have ha : isAsciiDigit a = true := by
          simp only [List.all_cons, Bool.and_eq_true] at hall
          exact hall.1
        simp [fcPair, digit_not_lower a ha]

theorem foldl_stepFc_id (t : List Char) (htne : t ≠ []) :
    ∀ (fcs : List (List Char → List Char)), (∀ fc ∈ fcs, fc t = t) →
      fcs.foldl stepFc t = t := by
  intro fcs
  induction fcs with
  | nil => intro _; rfl
  | cons f fcs ih =>
    intro h
    rw [List.foldl_cons, show stepFc t f = f t from by
        rw [stepFc, if_neg (by simp only [List.isEmpty_iff]; exact htne)],
      h f (by simp)]
    exact ih (fun fc hfc => h fc (by simp [hfc]))

theorem contains_false_of_not_mem (l : List (List Char)) (t : List Char) (h : t ∉ l) :
    l.contains t = false := by
  cases hc : l.contains t with
  | false => rfl
  | true =>
    have hc' : List.elem t l = true := hc
    exact absurd (List.elem_iff.mp hc') h

theorem stable_of (t : List Char) (h1 : t ∉ badList) (h2 : osShape t = false)
    (h3 : pairShape t = false) : stableTok t = true := by
  rw [stableTok, badTok, contains_false_of_not_mem badList t h1, h2, h3]
  rfl

theorem digit_not_in_badList (ds : List Char) (hall : ds.all isAsciiDigit = true) :
    ds ∉ badList := by
  intro hmem
  simp only [badList, List.mem_cons, List.not_mem_nil, or_false] at hmem
  rcases hmem with h|h|h|h|h|h|h|h|h|h|h|h|h|h|h|h|h|h|h|h|h|h|h|h|h|h|h|h|h|h|h|h
  all_goals (rw [h] at hall; exact absurd hall (by decide))

theorem digit_stable (ds : List Char) (hall : ds.all isAsciiDigit = true) :
    stableTok ds = true :=
  stable_of ds (digit_not_in_badList ds hall) (osShape_digit ds hall)
    (pairShape_digit ds hall)

theorem fcList_split : fcList = fcPre7 ++ fcOs :: fcPair 'i' :: fcPair 'l' ::
    fcW "lon" "c1" :: fcW "1t" "a1" :: fcW "at" "a1" :: fcPair 't' :: fcCorr := rfl

theorem pre7_id (t : List Char) (htne : t ≠ []) (hin : t ∉ badList) :
    fcPre7.foldl stepFc t = t := by
  refine foldl_stepFc_id t htne fcPre7 ?_
  intro fc hfc
  simp only [fcPre7, List.mem_cons, List.not_mem_nil, or_false] at hfc
  rcases hfc with h|h|h|h|h|h|h
  all_goals
    subst h
    refine fcW_ne _ _ _ ?_
    intro he
    exact hin (by rw [he]; decide)

theorem corr_id_digit (ds : List Char) (hne : ds ≠ [])
    (hall : ds.all isAsciiDigit = true) : fcCorr.foldl stepFc ds = ds := by
  refine foldl_stepFc_id ds hne fcCorr ?_
  intro fc hfc
  simp only [fcCorr, List.mem_cons, List.not_mem_nil, or_false] at hfc
  rcases hfc with h|h|h|h|h|h|h|h|h|h|h|h|h|h|h|h|h|h|h|h|h|h
  all_goals
    subst h
    exact fcW_ne _ _ _ (allDigit_ne ds _ hall (by decide))

theorem corr_id_pair1 (a : Char) (hal : a ≠ 'l') (haO : a ≠ 'O') (haI : a ≠ 'I') :
    fcCorr.foldl stepFc [a, '1'] = [a, '1'] := by
  refine foldl_stepFc_id [a, '1'] (by simp) fcCorr ?_
  intro fc hfc
  simp only [fcCorr, List.mem_cons, List.not_mem_nil, or_false] at hfc
  rcases hfc with h|h|h|h|h|h|h|h|h|h|h|h|h|h|h|h|h|h|h|h|h|h
  all_goals
    subst h
    refine fcW_ne _ _ _ ?_
    intro he
    first
      | exact hal (List.cons.inj he).1
      | exact haO (List.cons.inj he).1
      | exact haI (List.cons.inj he).1
      | exact absurd (List.cons.inj (List.cons.inj he).2).1 (by decide)

theorem pair1_not_in_badList (a : Char) (hal : a ≠ 'l') (haO : a ≠ 'O')
    (haI : a ≠ 'I') : [a, '1'] ∉ badList := by
  intro hmem
  simp only [badList, List.mem_cons, List.not_mem_nil, or_false] at hmem
  rcases hmem with h|h|h|h|h|h|h|h|h|h|h|h|h|h|h|h|h|h|h|h|h|h|h|h|h|h|h|h|h|h|h|h
  all_goals
    first
      | exact hal (List.cons.inj h).1
      | exact haO (List.cons.inj h).1
      | exact haI (List.cons.inj h).1
      | exact absurd (List.cons.inj (List.cons.inj h).2).1 (by decide)

theorem pair1_stable (a : Char) (hal : a ≠ 'l') (haO : a ≠ 'O') (haI : a ≠ 'I') :
    stableTok [a, '1'] = true :=
  stable_of [a, '1'] (pair1_not_in_badList a hal haO haI) (by simp [osShape])
    (pairShape_snd a '1' (by decide))

theorem stepFc_ne (t : List Char) (htne : t ≠ []) (fc : List Char → List Char) :
    stepFc t fc = fc t := by
  rw [stepFc, if_neg (by simp only [List.isEmpty_iff]; exact htne)]

/-- Stability of the composite token transformation: each token either
disappears or becomes a token no rule can rewrite. -/
theorem FCtotal_stable (t : List Char) (htne : t ≠ [])
    (htw : ∀ c ∈ t, isWordChar c = true) :
    FCtotal t = [] ∨ stableTok (FCtotal t) = true := by
  by_cases hin : t ∈ badList
  · simp only [badList, List.mem_cons, List.not_mem_nil, or_false] at hin
    rcases hin with h|h|h|h|h|h|h|h|h|h|h|h|h|h|h|h|h|h|h|h|h|h|h|h|h|h|h|h|h|h|h|h
    all_goals subst h
    all_goals first
      | (left; decide)
      | (right; decide)
  · by_cases hos : osShape t = true
    · obtain ⟨c1, c2, ds, ht⟩ : ∃ c1 c2 ds, t = c1 :: c2 :: ds := by
        cases t with
        | nil => exact absurd rfl htne
        | cons a t1 =>
          cases t1 with
          | nil => exact absurd hos (by simp [osShape])
          | cons b t2 => exact ⟨a, b, t2, rfl⟩
      subst ht
      have hos' := hos
      simp only [osShape, Bool.and_eq_true, beq_iff_eq, Bool.not_eq_true'] at hos'
      obtain ⟨⟨⟨hc1, hc2⟩, hdne⟩, hall⟩ := hos'
      subst hc1
      subst hc2
      have hdsne : ds ≠ [] := by
        intro h
        rw [h] at hdne
        simp at hdne
      have hcomp : FCtotal ('O' :: 's' :: ds) = ds := by
        rw [FCtotal, fcList_split, List.foldl_append, pre7_id _ htne hin,
          List.foldl_cons,
          show stepFc ('O' :: 's' :: ds) fcOs = ds from by
            rw [stepFc_ne _ htne, fcOs, if_pos hos]
            rfl,
          List.foldl_cons, stepFc_ne _ hdsne, fcPair_digit 'i' ds hall,
          List.foldl_cons, stepFc_ne _ hdsne, fcPair_digit 'l' ds hall,
          List.foldl_cons, stepFc_ne _ hdsne,
            fcW_ne _ _ _ (allDigit_ne ds _ hall (by decide)),
          List.foldl_cons, stepFc_ne _ hdsne,
            fcW_ne _ _ _ (allDigit_ne ds _ hall (by decide)),
          List.foldl_cons, stepFc_ne _ hdsne,
            fcW_ne _ _ _ (allDigit_ne ds _ hall (by decide)),
          List.foldl_cons, stepFc_ne _ hdsne, fcPair_digit 't' ds hall,
          corr_id_digit ds hdsne hall]
      rw [hcomp]
      right
      exact digit_stable ds hall
    · by_cases hpair : pairShape t = true
      · obtain ⟨a, b, ht⟩ : ∃ a b, t = [a, b] := by
          cases t with
          | nil => exact absurd rfl htne
          | cons a t1 =>
            cases t1 with
            | nil => exact absurd hpair (by simp [pairShape])
            | cons b t2 =>
              cases t2 with
              | nil => exact ⟨a, b, rfl⟩
              | cons z t3 => exact absurd hpair (by simp [pairShape])
        subst ht
        have hpair' := hpair
        simp only [pairShape, Bool.and_eq_true] at hpair'
        obtain ⟨hlc, hy⟩ := hpair'
        by_cases hal : a = 'l'
        · subst hal
          simp only [Bool.or_eq_true, beq_iff_eq] at hy
          rcases hy with (hb | hb) | hb
          all_goals subst hb
          all_goals right
          all_goals decide
        · have haO : a ≠ 'O' := lower_ne a hlc 'O' (by decide)
          have haI : a ≠ 'I' := lower_ne a hlc 'I' (by decide)
          have ha1 : a ≠ '1' := lower_ne a hlc '1' (by decide)
          have hosf : stepFc [a, b] fcOs = [a, b] := by
            rw [stepFc_ne _ (by simp), fcOs_id _ (by simp [osShape])]
          simp only [Bool.or_eq_true, beq_iff_eq] at hy
          have hstable : stableTok [a, '1'] = true := pair1_stable a hal haO haI
          rcases hy with (hb | hb) | hb
          · subst hb
            have hcomp : FCtotal [a, 'i'] = [a, '1'] := by
              rw [FCtotal, fcList_split, List.foldl_append, pre7_id _ (by simp) hin,
                List.foldl_cons, hosf,
                List.foldl_cons, stepFc_ne _ (by simp),
                  show fcPair 'i' [a, 'i'] = [a, '1'] from by simp [fcPair, hlc],
                List.foldl_cons, stepFc_ne _ (by simp),
                  fcPair_snd_ne 'l' a '1' (by decide),
                List.foldl_cons, stepFc_ne _ (by simp),
                  fcW_ne _ _ _ (by
                    intro he
                    have := congrArg List.length he
                    simp at this),
                List.foldl_cons, stepFc_ne _ (by simp),
                  fcW_ne _ _ _ (by
                    intro he
                    exact absurd (List.cons.inj (List.cons.inj he).2).1 (by decide)),
                List.foldl_cons, stepFc_ne _ (by simp),
                  fcW_ne _ _ _ (by
                    intro he
                    exact absurd (List.cons.inj (List.cons.inj he).2).1 (by decide)),
                List.foldl_cons, stepFc_ne _ (by simp),
                  fcPair_snd_ne 't' a '1' (by decide),
                corr_id_pair1 a hal haO haI]
            rw [hcomp]
            right
            exact hstable
          · subst hb
            have hcomp : FCtotal [a, 'l'] = [a, '1'] := by
              rw [FCtotal, fcList_split, List.foldl_append, pre7_id _ (by simp) hin,
                List.foldl_cons, hosf,
                List.foldl_cons, stepFc_ne _ (by simp),
                  fcPair_snd_ne 'i' a 'l' (by decide),
                List.foldl_cons, stepFc_ne _ (by simp),
                  show fcPair 'l' [a, 'l'] = [a, '1'] from by simp [fcPair, hlc],
                List.foldl_cons, stepFc_ne _ (by simp),
                  fcW_ne _ _ _ (by
                    intro he
                    have := congrArg List.length he
                    simp at this),
                List.foldl_cons, stepFc_ne _ (by simp),
                  fcW_ne _ _ _ (by
                    intro he
                    exact absurd (List.cons.inj (List.cons.inj he).2).1 (by decide)),
                List.foldl_cons, stepFc_ne _ (by simp),
                  fcW_ne _ _ _ (by
                    intro he
                    exact absurd (List.cons.inj (List.cons.inj he).2).1 (by decide)),
                List.foldl_cons, stepFc_ne _ (by simp),
                  fcPair_snd_ne 't' a '1' (by decide),
                corr_id_pair1 a hal haO haI]
            rw [hcomp]
            right
            exact hstable
          · subst hb
            have haa : a ≠ 'a' := by
              intro h
              exact hin (by rw [h]; decide)
            have hcomp : FCtotal [a, 't'] = [a, '1'] := by
              rw [FCtotal, fcList_split, List.foldl_append, pre7_id _ (by simp) hin,
                List.foldl_cons, hosf,
                List.foldl_cons, stepFc_ne _ (by simp),
                  fcPair_snd_ne 'i' a 't' (by decide),
                List.foldl_cons, stepFc_ne _ (by simp),
                  fcPair_snd_ne 'l' a 't' (by decide),
                List.foldl_cons, stepFc_ne _ (by simp),
                  fcW_ne _ _ _ (by
                    intro he
                    have := congrArg List.length he
                    simp at this),
                List.foldl_cons, stepFc_ne _ (by simp),
                  fcW_ne _ _ _ (by
                    intro he
                    exact ha1 (List.cons.inj he).1),
                List.foldl_cons, stepFc_ne _ (by simp),
                  fcW_ne _ _ _ (by
                    intro he
                    exact haa (List.cons.inj he).1),
                List.foldl_cons, stepFc_ne _ (by simp),
                  show fcPair 't' [a, 't'] = [a, '1'] from by simp [fcPair, hlc],
                corr_id_pair1 a hal haO haI]
            rw [hcomp]
            right
            exact hstable
      · have hosf : osShape t = false := by
          cases h : osShape t
          · rfl
          · exact absurd h hos
        have hpairf : pairShape t = false := by
          cases h : pairShape t
          · rfl
          · exact absurd h hpair
        have hid : FCtotal t = t := by
          refine foldl_stepFc_id t htne fcList ?_
          intro fc hfc
          simp only [fcList, List.mem_cons, List.not_mem_nil, or_false] at hfc
          rcases hfc with h|h|h|h|h|h|h|h|h|h|h|h|h|h|h|h|h|h|h|h|h|h|h|h|h|h|h|h|h|h|h|h|h|h|h|h
          all_goals subst h
          all_goals first
            | exact fcOs_id t hosf
            | exact fcPair_id _ (by decide) t hpairf
            | (refine fcW_ne _ _ _ ?_
               intro he
               exact hin (by rw [he]; decide))
        rw [hid]
        right
        exact stable_of t hin hosf hpairf

theorem fcW_word (w r : String) (hr : ∀ c ∈ r.data, isWordChar c = true)
    (t : List Char) (htw : ∀ c ∈ t, isWordChar c = true) :
    ∀ c ∈ fcW w r t, isWordChar c = true := by
  intro c hc
  by_cases h : t = w.data
  · rw [fcW, if_pos h] at hc
    exact hr c hc
  · rw [fcW, if_neg h] at hc
    exact htw c hc

theorem fcOs_word (t : List Char) (htw : ∀ c ∈ t, isWordChar c = true) :
    ∀ c ∈ fcOs t, isWordChar c = true := by
  intro c hc
  by_cases h : osShape t = true
  · rw [fcOs, h] at hc
    simp only [if_true] at hc
    exact htw c (List.mem_of_mem_drop hc)
  · rw [fcOs_id t (by cases h2 : osShape t; rfl; exact absurd h2 h)] at hc
    exact htw c hc

theorem fcPair_word (x : Char) (t : List Char) (htw : ∀ c ∈ t, isWordChar c = true) :
    ∀ c ∈ fcPair x t, isWordChar c = true := by
  intro c hc
  cases t with
  | nil => exact htw c hc
  | cons a t1 =>
    cases t1 with
    | nil => exact htw c hc
    | cons b t2 =>
      cases t2 with
      | cons z t3 => exact htw c hc
      | nil =>
        simp only [fcPair] at hc
        by_cases hcond : (isLowerAZ a && b == x) = true
        · rw [if_pos hcond] at hc
          rcases List.mem_cons.mp hc with h | h
          · rw [h]
            exact htw a (by simp)
          · simp only [List.mem_singleton] at h
            rw [h]
            decide
        · rw [if_neg hcond] at hc
          exact htw c hc

theorem foldl_stepFc_word (fcs : List (List Char → List Char))
    (h : ∀ fc ∈ fcs, ∀ t, (∀ c ∈ t, isWordChar c = true) →
      ∀ c ∈ fc t, isWordChar c = true) :
    ∀ (t : List Char), (∀ c ∈ t, isWordChar c = true) →
      ∀ c ∈ fcs.foldl stepFc t, isWordChar c = true := by
  induction fcs with
  | nil =>
    intro t htw c hc
    exact htw c hc
  | cons f fcs ih =>
    intro t htw c hc
    rw [List.foldl_cons] at hc
    by_cases ht : t = []
    · subst ht
      rw [show stepFc [] f = [] from rfl] at hc
      rw [foldl_stepFc_nil] at hc
      exact absurd hc (by simp)
    · rw [stepFc_ne t ht f] at hc
      exact ih (fun fc hfc => h fc (by simp [hfc])) (f t)
        (h f (by simp) t htw) c hc

theorem fcList_word :
    ∀ fc ∈ fcList, ∀ t, (∀ c ∈ t, isWordChar c = true) →
      ∀ c ∈ fc t, isWordChar c = true := by
  intro fc hfc
  simp only [fcList, List.mem_cons, List.not_mem_nil, or_false] at hfc
  rcases hfc with h|h|h|h|h|h|h|h|h|h|h|h|h|h|h|h|h|h|h|h|h|h|h|h|h|h|h|h|h|h|h|h|h|h|h|h
  all_goals subst h
  all_goals first
    | exact fun t htw => fcOs_word t htw
    | exact fun t htw => fcPair_word _ t htw
    | exact fun t htw => fcW_word _ _ (by decide) t htw

theorem fcSix_word :
    ∀ fc ∈ fcSix, ∀ t, (∀ c ∈ t, isWordChar c = true) →
      ∀ c ∈ fc t, isWordChar c = true := by
  intro fc hfc
  simp only [fcSix, List.mem_cons, List.not_mem_nil, or_false] at hfc
  rcases hfc with h|h|h|h|h|h
  all_goals subst h
  all_goals exact fun t htw => fcW_word _ _ (by decide) t htw

/-- Backward token tracing through a token map. -/
theorem tokens_mapTokens_sub (fc : List Char → List Char) (s : List Char)
    (hf : ∀ t ∈ tokensOf s, ∀ c ∈ fc t, isWordChar c = true) (u : List Char)
    (hu : u ∈ tokensOf (mapTokens fc s)) : ∃ t ∈ tokensOf s, fc t = u ∧ u ≠ [] := by
  rw [tokensOf_mapTokens fc s hf] at hu
  simp only [List.mem_filter, List.mem_map, Bool.not_eq_true'] at hu
  obtain ⟨⟨t, ht, hfc⟩, hne⟩ := hu
  refine ⟨t, ht, hfc, ?_⟩
  intro h
  rw [h] at hne
  simp at hne

theorem collapse6 (s : List Char) :
    mapTokens (fcW "lb" "b") (mapTokens (fcW "lc" "c") (mapTokens (fcW "la" "a")
      (mapTokens (fcW "Ib" "b") (mapTokens (fcW "Ia" "a")
        (mapTokens (fcW "Ic" "c") s))))) = mapTokens FC6 s := by
  have h : mapTokens (fcW "lb" "b") (mapTokens (fcW "lc" "c") (mapTokens (fcW "la" "a")
      (mapTokens (fcW "Ib" "b") (mapTokens (fcW "Ia" "a")
        (mapTokens (fcW "Ic" "c") s))))) =
      fcSix.foldl (fun s fc => mapTokens fc s) s := rfl
  rw [h, mapTokens_chain fcSix (fun fc hfc t _ htw => fcSix_word fc hfc t htw) s]
  rfl

theorem FC6_word (t : List Char) (htw : ∀ c ∈ t, isWordChar c = true) :
    ∀ c ∈ FC6 t, isWordChar c = true :=
  foldl_stepFc_word fcSix fcSix_word t htw

/-- After the six single-letter token rules none of their trigger tokens
remains. -/
theorem six_abs (x : List Char) (w : String) (hwin : w.data ∈ sixWords) :
    w.data ∉ tokensOf (mapTokens FC6 x) := by
  intro hmem
  have hf : ∀ t ∈ tokensOf x, ∀ c ∈ FC6 t, isWordChar c = true := by
    intro t ht
    exact FC6_word t (tokensOf_all_word x t ht).2
  obtain ⟨t, ht, hFC, hne⟩ := tokens_mapTokens_sub FC6 x hf _ hmem
  by_cases hts : t ∈ sixWords
  · simp only [sixWords, List.mem_cons, List.not_mem_nil, or_false] at hwin hts
    rcases hts with h|h|h|h|h|h
    all_goals subst h
    all_goals rcases hwin with h2|h2|h2|h2|h2|h2
    all_goals rw [h2] at hFC
    all_goals exact absurd hFC (by decide)
  · have hid : FC6 t = t := by
      refine foldl_stepFc_id t ?_ fcSix ?_
      · intro h
        subst h
        exact hne hFC.symm
      · intro fc hfc
        simp only [fcSix, List.mem_cons, List.not_mem_nil, or_false] at hfc
        rcases hfc with h|h|h|h|h|h
        all_goals subst h
        all_goals
          refine fcW_ne _ _ _ ?_
          intro he
          exact hts (by rw [he]; simp [sixWords])
    rw [hid] at hFC
    exact hts (by rw [hFC]; exact hwin)

/-- After `\bw\b -> r` (with `r` different from `w`) the token `w` is gone. -/
theorem fcW_elim (w r : String) (hr : ∀ c ∈ r.data, isWordChar c = true)
    (hrw : r.data ≠ w.data) (s : List Char) :
    w.data ∉ tokensOf (mapTokens (fcW w r) s) := by
  intro hmem
  have hf : ∀ t ∈ tokensOf s, ∀ c ∈ fcW w r t, isWordChar c = true := by
    intro t ht
    exact fcW_word w r hr t (tokensOf_all_word s t ht).2
  obtain ⟨t, ht, hFC, hne⟩ := tokens_mapTokens_sub (fcW w r) s hf _ hmem
  by_cases h : t = w.data
  · rw [fcW, if_pos h] at hFC
    exact hrw hFC
  · rw [fcW, if_neg h] at hFC
    exact h hFC

theorem reSub_fcW (w r : String) (hne : w.data ≠ [])
    (hw : ∀ c ∈ w.data, isWordChar c = true) (hrw : r.data ≠ w.data)
    (hwlen : w.data.length ≤ 50) (s : List Char) :
    reSub (wtok w) (rconst r) s = mapTokens (fcW w r) s :=
  reSub_wtok_eq w r hne hw hrw hwlen s

theorem reSub_fcPair' (x : Char) (hxw : isWordChar x = true) (hx1 : x ≠ '1')
    (s : List Char) :
    reSub [RItem.wb, RItem.grpOne isLowerAZ, RItem.lit x, RItem.wb] rgrp1 s =
      mapTokens (fcPair x) s :=
  reSub_pair_eq x hxw hx1 s

theorem reSub_fcOs' (s : List Char) :
    reSub ([RItem.wb] ++ lits "Os" ++ [RItem.grpPlus isAsciiDigit, RItem.wb]) rgrp s =
      mapTokens fcOs s :=
  reSub_os_eq s

theorem rule23_id (y : List Char) (habs : "Ia".data ∉ tokensOf y) :
    reSub ([.wb] ++ lits "Ia" ++ [spPlus, .lit 'b', spPlus] ++ lits "Ic" ++ [.wb])
      (rconst "a b c") y = y := by
  have h := wb_spPlus_rule_id "Ia" ([RItem.lit 'b', spPlus] ++ lits "Ic" ++ [RItem.wb])
    (rconst "a b c") (by decide) (by decide) (by decide) y habs
  rw [show (RItem.wb :: (List.map RItem.lit "Ia".data ++
    RItem.plus isPySpace :: ([RItem.lit 'b', spPlus] ++ lits "Ic" ++ [RItem.wb]))) =
    ([RItem.wb] ++ lits "Ia" ++ [spPlus, RItem.lit 'b', spPlus] ++ lits "Ic" ++
      [RItem.wb]) from rfl] at h
  exact h

theorem rule24_id (y : List Char) (habs : "la".data ∉ tokensOf y) :
    reSub ([.wb] ++ lits "la" ++ [spPlus, .lit 'b', spPlus] ++ lits "lc" ++ [.wb])
      (rconst "a b c") y = y := by
  have h := wb_spPlus_rule_id "la" ([RItem.lit 'b', spPlus] ++ lits "lc" ++ [RItem.wb])
    (rconst "a b c") (by decide) (by decide) (by decide) y habs
  rw [show (RItem.wb :: (List.map RItem.lit "la".data ++
    RItem.plus isPySpace :: ([RItem.lit 'b', spPlus] ++ lits "lc" ++ [RItem.wb]))) =
    ([RItem.wb] ++ lits "la" ++ [spPlus, RItem.lit 'b', spPlus] ++ lits "lc" ++
      [RItem.wb]) from rfl] at h
  exact h

theorem rule25_id (y : List Char) (habs : "Ia".data ∉ tokensOf y) :
    reSub ([.bol true] ++ lits "Ia" ++ [spPlus, .lit 'b', spPlus] ++ lits "Ic" ++
      [spStar, .eolM]) (rconst "a b c") y = y := by
  have h := bolT_spPlus_rule_id "Ia"
    ([RItem.lit 'b', spPlus] ++ lits "Ic" ++ [spStar, RItem.eolM])
    (rconst "a b c") (by decide) (by decide) (by decide) y habs
  rw [show (RItem.bol true :: (List.map RItem.lit "Ia".data ++
    RItem.plus isPySpace :: ([RItem.lit 'b', spPlus] ++ lits "Ic" ++
      [spStar, RItem.eolM]))) =
    ([RItem.bol true] ++ lits "Ia" ++ [spPlus, RItem.lit 'b', spPlus] ++ lits "Ic" ++
      [spStar, RItem.eolM]) from rfl] at h
  exact h

theorem rule26_id (y : List Char) (habs : "la".data ∉ tokensOf y) :
    reSub ([.bol true] ++ lits "la" ++ [spPlus, .lit 'b', spPlus] ++ lits "lc" ++
      [spStar, .eolM]) (rconst "a b c") y = y := by
  have h := bolT_spPlus_rule_id "la"
    ([RItem.lit 'b', spPlus] ++ lits "lc" ++ [spStar, RItem.eolM])
    (rconst "a b c") (by decide) (by decide) (by decide) y habs
  rw [show (RItem.bol true :: (List.map RItem.lit "la".data ++
    RItem.plus isPySpace :: ([RItem.lit 'b', spPlus] ++ lits "lc" ++
      [spStar, RItem.eolM]))) =
    ([RItem.bol true] ++ lits "la" ++ [spPlus, RItem.lit 'b', spPlus] ++ lits "lc" ++
      [spStar, RItem.eolM]) from rfl] at h
  exact h

theorem rule28_id (y : List Char) (habs : "Oo".data ∉ tokensOf y) :
    reSub ([.bol true] ++ lits "Oo" ++ [spStar, .eolM]) (rconst "") y = y := by
  have h := bolT_starEol_rule_id "Oo" (rconst "") (by decide) (by decide) (by decide)
    y habs
  rw [show (RItem.bol true :: (List.map RItem.lit "Oo".data ++ [spStar, RItem.eolM])) =
    ([RItem.bol true] ++ lits "Oo" ++ [spStar, RItem.eolM]) from rfl] at h
  exact h

theorem fcRest_word :
    ∀ fc ∈ fcRest, ∀ t, (∀ c ∈ t, isWordChar c = true) →
      ∀ c ∈ fc t, isWordChar c = true := by
  intro fc hfc
  simp only [fcRest, fcCorr, List.mem_append, List.mem_cons, List.not_mem_nil,
    or_false] at hfc
  rcases hfc with (h|h|h|h|h|h|h|h)|(h|h|h|h|h|h|h|h|h|h|h|h|h|h|h|h|h|h|h|h|h|h)
  all_goals subst h
  all_goals first
    | exact fun t htw => fcOs_word t htw
    | exact fun t htw => fcPair_word _ t htw
    | exact fun t htw => fcW_word _ _ (by decide) t htw

theorem ocrRules_split :
    ocrRules = rulesA ++ (rulesB1 ++ (rulesB2 ++ (rulesC ++ rulesD))) := rfl

theorem foldA_eq (x : List Char) :
    rulesA.foldl (fun acc r => reSub r.1 r.2 acc) x = fixA x := rfl

theorem foldB1_eq (y : List Char) :
    rulesB1.foldl (fun acc r => reSub r.1 r.2 acc) y = mapTokens FC6 y := by
  simp only [rulesB1, List.foldl_cons, List.foldl_nil]
  rw [reSub_fcW "Ic" "c" (by decide) (by decide) (by decide) (by decide),
    reSub_fcW "Ia" "a" (by decide) (by decide) (by decide) (by decide),
    reSub_fcW "Ib" "b" (by decide) (by decide) (by decide) (by decide),
    reSub_fcW "la" "a" (by decide) (by decide) (by decide) (by decide),
    reSub_fcW "lc" "c" (by decide) (by decide) (by decide) (by decide),
    reSub_fcW "lb" "b" (by decide) (by decide) (by decide) (by decide),
    collapse6]

theorem foldB2_eq (y : List Char)
    (habIa : "Ia".data ∉ tokensOf y) (habIc : "Ic".data ∉ tokensOf y)
    (habIb : "Ib".data ∉ tokensOf y) (habla : "la".data ∉ tokensOf y)
    (hablc : "lc".data ∉ tokensOf y) (hablb : "lb".data ∉ tokensOf y) :
    rulesB2.foldl (fun acc r => reSub r.1 r.2 acc) y = y := by
  simp only [rulesB2, List.foldl_cons, List.foldl_nil]
  rw [bolF_rule_id "Ia" (rconst "a ") (by decide) (by decide) (by decide) _ habIa,
    bolF_rule_id "Ic" (rconst "c ") (by decide) (by decide) (by decide) _ habIc,
    bolF_rule_id "Ib" (rconst "b ") (by decide) (by decide) (by decide) _ habIb,
    bolF_rule_id "la" (rconst "a ") (by decide) (by decide) (by decide) _ habla,
    bolF_rule_id "lc" (rconst "c ") (by decide) (by decide) (by decide) _ hablc,
    bolF_rule_id "lb" (rconst "b ") (by decide) (by decide) (by decide) _ hablb,
    spcls_rule_id "Ia" (rconst " a ") (by decide) (by decide) (by decide) _ habIa,
    spcls_rule_id "Ic" (rconst " c ") (by decide) (by decide) (by decide) _ habIc,
    spcls_rule_id "Ib" (rconst " b ") (by decide) (by decide) (by decide) _ habIb,
    spcls_rule_id "la" (rconst " a ") (by decide) (by decide) (by decide) _ habla,
    spcls_rule_id "lc" (rconst " c ") (by decide) (by decide) (by decide) _ hablc,
    spcls_rule_id "lb" (rconst " b ") (by decide) (by decide) (by decide) _ hablb,
    rule23_id _ habIa, rule24_id _ habla, rule25_id _ habIa, rule26_id _ habla]

theorem foldC_eq (y : List Char) :
    rulesC.foldl (fun acc r => reSub r.1 r.2 acc) y =
      mapTokens (fcW "Oo" "") y := by
  simp only [rulesC, List.foldl_cons, List.foldl_nil]
  rw [reSub_fcW "Oo" "" (by decide) (by decide) (by decide) (by decide)]
  exact rule28_id _ (fcW_elim "Oo" "" (by decide) (by decide) y)

theorem foldD_eq (y : List Char) :
    rulesD.foldl (fun acc r => reSub r.1 r.2 acc) y =
      (fcRest.drop 1).foldl (fun s fc => mapTokens fc s) y := by
  simp only [rulesD, List.foldl_cons, List.foldl_nil]
  rw [reSub_fcOs',
    reSub_fcPair' 'i' (by decide) (by decide),
    reSub_fcPair' 'l' (by decide) (by decide),
    reSub_fcW "lon" "c1" (by decide) (by decide) (by decide) (by decide),
    reSub_fcW "1t" "a1" (by decide) (by decide) (by decide) (by decide),
    reSub_fcW "at" "a1" (by decide) (by decide) (by decide) (by decide),
    reSub_fcPair' 't' (by decide) (by decide),
    reSub_fcW "l0" "0" (by decide) (by decide) (by decide) (by decide),
    reSub_fcW "l1" "1" (by decide) (by decide) (by decide) (by decide),
    reSub_fcW "l2" "2" (by decide) (by decide) (by decide) (by decide),
    reSub_fcW "l3" "3" (by decide) (by decide) (by decide) (by decide),
    reSub_fcW "l4" "4" (by decide) (by decide) (by decide) (by decide),
    reSub_fcW "l5" "5" (by decide) (by decide) (by decide) (by decide),
    reSub_fcW "l6" "6" (by decide) (by decide) (by decide) (by decide),
    reSub_fcW "l7" "7" (by decide) (by decide) (by decide) (by decide),
    reSub_fcW "l8" "8" (by decide) (by decide) (by decide) (by decide),
    reSub_fcW "l9" "9" (by decide) (by decide) (by decide) (by decide),
    reSub_fcW "O0" "0" (by decide) (by decide) (by decide) (by decide),
    reSub_fcW "O1" "1" (by decide) (by decide) (by decide) (by decide),
    reSub_fcW "O2" "2" (by decide) (by decide) (by decide) (by decide),
    reSub_fcW "O3" "3" (by decide) (by decide) (by decide) (by decide),
    reSub_fcW "O4" "4" (by decide) (by decide) (by decide) (by decide),
    reSub_fcW "O5" "5" (by decide) (by decide) (by decide) (by decide),
    reSub_fcW "O6" "6" (by decide) (by decide) (by decide) (by decide),
    reSub_fcW "O7" "7" (by decide) (by decide) (by decide) (by decide),
    reSub_fcW "O8" "8" (by decide) (by decide) (by decide) (by decide),
    reSub_fcW "O9" "9" (by decide) (by decide) (by decide) (by decide),
    reSub_fcW "I0" "10" (by decide) (by decide) (by decide) (by decide),
    reSub_fcW "I1" "11" (by decide) (by decide) (by decide) (by decide)]
  simp only [fcRest, fcCorr, List.cons_append, List.nil_append, List.drop_succ_cons,
    List.drop_zero, List.foldl_cons, List.foldl_nil]

set_option maxHeartbeats 2000000 in
/-- The ordered `re.sub` rules of `fix_common_ocr_errors` amount to the four
`©` removals followed by the composite token transformation `FCtotal` applied
to every maximal word token. -/
theorem rulesFold_eq (x : List Char) :
    ocrRules.foldl (fun acc r => reSub r.1 r.2 acc) x = mapTokens FCtotal (fixA x) := by
  rw [ocrRules_split, List.foldl_append, List.foldl_append, List.foldl_append,
    List.foldl_append, foldA_eq]
  rw [foldB1_eq (fixA x)]
  rw [foldB2_eq (mapTokens FC6 (fixA x))
    (six_abs (fixA x) "Ia" (by decide)) (six_abs (fixA x) "Ic" (by decide))
    (six_abs (fixA x) "Ib" (by decide)) (six_abs (fixA x) "la" (by decide))
    (six_abs (fixA x) "lc" (by decide)) (six_abs (fixA x) "lb" (by decide))]
  rw [foldC_eq, foldD_eq]
  have hnest : (fcRest.drop 1).foldl (fun s fc => mapTokens fc s)
      (mapTokens (fcW "Oo" "") (mapTokens FC6 (fixA x))) =
      (FC6 :: fcRest).foldl (fun s fc => mapTokens fc s) (fixA x) := by
    simp only [fcRest, fcCorr, List.cons_append, List.nil_append, List.drop_succ_cons,
      List.drop_zero, List.foldl_cons, List.foldl_nil]
  rw [hnest, mapTokens_chain (FC6 :: fcRest)
    (by
      intro fc hfc t _ htw
      rcases List.mem_cons.mp hfc with h | h
      · subst h
        exact FC6_word t htw
      · exact fcRest_word fc h t htw)
    (fixA x)]
  refine mapTokens_congr _ _ ?_ (fixA x).length (fixA x) (le_refl _)
  intro t htne htw
  rw [List.foldl_cons, stepFc_ne t htne FC6, FCtotal,
    show fcList = fcSix ++ fcRest from rfl, List.foldl_append]
  rfl

/-- C4, divergence witness: on `text1 = "aaaaaaa"` and
`text2 = "bbbbbbbbbb"` — two completely unrelated texts whose lengths have
ratio exactly 0.7 — the code `are_texts_similar` answers `true`, while the
claimed predicate (containment ratio OR word-set Jaccard at least 0.7) is
false: the shorter text is not contained in the longer and the word sets
are disjoint.  The code computes `len(shorter)/len(longer)` without ever
checking containment, contradicting both the claim and its own inline
comments. -/
theorem c4_divergence :
    are_texts_similar "aaaaaaa" "bbbbbbbbbb" (7 / 10) = true ∧
    are_texts_similar_spec "aaaaaaa" "bbbbbbbbbb" (7 / 10) = false := by
  constructor <;> with_unfolding_all decide

/-- C1, counterexample: with no table detected, the whole-page text
`"ab   cd"` — whitespace-separated prose — IS wrapped into a pipe-delimited
row by the final output path (`reconcile "" rt` cleans with
`is_table := false`, which APPLIES the table heuristics), whereas the
normalization-without-heuristics that the claim promises would leave it
unchanged.  The `is_table` flag gates the heuristics off on the TABLE path,
not on the no-table path. -/
theorem c1_counterexample :
    reconcile "" "ab   cd" = "| ab | cd |" ∧
    basicCleaned "ab   cd" = "ab   cd" ∧
    ("| ab | cd |" : String) ≠ "ab   cd" := by
  refine ⟨?_, ?_, ?_⟩ <;> with_unfolding_all decide

/-- C1, amended: the `is_table` flag gates the two table heuristics off on
the TABLE path — `clean_structured_text text true` performs only the basic
normalization (`basicCleaned`) — while on the no-table path (table
extraction empty) the final output is
`clean_structured_text whole_page_text false`, which applies the line-level
table regrouping and whitespace-run row splitting heuristics (subject to
their own internal guards). -/
theorem c1_amended (t rt : String) :
    clean_structured_text t true = basicCleaned t ∧
    reconcile "" rt = clean_structured_text rt false := by
  exact ⟨rfl, rfl⟩

/-- C2, counterexample: the whole-image OCR engine does NOT use the same
four segmentation modes as the cell engine.  PSM 7 (single line) belongs to
the cell engine's modes but not to the page engine's; an oracle that only
recognises text under PSM 7 yields an empty whole-page result because the
page engine never requests that mode. -/
theorem c2_counterexample :
    extract_with_multiple_psm_modes psm7Oracle = "" ∧
    7 ∈ cellPsmModes ∧ ¬ 7 ∈ pagePsmModes.map Prod.fst := by
  refine ⟨?_, by decide, by decide⟩
  with_unfolding_all decide

/-- C2, amended: the whole-image engine invokes recognition under PSM modes
6 (uniform block), 11 (sparse text), 4 (single column) and 3 (automatic),
while the cell engine uses 7 (single line), 8 (single word), 6 and 11; the
two engines share only the uniform-block and sparse-text assumptions. -/
theorem c2_amended :
    pagePsmModes.map Prod.fst = [6, 11, 4, 3] ∧ cellPsmModes = [7, 8, 6, 11] ∧
    (pagePsmModes.map Prod.fst).inter cellPsmModes = [6, 11] := by
  refine ⟨rfl, rfl, by decide⟩

/-- C6, counterexample: an image whose decode raises makes the pipeline
return `None` (no exception propagates), which is not the empty string the
claim promises. -/
theorem c6_counterexample :
    convert_image_to_structured_text badOracle = none ∧
    convert_image_to_structured_text badOracle ≠ some "" := by
  refine ⟨rfl, ?_⟩
  with_unfolding_all decide

/-- C6, amended: an image that fails (exception caught — result `None` — or
every stage empty — result `""`) only increments the failure count: the
batch processes every preceding and following image exactly as it would
without the failing one, contributes nothing to the output for the failing
image, and never propagates an exception. -/
theorem c6_amended (xs ys : List ImgOracle) (o : ImgOracle)
    (hfail : convert_image_to_structured_text o = none ∨
      convert_image_to_structured_text o = some "") :
    processBatch (xs ++ o :: ys) = BatchResult.mk
      ((processBatch xs).parts ++ (processBatch ys).parts)
      ((processBatch xs).succeeded + (processBatch ys).succeeded)
      ((processBatch xs).failed + (processBatch ys).failed + 1) := by
  have hone : processBatch [o] = BatchResult.mk [] 0 1 := by
    show batchStep (BatchResult.mk [] 0 0) o = _
    unfold batchStep
    rcases hfail with h | h
    · rw [h]
    · rw [h]
      simp
  have hsplit : xs ++ o :: ys = (xs ++ [o]) ++ ys := by simp
  rw [hsplit, processBatch_append (xs ++ [o]) ys, processBatch_append xs [o], hone]
  simp only [BatchResult.mk.injEq]
  refine ⟨by simp, by omega, by omega⟩

/-- Witness for C6-amended on a concrete batch: a failing image between two
good ones only bumps the failure count, and both good images' texts reach
the output. -/
theorem c6_amended_witness :
    processBatch [goodPageOracle, badOracle, goodPageOracle] = BatchResult.mk
      ["hello world from the page", "hello world from the page"] 2 1 := by
  rw [show ([goodPageOracle, badOracle, goodPageOracle] : List ImgOracle) =
    [goodPageOracle] ++ badOracle :: [goodPageOracle] from rfl,
    c6_amended [goodPageOracle] [goodPageOracle] badOracle (Or.inl rfl)]
  with_unfolding_all decide

/-- C3, counterexample: six short one-per-line tokens (count divisible by 3
and at least 4) are regrouped into pipe rows of TWO cells, not three: with
an exact fit for both 2 and 3 columns, the score `complete_rows * 100`
dominates the +10 bonus for three columns, so 2 columns win. -/
theorem c3_counterexample :
    detect_and_group_table_lines ["u", "v", "w", "x", "y", "z"] =
      ["| u | v |", "| w | x |", "| y | z |"] ∧
    detect_and_group_table_lines ["u", "v", "w", "x", "y", "z"] ≠
      ["| u | v | w |", "| x | y | z |"] := by
  constructor <;> with_unfolding_all decide

theorem pyStripList_eq_self (s : List Char) (h : ∀ c ∈ s, isPySpace c = false) :
    pyStripList s = s := by
  have drop_id : ∀ (t : List Char), (∀ c ∈ t, isPySpace c = false) →
      t.dropWhile isPySpace = t := by
    intro t ht
    cases t with
    | nil => rfl
    | cons a u =>
      rw [List.dropWhile_cons, if_neg]
      simp [ht a (by simp)]
  unfold pyStripList
  rw [drop_id s h, drop_id s.reverse (by intro c hc; exact h c (List.mem_reverse.mp hc)),
    List.reverse_reverse]

theorem pyStrip_eq_self (l : String) (h : ∀ c ∈ l.data, isPySpace c = false) :
    pyStrip l = l := by
  unfold pyStrip
  rw [pyStripList_eq_self l.data h]

theorem isCellLine_of_token (l : String) (h : isTokenLine l) : isCellLine l = true := by
  obtain ⟨hne, hlen, hws⟩ := h
  have hs := pyStrip_eq_self l hws
  have hsp : l.data.contains ' ' = false := by
    cases hc : l.data.contains ' ' with
    | false => rfl
    | true =>
      have hc' : List.elem ' ' l.data = true := hc
      have hmem : ' ' ∈ l.data := List.elem_iff.mp hc'
      have := hws ' ' hmem
      simp [isPySpace] at this
  simp only [isCellLine, hs, hsp]
  simp [hne, hlen]

theorem getD_mem {α : Type} (l : List α) (d : α) :
    ∀ i, i < l.length → l.getD i d ∈ l := by
  induction l with
  | nil => intro i hi; simp at hi
  | cons a t ih =>
    intro i hi
    cases i with
    | zero => exact List.mem_cons_self a t
    | succ j =>
      have hj : j < t.length := by simpa using hi
      exact List.mem_cons_of_mem a (ih j hj)

theorem range_map_getD {α : Type} (l : List α) (d : α) :
    (List.range l.length).map (fun i => l.getD i d) = l := by
  induction l with
  | nil => rfl
  | cons a t ih =>
    rw [List.length_cons, List.range_succ_eq_map, List.map_cons, List.map_map]
    have h2 : ((fun i => (a :: t).getD i d) ∘ Nat.succ) = fun i => t.getD i d := by
      funext i
      rfl
    rw [h2, ih]
    rfl

theorem range_contains_iff (n j : Nat) : (List.range n).contains j = true ↔ j < n := by
  rw [List.contains, List.elem_iff, List.mem_range]

/-- With an odd multiple of 3 as token count, the 3-column fit is the
unique exact fit among 3, 2, 4 and wins the score comparison. -/
theorem bestColumnCount_eq_three (n : Nat) (h3 : n % 3 = 0) (h2 : n % 2 = 1) :
    bestColumnCount n = 3 := by
  have h20 : ¬ n % 2 = 0 := by omega
  have h40 : ¬ n % 4 = 0 := by omega
  have e3 : fitScore n 3 = (n / 3 : ℤ) * 100 + 10 := by
    unfold fitScore
    rw [if_pos h3, if_pos rfl]
    norm_num
  have e2 : fitScore n 2 = (n / 2 : ℤ) * 10 - (n % 2 : ℤ) * 5 := by
    unfold fitScore
    rw [if_neg h20]
    norm_num
  have e4 : fitScore n 4 = (n / 4 : ℤ) * 10 - (n % 4 : ℤ) * 5 := by
    unfold fitScore
    rw [if_neg h40]
    norm_num
  have hpos : fitScore n 3 > (-1000 : ℤ) := by
    rw [e3]; omega
  have hno2 : ¬ fitScore n 2 > fitScore n 3 := by
    rw [e2, e3]; omega
  have hno4 : ¬ fitScore n 4 > fitScore n 3 := by
    rw [e4, e3]; omega
  unfold bestColumnCount
  rw [List.foldl_cons, if_pos hpos, List.foldl_cons, if_neg hno2, List.foldl_cons,
    if_neg hno4, List.foldl_nil]

theorem listChunks_fuel (k : Nat) (hk : 0 < k) :
    ∀ f g (l : List String), l.length < f → l.length < g →
      listChunks k f l = listChunks k g l := by
  intro f
  induction f with
  | zero => intro g l hf; omega
  | succ f ih =>
    intro g l hf hg
    cases g with
    | zero => omega
    | succ g =>
      cases l with
      | nil => rfl
      | cons a t =>
        show (a :: t).take k :: listChunks k f ((a :: t).drop k) =
          (a :: t).take k :: listChunks k g ((a :: t).drop k)
        have hlen : ((a :: t).drop k).length < f := by
          rw [List.length_drop, List.length_cons]
          simp only [List.length_cons] at hf
          omega
        have hlen2 : ((a :: t).drop k).length < g := by
          rw [List.length_drop, List.length_cons]
          simp only [List.length_cons] at hg
          omega
        rw [ih g ((a :: t).drop k) hlen hlen2]

theorem chunksOf_nil (k : Nat) : chunksOf k [] = [] := rfl

theorem chunksOf_cons (k : Nat) (hk : 0 < k) (l : List String) (hl : l ≠ []) :
    chunksOf k l = l.take k :: chunksOf k (l.drop k) := by
  cases l with
  | nil => exact absurd rfl hl
  | cons a t =>
    show listChunks k ((a :: t).length + 1) (a :: t) = _
    rw [List.length_cons]
    show (a :: t).take k :: listChunks k (t.length + 1) ((a :: t).drop k) = _
    unfold chunksOf
    rw [listChunks_fuel k hk (t.length + 1) (((a :: t).drop k).length + 1) ((a :: t).drop k)
      (by rw [List.length_drop, List.length_cons]; omega)
      (by omega)]

theorem chunksOf_length_of_dvd_aux (k : Nat) (hk : 0 < k) :
    ∀ (n : Nat) (l : List String), l.length ≤ n → k ∣ l.length →
      ∀ r ∈ chunksOf k l, r.length = k := by
  intro n
  induction n with
  | zero =>
    intro l hle hd r hr
    have : l = [] := List.eq_nil_of_length_eq_zero (by omega)
    subst this
    rw [chunksOf_nil] at hr
    simp at hr
  | succ n ih =>
    intro l hle hd r hr
    cases l with
    | nil => rw [chunksOf_nil] at hr; simp at hr
    | cons a t =>
      have hkle : k ≤ (a :: t).length := by
        rcases hd with ⟨c, hc⟩
        rcases Nat.eq_zero_or_pos c with h0 | h0
        · rw [h0] at hc; simp at hc
        · calc k = k * 1 := by ring
            _ ≤ k * c := Nat.mul_le_mul_left k h0
            _ = (a :: t).length := hc.symm
      rw [chunksOf_cons k hk (a :: t) (by simp)] at hr
      rcases List.mem_cons.mp hr with h | h
      · rw [h, List.length_take]
        omega
      · have hdrop : ((a :: t).drop k).length = (a :: t).length - k := List.length_drop k _
        have hle2 : ((a :: t).drop k).length ≤ n := by
          rw [hdrop, List.length_cons]
          simp only [List.length_cons] at hle
          omega
        have hdvd : k ∣ ((a :: t).drop k).length := by
          rw [hdrop]
          exact Nat.dvd_sub hkle hd (Nat.dvd_refl k)
        exact ih ((a :: t).drop k) hle2 hdvd r h

theorem chunksOf_length_of_dvd (k : Nat) (hk : 0 < k) (l : List String)
    (hd : k ∣ l.length) : ∀ r ∈ chunksOf k l, r.length = k :=
  chunksOf_length_of_dvd_aux k hk l.length l (le_refl _) hd

theorem tableSectionEnd_range (lines : List String) :
    ∀ f j p, j ≤ lines.length → lines.length - j < f →
      (tableSectionEnd lines (List.range lines.length) f j p).1 = lines.length := by
  intro f
  induction f with
  | zero => intro j p hj hf; omega
  | succ f ih =>
    intro j p hj hf
    simp only [tableSectionEnd]
    by_cases hjl : j < lines.length
    · have hc : (List.range lines.length).contains j = true := (range_contains_iff _ _).mpr hjl
      rw [if_pos hjl, if_pos hc]
      exact ih (j + 1) (p ++ [j]) (by omega) (by omega)
    · rw [if_neg hjl]
      show j = lines.length
      omega

theorem rebuildLines_at_end (lines : List String) (idxs : List Nat)
    (tableRows : List String) (f : Nat) (p : List Nat) (hf : 0 < f) :
    rebuildLines lines idxs tableRows f lines.length p = [] := by
  cases f with
  | zero => omega
  | succ f =>
    simp only [rebuildLines]
    rw [if_neg (lt_irrefl _)]

theorem rebuildLines_full (lines : List String) (tableRows : List String)
    (hn : 0 < lines.length) :
    rebuildLines lines (List.range lines.length) tableRows (lines.length + 1) 0 [] =
      tableRows := by
  have hc0 : (List.range lines.length).contains 0 = true := (range_contains_iff _ _).mpr hn
  have hp0 : ¬ (([] : List Nat).contains 0 = true) := by simp
  simp only [rebuildLines]
  rw [if_pos hn, if_pos ⟨hc0, hp0⟩,
    tableSectionEnd_range lines (lines.length + 1) 0 [] (by omega) (by omega),
    rebuildLines_at_end lines _ tableRows lines.length _ (by omega), List.append_nil]

/-- C3, amended: for a list of at least 4 short one-per-line tokens whose
count is divisible by 3 AND NOT by 2, the reconstruction infers 3 columns
and regroups the tokens into pipe rows of 3.  (When the count is also
divisible by 2, two columns win — see the counterexample — because among
exact fits the score is dominated by `complete_rows * 100`, so the +10
preference for 3 columns only breaks exact ties, which never occur between
2 and 3 columns.) -/
theorem c3_amended (lines : List String)
    (htok : ∀ l ∈ lines, isTokenLine l)
    (hd3 : lines.length % 3 = 0) (hodd : lines.length % 2 = 1)
    (hge : 4 ≤ lines.length) :
    detect_and_group_table_lines lines = (chunksOf 3 lines).map mkPipeRow := by
  have hne : lines ≠ [] := by
    intro h
    rw [h] at hge
    simp at hge
  have hcell : ∀ i ∈ List.range lines.length, isCellLine (lines.getD i "") = true := by
    intro i hi
    exact isCellLine_of_token _ (htok _ (getD_mem lines "" i (List.mem_range.mp hi)))
  have hidx : (List.range lines.length).filter (fun i => isCellLine (lines.getD i "")) =
      List.range lines.length := List.filter_eq_self.mpr hcell
  have hstrip : ∀ i ∈ List.range lines.length, pyStrip (lines.getD i "") = lines.getD i "" := by
    intro i hi
    exact pyStrip_eq_self _ ((htok _ (getD_mem lines "" i (List.mem_range.mp hi))).2.2)
  have hcells : (List.range lines.length).map (fun i => pyStrip (lines.getD i "")) = lines := by
    rw [List.map_congr_left hstrip, range_map_getD]
  have hd : (3 : Nat) ∣ lines.length := Nat.dvd_of_mod_eq_zero hd3
  have hflt : ((chunksOf 3 lines).filter (fun r => 2 ≤ r.length)) = chunksOf 3 lines := by
    apply List.filter_eq_self.mpr
    intro r hr
    have := chunksOf_length_of_dvd 3 (by omega) lines hd r hr
    simp [this]
  simp only [detect_and_group_table_lines, hidx, hcells]
  rw [if_neg hne, if_neg (by omega : ¬ lines.length < 4),
    bestColumnCount_eq_three lines.length hd3 hodd, hflt,
    rebuildLines_full lines _ (by omega)]

/-- Witness for C3-amended at a concrete input: nine tokens regroup into
three pipe rows of three cells. -/
theorem c3_amended_witness :
    detect_and_group_table_lines ["u1", "v2", "w3", "x4", "y5", "z6", "u7", "v8", "w9"] =
      ["| u1 | v2 | w3 |", "| x4 | y5 | z6 |", "| u7 | v8 | w9 |"] := by
  rw [c3_amended ["u1", "v2", "w3", "x4", "y5", "z6", "u7", "v8", "w9"]
    (by intro l hl; fin_cases hl <;> exact ⟨by decide, by decide, by decide⟩)
    (by decide) (by decide) (by decide)]
  with_unfolding_all decide

/-- C10: the text-similarity test is symmetric — for all strings and every
threshold `are_texts_similar a b t = are_texts_similar b a t` — and it
returns `false` whenever either input is empty. -/
theorem c10_similar_symm_empty_false (a b : String) (t : ℚ) :
    are_texts_similar a b t = are_texts_similar b a t ∧
    ((a = "" ∨ b = "") → are_texts_similar a b t = false) := by
  constructor
  · unfold are_texts_similar
    by_cases hab : a = "" ∨ b = ""
    · rw [if_pos hab, if_pos (Or.symm hab)]
    · rw [if_neg hab, if_neg (fun h => hab (Or.symm h))]
      rw [shorterOf_length_comm (normalizeText a) (normalizeText b),
        longerOf_length_comm (normalizeText a) (normalizeText b),
        Finset.union_comm (wordSet (normalizeText a)) (wordSet (normalizeText b)),
        Finset.inter_comm (wordSet (normalizeText a)) (wordSet (normalizeText b))]
      exact if_congr Iff.rfl rfl (if_congr or_comm rfl rfl)
  · intro h
    unfold are_texts_similar
    rw [if_pos h]

/-- Witness for C10 at concrete inputs: the empty-input clause applied at
`a = ""`, `b = "abc"`, and the symmetry clause evaluated at two concrete
texts. -/
theorem c10_similar_symm_empty_false_witness :
    are_texts_similar "" "abc" (7 / 10) = false ∧
    are_texts_similar "cat dog" "dog cat" (7 / 10) =
      are_texts_similar "dog cat" "cat dog" (7 / 10) :=
  ⟨(c10_similar_symm_empty_false "" "abc" (7 / 10)).2 (Or.inl rfl),
    (c10_similar_symm_empty_false "cat dog" "dog cat" (7 / 10)).1⟩

theorem ic_nil (s : List Char) : List.intercalate s ([] : List (List Char)) = [] := rfl

theorem ic_single (s a : List Char) : List.intercalate s [a] = a := by
  simp [List.intercalate]

theorem ic_cons2 (s a b : List Char) (M : List (List Char)) :
    List.intercalate s (a :: b :: M) = a ++ s ++ List.intercalate s (b :: M) := by
  simp [List.intercalate, List.intersperse]

theorem ic_concat (s b : List Char) :
    ∀ M : List (List Char), M ≠ [] →
      List.intercalate s (M ++ [b]) = List.intercalate s M ++ s ++ b := by
  intro M
  induction M with
  | nil => intro h; exact absurd rfl h
  | cons a M ih =>
    intro _
    cases M with
    | nil =>
      simp only [List.cons_append, List.nil_append, ic_cons2, ic_single]
    | cons c M2 =>
      have h1 : (a :: c :: M2) ++ [b] = a :: c :: (M2 ++ [b]) := rfl
      rw [h1, ic_cons2, ic_cons2]
      have h2 : (c :: M2) ++ [b] = c :: (M2 ++ [b]) := rfl
      rw [h2] at ih
      rw [ih (by simp)]
      simp [List.append_assoc]

theorem split_ne_nil (sep : Char) (s : List Char) : splitOnCharList sep s ≠ [] := by
  cases s with
  | nil => simp [splitOnCharList]
  | cons c cs =>
    simp only [splitOnCharList]
    cases h : splitOnCharList sep cs with
    | nil => simp
    | cons r rs =>
      by_cases hc : c = sep <;> simp [hc]

theorem join_split (sep : Char) (s : List Char) :
    List.intercalate [sep] (splitOnCharList sep s) = s := by
  induction s with
  | nil => rfl
  | cons c cs ih =>
    cases h : splitOnCharList sep cs with
    | nil => exact absurd h (split_ne_nil sep cs)
    | cons r rs =>
      rw [h] at ih
      simp only [splitOnCharList, h]
      by_cases hc : c = sep
      · rw [if_pos hc, ic_cons2, List.nil_append, ih, hc]
        rfl
      · rw [if_neg hc]
        cases rs with
        | nil =>
          rw [ic_single] at ih
          rw [ic_single, ih]
        | cons r2 rs2 =>
          rw [ic_cons2] at ih
          rw [ic_cons2, List.cons_append, List.cons_append, ih]

theorem split_no_sep (sep : Char) (s : List Char) :
    ∀ l ∈ splitOnCharList sep s, sep ∉ l := by
  induction s with
  | nil =>
    intro l hl
    simp only [splitOnCharList, List.mem_singleton] at hl
    simp [hl]
  | cons c cs ih =>
    intro l hl
    cases h : splitOnCharList sep cs with
    | nil => exact absurd h (split_ne_nil sep cs)
    | cons r rs =>
      rw [h] at ih
      simp only [splitOnCharList, h] at hl
      revert hl
      by_cases hc : c = sep
      · rw [if_pos hc]
        intro hl
        rcases List.mem_cons.mp hl with h1 | h1
        · simp [h1]
        · exact ih l h1
      · rw [if_neg hc]
        intro hl
        rcases List.mem_cons.mp hl with h1 | h1
        · subst h1
          intro hmem
          rcases List.mem_cons.mp hmem with h2 | h2
          · exact hc h2.symm
          · exact ih r (by simp) h2
        · exact ih l (by simp [h1])

theorem split_of_no_sep (sep : Char) (l : List Char) (h : sep ∉ l) :
    splitOnCharList sep l = [l] := by
  induction l with
  | nil => rfl
  | cons c cs ih =>
    have hcs : sep ∉ cs := fun hm => h (by simp [hm])
    have hc : c ≠ sep := fun he => h (by simp [he])
    simp only [splitOnCharList, ih hcs]
    rw [if_neg hc]

theorem split_append_sep (sep : Char) :
    ∀ (a rest : List Char), sep ∉ a →
      splitOnCharList sep (a ++ sep :: rest) = a :: splitOnCharList sep rest := by
  intro a
  induction a with
  | nil =>
    intro rest _
    rw [List.nil_append]
    cases h : splitOnCharList sep rest with
    | nil => exact absurd h (split_ne_nil sep rest)
    | cons r rs =>
      simp only [splitOnCharList, h]
      simp
  | cons c a2 ih =>
    intro rest hna
    have hc : c ≠ sep := fun he => hna (by simp [he])
    have ha2 : sep ∉ a2 := fun hm => hna (by simp [hm])
    rw [List.cons_append]
    cases h : splitOnCharList sep rest with
    | nil => exact absurd h (split_ne_nil sep rest)
    | cons r rs =>
      have ih2 := ih rest ha2
      rw [h] at ih2
      simp only [splitOnCharList, ih2]
      rw [if_neg hc, ← h]

theorem split_intercalate (sep : Char) :
    ∀ M : List (List Char), M ≠ [] → (∀ l ∈ M, sep ∉ l) →
      splitOnCharList sep (List.intercalate [sep] M) = M := by
  intro M
  induction M with
  | nil => intro h; exact absurd rfl h
  | cons a M ih =>
    intro _ hns
    cases M with
    | nil =>
      rw [ic_single]
      exact split_of_no_sep sep a (hns a (by simp))
    | cons b M2 =>
      rw [ic_cons2]
      have h1 : a ++ [sep] ++ List.intercalate [sep] (b :: M2) =
          a ++ sep :: List.intercalate [sep] (b :: M2) := by
        rw [List.append_assoc]
        rfl
      rw [h1, split_append_sep sep a _ (hns a (by simp)),
        ih (by simp) (fun l hl => hns l (by simp [hl]))]

theorem mem_split_mem (sep : Char) :
    ∀ (s l : List Char), l ∈ splitOnCharList sep s → ∀ c ∈ l, c ∈ s := by
  intro s
  induction s with
  | nil =>
    intro l hl c hc
    simp only [splitOnCharList, List.mem_singleton] at hl
    subst hl
    simp at hc
  | cons d cs ih =>
    intro l hl c hc
    cases h : splitOnCharList sep cs with
    | nil => exact absurd h (split_ne_nil sep cs)
    | cons r rs =>
      simp only [splitOnCharList, h] at hl
      revert hl
      by_cases hd : d = sep
      · rw [if_pos hd]
        intro hl
        rcases List.mem_cons.mp hl with h1 | h1
        · subst h1
          simp at hc
        · exact List.mem_cons_of_mem d (ih l (by rw [h]; exact h1) c hc)
      · rw [if_neg hd]
        intro hl
        rcases List.mem_cons.mp hl with h1 | h1
        · subst h1
          rcases List.mem_cons.mp hc with h2 | h2
          · simp [h2]
          · exact List.mem_cons_of_mem d (ih r (by rw [h]; simp) c h2)
        · exact List.mem_cons_of_mem d (ih l (by rw [h]; simp [h1]) c hc)

theorem mem_intercalate (c : Char) :
    ∀ M : List (List Char), c ∈ List.intercalate ['\n'] M → c = '\n' ∨ ∃ l ∈ M, c ∈ l := by
  intro M
  induction M with
  | nil =>
    intro h
    rw [ic_nil] at h
    simp at h
  | cons a M ih =>
    intro h
    cases M with
    | nil =>
      rw [ic_single] at h
      exact Or.inr ⟨a, by simp, h⟩
    | cons b M2 =>
      rw [ic_cons2] at h
      rcases List.mem_append.mp h with h1 | h1
      · rcases List.mem_append.mp h1 with h2 | h2
        · exact Or.inr ⟨a, by simp, h2⟩
        · left
          simpa using h2
      · rcases ih h1 with h2 | ⟨l, hl, hcl⟩
        · exact Or.inl h2
        · exact Or.inr ⟨l, by simp [hl], hcl⟩

theorem pyStrip_as_rstrip (s : List Char) :
    pyStripList s = rstripL (s.dropWhile isPySpace) := rfl

theorem rstripL_sub (l : List Char) : ∀ c ∈ rstripL l, c ∈ l := by
  intro c hc
  simp only [rstripL] at hc
  have h1 : c ∈ l.reverse.dropWhile isPySpace := List.mem_reverse.mp hc
  exact List.mem_reverse.mp ((List.dropWhile_sublist isPySpace).mem h1)

theorem pyStripList_sub (s : List Char) : ∀ c ∈ pyStripList s, c ∈ s := by
  intro c hc
  rw [pyStrip_as_rstrip] at hc
  exact (List.dropWhile_sublist isPySpace).mem (rstripL_sub _ c hc)

theorem rstrip_spaces (u b : List Char) (hb : ∀ c ∈ b, isPySpace c = true) :
    rstripL (u ++ b) = rstripL u := by
  have hnil : b.reverse.dropWhile isPySpace = [] :=
    List.dropWhile_eq_nil_iff.mpr (fun x hx => hb x (List.mem_reverse.mp hx))
  simp only [rstripL, List.reverse_append]
  rw [List.dropWhile_append, hnil]
  simp

theorem rstrip_append (a b : List Char) (hb : ∃ c ∈ b, isPySpace c = false) :
    rstripL (a ++ b) = a ++ rstripL b := by
  obtain ⟨c, hcb, hcs⟩ := hb
  have hne : b.reverse.dropWhile isPySpace ≠ [] := by
    intro h
    have h2 := List.dropWhile_eq_nil_iff.mp h c (List.mem_reverse.mpr hcb)
    rw [hcs] at h2
    simp at h2
  simp only [rstripL, List.reverse_append]
  rw [dropWhile_append_left isPySpace _ _ hne, List.reverse_append, List.reverse_reverse]

theorem strip_prepend_spaces (p a : List Char) (hp : ∀ c ∈ p, isPySpace c = true) :
    pyStripList (p ++ a) = pyStripList a := by
  have hnil : p.dropWhile isPySpace = [] := List.dropWhile_eq_nil_iff.mpr hp
  rw [pyStrip_as_rstrip, pyStrip_as_rstrip, List.dropWhile_append, hnil]
  simp

theorem strip_append_spaces (a b : List Char) (hb : ∀ c ∈ b, isPySpace c = true) :
    pyStripList (a ++ b) = pyStripList a := by
  rw [pyStrip_as_rstrip, pyStrip_as_rstrip]
  by_cases h : a.dropWhile isPySpace = []
  · have hbnil : b.dropWhile isPySpace = [] := List.dropWhile_eq_nil_iff.mpr hb
    rw [List.dropWhile_append, h]
    simp [hbnil, rstripL]
  · rw [dropWhile_append_left isPySpace a b h, rstrip_spaces _ b hb]

theorem rstrip_decomp (l : List Char) :
    l = rstripL l ++ (l.reverse.takeWhile isPySpace).reverse := by
  conv_lhs => rw [← List.reverse_reverse l,
    ← List.takeWhile_append_dropWhile isPySpace l.reverse]
  rw [List.reverse_append]
  rfl

theorem rstrip_rest_spaces (l : List Char) :
    ∀ c ∈ (l.reverse.takeWhile isPySpace).reverse, isPySpace c = true := by
  intro c hc
  exact List.mem_takeWhile_imp (List.mem_reverse.mp hc)

theorem strip_lstrip (l : List Char) :
    pyStripList (l.dropWhile isPySpace) = pyStripList l := by
  conv_rhs => rw [← List.takeWhile_append_dropWhile isPySpace l]
  rw [strip_prepend_spaces _ _ (fun c hc => List.mem_takeWhile_imp hc)]

theorem strip_rstrip (l : List Char) :
    pyStripList (rstripL l) = pyStripList l := by
  conv_rhs => rw [rstrip_decomp l]
  rw [strip_append_spaces _ _ (rstrip_rest_spaces l)]

theorem pyStripList_idem (s : List Char) :
    pyStripList (pyStripList s) = pyStripList s := by
  conv_lhs => rw [pyStrip_as_rstrip s]
  rw [strip_rstrip, strip_lstrip]

theorem goodB_not_blank (l : List Char) (h : goodB l = true) : blankB l = false := by
  rw [goodB] at h
  rw [blankB]
  cases hl : pyStripList l with
  | nil =>
    rw [hl] at h
    exact absurd h (by decide)
  | cons c t => simp

theorem goodB_lstrip (l : List Char) : goodB (l.dropWhile isPySpace) = goodB l := by
  rw [goodB, goodB, strip_lstrip]

theorem goodB_rstrip (l : List Char) : goodB (rstripL l) = goodB l := by
  rw [goodB, goodB, strip_rstrip]

theorem goodB_strip (l : List Char) : goodB (pyStripList l) = goodB l := by
  rw [goodB, goodB, pyStripList_idem]

theorem blankB_lstrip (l : List Char) : blankB (l.dropWhile isPySpace) = blankB l := by
  rw [blankB, blankB, strip_lstrip]

theorem blankB_rstrip (l : List Char) : blankB (rstripL l) = blankB l := by
  rw [blankB, blankB, strip_rstrip]

theorem blankB_strip (l : List Char) : blankB (pyStripList l) = blankB l := by
  rw [blankB, blankB, pyStripList_idem]

theorem lineOK_lstrip (l : List Char) : lineOK (l.dropWhile isPySpace) = lineOK l := by
  rw [lineOK, lineOK, goodB_lstrip, blankB_lstrip]

theorem lineOK_rstrip (l : List Char) : lineOK (rstripL l) = lineOK l := by
  rw [lineOK, lineOK, goodB_rstrip, blankB_rstrip]

theorem lineOK_strip (l : List Char) : lineOK (pyStripList l) = lineOK l := by
  rw [lineOK, lineOK, goodB_strip, blankB_strip]

theorem blank_of_all_space (l : List Char) (h : ∀ c ∈ l, isPySpace c = true) :
    blankB l = true := by
  rw [blankB, pyStrip_as_rstrip, List.dropWhile_eq_nil_iff.mpr h]
  rfl

theorem all_space_of_blank (l : List Char) (h : blankB l = true) :
    ∀ c ∈ l, isPySpace c = true := by
  intro c hc
  rw [blankB, List.isEmpty_iff] at h
  have hd1 : l = l.takeWhile isPySpace ++ l.dropWhile isPySpace :=
    (List.takeWhile_append_dropWhile isPySpace l).symm
  have hd2 : l.dropWhile isPySpace = rstripL (l.dropWhile isPySpace) ++
      ((l.dropWhile isPySpace).reverse.takeWhile isPySpace).reverse :=
    rstrip_decomp _
  rw [← pyStrip_as_rstrip, h, List.nil_append] at hd2
  rw [hd2] at hd1
  rw [hd1] at hc
  rcases List.mem_append.mp hc with h1 | h1
  · exact List.mem_takeWhile_imp h1
  · exact rstrip_rest_spaces _ c h1

theorem exists_nonspace_of_not_blank (l : List Char) (h : blankB l = false) :
    ∃ c ∈ l, isPySpace c = false := by
  by_contra hall
  push_neg at hall
  have hb : blankB l = true := blank_of_all_space l (by
    intro c hc
    have h2 := hall c hc
    cases hcs : isPySpace c with
    | true => rfl
    | false => exact absurd hcs h2)
  rw [h] at hb
  simp at hb

theorem dropWhile_ne_nil_of_nonspace (l : List Char) (h : ∃ c ∈ l, isPySpace c = false) :
    l.dropWhile isPySpace ≠ [] := by
  obtain ⟨c, hc, hcs⟩ := h
  intro hn
  have h2 := List.dropWhile_eq_nil_iff.mp hn c hc
  rw [hcs] at h2
  simp at h2

theorem lstrip_intercalate (K0 : List Char) (M : List (List Char))
    (h0 : K0.dropWhile isPySpace ≠ []) :
    (List.intercalate ['\n'] (K0 :: M)).dropWhile isPySpace =
      List.intercalate ['\n'] (K0.dropWhile isPySpace :: M) := by
  cases M with
  | nil => rw [ic_single, ic_single]
  | cons b M2 =>
    rw [ic_cons2, ic_cons2, List.append_assoc, List.append_assoc,
      dropWhile_append_left isPySpace K0 _ h0]

theorem rstrip_intercalate (M : List (List Char)) (Klast : List Char) (hM : M ≠ [])
    (hk : ∃ c ∈ Klast, isPySpace c = false) :
    rstripL (List.intercalate ['\n'] (M ++ [Klast])) =
      List.intercalate ['\n'] (M ++ [rstripL Klast]) := by
  rw [ic_concat ['\n'] Klast M hM, ic_concat ['\n'] (rstripL Klast) M hM,
    rstrip_append _ Klast hk]

theorem band_split (a b : Bool) (h : (a && b) = true) : a = true ∧ b = true := by
  simp only [Bool.and_eq_true] at h
  exact h

theorem chainOK_cons2 (a b : List Char) (t : List (List Char)) :
    chainOK (a :: b :: t) = ((!blankB b || !blankB a) && chainOK (b :: t)) := rfl

theorem chainOK_single (x : List Char) : chainOK [x] = true := rfl

theorem chainOK_tail (a : List Char) (t : List (List Char)) (h : chainOK (a :: t) = true) :
    chainOK t = true := by
  cases t with
  | nil => rfl
  | cons b t2 =>
    rw [chainOK_cons2] at h
    exact (band_split _ _ h).2

theorem chainOK_head_congr (a a' : List Char) (h : blankB a = blankB a')
    (t : List (List Char)) : chainOK (a :: t) = chainOK (a' :: t) := by
  cases t with
  | nil => rfl
  | cons b t2 => rw [chainOK_cons2, chainOK_cons2, h]

theorem chainOK_last_congr (b b' : List Char) (h : blankB b = blankB b') :
    ∀ M : List (List Char), chainOK (M ++ [b]) = chainOK (M ++ [b']) := by
  intro M
  induction M with
  | nil => rfl
  | cons a M ih =>
    simp only [List.cons_append] at ih ⊢
    cases M with
    | nil =>
      simp only [List.nil_append, chainOK_cons2, chainOK_single, h]
    | cons c M2 =>
      simp only [List.cons_append] at ih ⊢
      rw [chainOK_cons2, chainOK_cons2, ih]

theorem getLastD_concat' (M : List (List Char)) (b : List Char) :
    (M ++ [b]).getLastD [] = b :=
  List.getLastD_concat [] b M

theorem getLastD_cons_cons (a b : List Char) (t : List (List Char)) :
    (a :: b :: t).getLastD [] = (b :: t).getLastD [] := by
  rw [List.getLastD_eq_getLast?, List.getLastD_eq_getLast?, List.getLast?_cons_cons]

theorem getLastD_single (a : List Char) : (([a] : List (List Char)).getLastD []) = a := by
  simp

theorem chainOK_concat (l : List Char) :
    ∀ acc : List (List Char), chainOK acc = true →
      (blankB l = true → acc ≠ [] ∧ blankB (acc.getLastD []) = false) →
      chainOK (acc ++ [l]) = true := by
  intro acc
  induction acc with
  | nil => intro _ _; rfl
  | cons a acc2 ih =>
    intro hch hcond
    cases acc2 with
    | nil =>
      simp only [List.cons_append, List.nil_append, chainOK_cons2, chainOK_single,
        Bool.and_true]
      cases hbl : blankB l with
      | false => simp
      | true =>
        have h2 := (hcond hbl).2
        rw [getLastD_single] at h2
        rw [h2]
        simp
    | cons a2 acc3 =>
      simp only [List.cons_append] at ih ⊢
      rw [show a :: a2 :: (acc3 ++ [l]) = a :: (a2 :: (acc3 ++ [l])) from rfl,
        chainOK_cons2]
      rw [chainOK_cons2] at hch
      obtain ⟨h1, h2⟩ := band_split _ _ hch
      rw [h1]
      rw [ih h2 (by
        intro hbl
        refine ⟨by simp, ?_⟩
        have h3 := (hcond hbl).2
        rw [getLastD_cons_cons] at h3
        exact h3)]
      rfl

theorem chainOK_concat_left (b : List Char) :
    ∀ M : List (List Char), chainOK (M ++ [b]) = true → chainOK M = true := by
  intro M
  induction M with
  | nil => intro _; rfl
  | cons a M2 ih =>
    intro h
    cases M2 with
    | nil => rfl
    | cons c M3 =>
      simp only [List.cons_append] at h ih
      rw [chainOK_cons2] at h
      obtain ⟨h1, h2⟩ := band_split _ _ h
      rw [chainOK_cons2, h1, ih h2]
      rfl

theorem chainOK_last_of_blank (b : List Char) (hb : blankB b = true) :
    ∀ M : List (List Char), M ≠ [] → chainOK (M ++ [b]) = true →
      blankB (M.getLastD []) = false := by
  intro M
  induction M with
  | nil => intro h _; exact absurd rfl h
  | cons a M2 ih =>
    intro _ h
    cases M2 with
    | nil =>
      simp only [List.cons_append, List.nil_append, chainOK_cons2] at h
      have h1 := (band_split _ _ h).1
      rw [hb] at h1
      simp only [Bool.not_true, Bool.false_or, Bool.not_eq_true'] at h1
      rw [getLastD_single]
      exact h1
    | cons c M3 =>
      simp only [List.cons_append] at h ih
      rw [chainOK_cons2] at h
      have h2 := (band_split _ _ h).2
      rw [getLastD_cons_cons]
      exact ih (by simp) h2

theorem headOK_concat (acc : List (List Char)) (l : List Char)
    (hacc : headOK acc = true) (hl : acc = [] → goodB l = true) :
    headOK (acc ++ [l]) = true := by
  cases acc with
  | nil => exact hl rfl
  | cons a t => exact hacc

theorem cleanupStep_shape (acc : List (List Char)) (l : List Char) :
    cleanupStep acc l =
      (if goodB l = true then acc ++ [l]
       else if (blankB l && !acc.isEmpty && !blankB (acc.getLastD [])) = true then acc ++ [l]
       else acc) := rfl

theorem cleanupStep_good (acc : List (List Char)) (l : List Char) (hg : goodB l = true) :
    cleanupStep acc l = acc ++ [l] := by
  rw [cleanupStep_shape, if_pos hg]

theorem cleanupStep_blank (acc : List (List Char)) (l : List Char) (hb : blankB l = true)
    (hacc : acc ≠ []) (hlast : blankB (acc.getLastD []) = false) :
    cleanupStep acc l = acc ++ [l] := by
  have hgf : goodB l = false := by
    cases hg : goodB l with
    | false => rfl
    | true =>
      rw [goodB_not_blank l hg] at hb
      exact absurd hb (by simp)
  have hae : acc.isEmpty = false := by
    cases acc with
    | nil => exact absurd rfl hacc
    | cons a t => rfl
  rw [cleanupStep_shape, if_neg (by rw [hgf]; simp),
    if_pos (by rw [hb, hae, hlast]; rfl)]

theorem cleanupStep_eq (acc : List (List Char)) (l : List Char) :
    cleanupStep acc l = acc ∨
      (cleanupStep acc l = acc ++ [l] ∧ lineOK l = true ∧
        (acc = [] → goodB l = true) ∧
        (blankB l = true → acc ≠ [] ∧ blankB (acc.getLastD []) = false)) := by
  by_cases hg : goodB l = true
  · right
    refine ⟨cleanupStep_good acc l hg, by rw [lineOK, hg, Bool.true_or], fun _ => hg,
      fun hb => ?_⟩
    rw [goodB_not_blank l hg] at hb
    exact absurd hb (by simp)
  · by_cases h2 : (blankB l && !acc.isEmpty && !blankB (acc.getLastD [])) = true
    · right
      have hgf : goodB l = false := by
        cases hgb : goodB l with
        | false => rfl
        | true => exact absurd hgb hg
      simp only [Bool.and_eq_true, Bool.not_eq_true'] at h2
      obtain ⟨⟨hbl, hacc⟩, hlast⟩ := h2
      have hane : acc ≠ [] := by
        intro hae
        rw [hae] at hacc
        simp at hacc
      refine ⟨cleanupStep_blank acc l hbl hane hlast,
        by rw [lineOK, hbl, Bool.or_true], fun hae => absurd hae hane,
        fun _ => ⟨hane, hlast⟩⟩
    · left
      rw [cleanupStep_shape, if_neg (by rw [show goodB l = false from by
          cases hgb : goodB l with
          | false => rfl
          | true => exact absurd hgb hg]; simp), if_neg h2]

theorem cleanup_inv (ls : List (List Char)) :
    ∀ acc : List (List Char),
      (∀ l ∈ acc, lineOK l = true) → headOK acc = true → chainOK acc = true →
      (∀ l ∈ ls.foldl cleanupStep acc, lineOK l = true) ∧
        headOK (ls.foldl cleanupStep acc) = true ∧
        chainOK (ls.foldl cleanupStep acc) = true := by
  induction ls with
  | nil =>
    intro acc h1 h2 h3
    exact ⟨h1, h2, h3⟩
  | cons l ls ih =>
    intro acc h1 h2 h3
    rw [List.foldl_cons]
    rcases cleanupStep_eq acc l with he | ⟨he, hok, hgood0, hblank⟩
    · rw [he]
      exact ih acc h1 h2 h3
    · rw [he]
      refine ih (acc ++ [l]) ?_ (headOK_concat acc l h2 hgood0)
        (chainOK_concat l acc h3 hblank)
      intro x hx
      rcases List.mem_append.mp hx with hx | hx
      · exact h1 x hx
      · rw [List.mem_singleton] at hx
        subst hx
        exact hok

theorem cleanup_mem (ls : List (List Char)) :
    ∀ acc, ∀ l ∈ ls.foldl cleanupStep acc, l ∈ acc ∨ l ∈ ls := by
  induction ls with
  | nil =>
    intro acc l hl
    exact Or.inl hl
  | cons x ls ih =>
    intro acc l hl
    rw [List.foldl_cons] at hl
    rcases cleanupStep_eq acc x with he | ⟨he, h1, h2, h3⟩
    · rw [he] at hl
      rcases ih acc l hl with h | h
      · exact Or.inl h
      · exact Or.inr (by simp [h])
    · rw [he] at hl
      rcases ih (acc ++ [x]) l hl with h | h
      · rcases List.mem_append.mp h with h4 | h4
        · exact Or.inl h4
        · rw [List.mem_singleton] at h4
          subst h4
          exact Or.inr (by simp)
      · exact Or.inr (by simp [h])

theorem cleanup_keep_aux :
    ∀ (L : List (List Char)) (acc : List (List Char)),
      (∀ l ∈ L, lineOK l = true) → chainOK L = true →
      (∀ h ∈ L.head?, blankB h = true → acc ≠ [] ∧ blankB (acc.getLastD []) = false) →
      L.foldl cleanupStep acc = acc ++ L := by
  intro L
  induction L with
  | nil =>
    intro acc _ _ _
    simp
  | cons l rest ih =>
    intro acc hok hch hhd
    rw [List.foldl_cons]
    by_cases hg : goodB l = true
    · rw [cleanupStep_good acc l hg,
        ih (acc ++ [l]) (fun x hx => hok x (by simp [hx])) (chainOK_tail l rest hch) ?_]
      · rw [List.append_assoc]
        rfl
      · intro h hh hbh
        refine ⟨by simp, ?_⟩
        rw [getLastD_concat']
        exact goodB_not_blank l hg
    · have hgf : goodB l = false := by
        cases hgb : goodB l with
        | false => rfl
        | true => exact absurd hgb hg
      have hbl : blankB l = true := by
        have h1 := hok l (by simp)
        rw [lineOK, hgf, Bool.false_or] at h1
        exact h1
      have hcond := hhd l (by simp) hbl
      rw [cleanupStep_blank acc l hbl hcond.1 hcond.2,
        ih (acc ++ [l]) (fun x hx => hok x (by simp [hx])) (chainOK_tail l rest hch) ?_]
      · rw [List.append_assoc]
        rfl
      · intro h hh hbh
        exfalso
        cases rest with
        | nil => simp at hh
        | cons r rest2 =>
          rw [chainOK_cons2] at hch
          have h1 := (band_split _ _ hch).1
          simp only [List.head?_cons, Option.mem_def, Option.some.injEq] at hh
          subst hh
          rw [hbh, hbl] at h1
          simp at h1

theorem cleanup_fold_id (L : List (List Char)) (hok : ∀ l ∈ L, lineOK l = true)
    (hch : chainOK L = true) (hhd : headOK L = true) :
    L.foldl cleanupStep [] = L := by
  have hcond : ∀ h ∈ L.head?, blankB h = true →
      ([] : List (List Char)) ≠ [] ∧ blankB (([] : List (List Char)).getLastD []) = false := by
    intro h hh hbh
    exfalso
    cases L with
    | nil => simp at hh
    | cons a t =>
      have hga : goodB a = true := hhd
      simp only [List.head?_cons, Option.mem_def, Option.some.injEq] at hh
      subst hh
      rw [goodB_not_blank a hga] at hbh
      simp at hbh
  rw [cleanup_keep_aux L [] hok hch hcond, List.nil_append]

theorem tokensOf_all_sep :
    ∀ (s : List Char), (∀ c ∈ s, isWordChar c = false) → tokensOf s = [] := by
  intro s
  induction s with
  | nil => intro _; rfl
  | cons d t ih =>
    intro h
    rw [tokensOf_cons_sep d t (h d (by simp))]
    exact ih (fun c hc => h c (by simp [hc]))

theorem tokensOf_append_sep_aux (sep : Char) (hsep : isWordChar sep = false) :
    ∀ n (a : List Char), a.length ≤ n → ∀ b,
      tokensOf (a ++ sep :: b) = tokensOf a ++ tokensOf b := by
  intro n
  induction n with
  | zero =>
    intro a ha b
    have ha0 : a = [] := List.eq_nil_of_length_eq_zero (by omega)
    subst ha0
    rw [List.nil_append, tokensOf_cons_sep sep b hsep]
    rfl
  | succ n ih =>
    intro a ha b
    cases a with
    | nil =>
      rw [List.nil_append, tokensOf_cons_sep sep b hsep]
      rfl
    | cons d a2 =>
      by_cases hd : isWordChar d = true
      · rw [List.cons_append, tokensOf_cons_word d (a2 ++ sep :: b) hd,
          tokensOf_cons_word d a2 hd,
          List.takeWhile_cons_of_pos hd, List.takeWhile_cons_of_pos hd,
          List.dropWhile_cons_of_pos hd, List.dropWhile_cons_of_pos hd]
        have htw : List.takeWhile isWordChar (a2 ++ sep :: b) =
            List.takeWhile isWordChar a2 := by
          rw [List.takeWhile_append]
          by_cases hall : (List.takeWhile isWordChar a2).length = a2.length
          · rw [if_pos hall]
            have ha2 : List.takeWhile isWordChar a2 = a2 :=
              (List.takeWhile_sublist isWordChar).eq_of_length hall
            rw [List.takeWhile_cons_of_neg (by rw [hsep]; simp), ha2, List.append_nil]
          · rw [if_neg hall]
        have hdw : List.dropWhile isWordChar (a2 ++ sep :: b) =
            List.dropWhile isWordChar a2 ++ sep :: b := by
          by_cases hemp : List.dropWhile isWordChar a2 = []
          · rw [List.dropWhile_append, if_pos (by rw [hemp]; rfl), hemp, List.nil_append,
              List.dropWhile_cons_of_neg (by rw [hsep]; simp)]
          · rw [List.dropWhile_append, if_neg (by
              simp only [List.isEmpty_iff]
              exact hemp)]
        rw [htw, hdw, ih (List.dropWhile isWordChar a2) (by
          have hle := length_dropWhile_le' isWordChar a2
          simp only [List.length_cons] at ha
          omega) b]
        rw [List.cons_append]
      · have hdf : isWordChar d = false := by
          cases hx : isWordChar d with
          | false => rfl
          | true => exact absurd hx hd
        rw [List.cons_append, tokensOf_cons_sep d _ hdf, tokensOf_cons_sep d a2 hdf]
        exact ih a2 (by simp only [List.length_cons] at ha; omega) b

theorem tokensOf_append_sep (sep : Char) (hsep : isWordChar sep = false)
    (a b : List Char) : tokensOf (a ++ sep :: b) = tokensOf a ++ tokensOf b :=
  tokensOf_append_sep_aux sep hsep a.length a (le_refl _) b

theorem tokensOf_intercalate :
    ∀ M : List (List Char),
      tokensOf (List.intercalate ['\n'] M) = (M.map tokensOf).flatten := by
  intro M
  induction M with
  | nil => rfl
  | cons a M ih =>
    cases M with
    | nil =>
      rw [ic_single]
      simp
    | cons b M2 =>
      rw [ic_cons2, List.append_assoc,
        show ['\n'] ++ List.intercalate ['\n'] (b :: M2) =
          '\n' :: List.intercalate ['\n'] (b :: M2) from rfl,
        tokensOf_append_sep '\n' (by decide) a _, ih]
      simp

theorem tokensOf_space_pre (a : List Char) :
    ∀ b : List Char, (∀ c ∈ b, isPySpace c = true) → tokensOf (b ++ a) = tokensOf a := by
  intro b
  induction b with
  | nil =>
    intro _
    rw [List.nil_append]
  | cons d t ih =>
    intro hb
    rw [List.cons_append, tokensOf_cons_sep d _ (space_not_word d (hb d (by simp)))]
    exact ih (fun c hc => hb c (by simp [hc]))

theorem tokensOf_space_suffix_aux :
    ∀ n (a : List Char), a.length ≤ n → ∀ b, (∀ c ∈ b, isPySpace c = true) →
      tokensOf (a ++ b) = tokensOf a := by
  intro n
  induction n with
  | zero =>
    intro a ha b hb
    have ha0 : a = [] := List.eq_nil_of_length_eq_zero (by omega)
    subst ha0
    rw [List.nil_append]
    exact tokensOf_all_sep b (fun c hc => space_not_word c (hb c hc))
  | succ n ih =>
    intro a ha b hb
    cases a with
    | nil =>
      rw [List.nil_append]
      exact tokensOf_all_sep b (fun c hc => space_not_word c (hb c hc))
    | cons d a2 =>
      by_cases hd : isWordChar d = true
      · rw [List.cons_append, tokensOf_cons_word d (a2 ++ b) hd,
          tokensOf_cons_word d a2 hd,
          List.takeWhile_cons_of_pos hd, List.takeWhile_cons_of_pos hd,
          List.dropWhile_cons_of_pos hd, List.dropWhile_cons_of_pos hd]
        have hbt : List.takeWhile isWordChar b = [] := by
          cases b with
          | nil => rfl
          | cons x xs =>
            rw [List.takeWhile_cons_of_neg]
            rw [space_not_word x (hb x (by simp))]
            simp
        have htw : List.takeWhile isWordChar (a2 ++ b) =
            List.takeWhile isWordChar a2 := by
          rw [List.takeWhile_append]
          by_cases hall : (List.takeWhile isWordChar a2).length = a2.length
          · rw [if_pos hall]
            have ha2 : List.takeWhile isWordChar a2 = a2 :=
              (List.takeWhile_sublist isWordChar).eq_of_length hall
            rw [hbt, ha2, List.append_nil]
          · rw [if_neg hall]
        have hbd : List.dropWhile isWordChar b = b := by
          cases b with
          | nil => rfl
          | cons x xs =>
            rw [List.dropWhile_cons_of_neg]
            rw [space_not_word x (hb x (by simp))]
            simp
        have hdw : List.dropWhile isWordChar (a2 ++ b) =
            List.dropWhile isWordChar a2 ++ b := by
          by_cases hemp : List.dropWhile isWordChar a2 = []
          · rw [List.dropWhile_append, if_pos (by rw [hemp]; rfl), hemp, List.nil_append,
              hbd]
          · rw [List.dropWhile_append, if_neg (by
              simp only [List.isEmpty_iff]
              exact hemp)]
        rw [htw, hdw, ih (List.dropWhile isWordChar a2) (by
          have hle := length_dropWhile_le' isWordChar a2
          simp only [List.length_cons] at ha
          omega) b hb]
      · have hdf : isWordChar d = false := by
          cases hx : isWordChar d with
          | false => rfl
          | true => exact absurd hx hd
        rw [List.cons_append, tokensOf_cons_sep d _ hdf, tokensOf_cons_sep d a2 hdf]
        exact ih a2 (by simp only [List.length_cons] at ha; omega) b hb

theorem tokensOf_space_suffix (a b : List Char) (hb : ∀ c ∈ b, isPySpace c = true) :
    tokensOf (a ++ b) = tokensOf a :=
  tokensOf_space_suffix_aux a.length a (le_refl _) b hb

theorem tokensOf_pyStripList (s : List Char) : tokensOf (pyStripList s) = tokensOf s := by
  conv_rhs => rw [← List.takeWhile_append_dropWhile isPySpace s]
  rw [tokensOf_space_pre _ (List.takeWhile isPySpace s)
    (fun c hc => List.mem_takeWhile_imp hc)]
  conv_rhs => rw [rstrip_decomp (s.dropWhile isPySpace)]
  rw [tokensOf_space_suffix _ _ (rstrip_rest_spaces (s.dropWhile isPySpace)),
    pyStrip_as_rstrip]

theorem token_of_line (s l u : List Char) (hl : l ∈ splitOnCharList '\n' s)
    (hu : u ∈ tokensOf l) : u ∈ tokensOf s := by
  have h1 : tokensOf s = ((splitOnCharList '\n' s).map tokensOf).flatten := by
    conv_lhs => rw [← join_split '\n' s]
    exact tokensOf_intercalate _
  rw [h1]
  exact List.mem_flatten.mpr ⟨tokensOf l, List.mem_map_of_mem tokensOf hl, hu⟩

theorem fixA_id (y : List Char) (hc : '©' ∉ y) : fixA y = y := by
  rw [fixA, reSub_litHead_id '©' _ _ y hc, reSub_litHead_id '©' _ _ y hc,
    reSub_litHead_id '©' _ _ y hc, reSub_litHead_id '©' _ _ y hc]

theorem not_mem_fixA (x : List Char) : '©' ∉ fixA x := by
  rw [fixA]
  exact reSub_litdel_not_mem '©' _

theorem FCtotal_word (t : List Char) (htw : ∀ c ∈ t, isWordChar c = true) :
    ∀ c ∈ FCtotal t, isWordChar c = true :=
  foldl_stepFc_word fcList fcList_word t htw

theorem not_mem_x57 (x : List Char) : '©' ∉ mapTokens FCtotal (fixA x) := by
  apply not_mem_mapTokens FCtotal '©' (fixA x) (not_mem_fixA x)
  intro t ht hmem
  have hw := FCtotal_word t (tokensOf_all_word (fixA x) t ht).2 '©' hmem
  exact absurd hw (by decide)

theorem FCtotal_id_of_stable (u : List Char) (hne : u ≠ []) (hs : stableTok u = true) :
    FCtotal u = u := by
  have hbt : badTok u = false := by
    rw [stableTok] at hs
    cases hb : badTok u with
    | false => rfl
    | true =>
      rw [hb] at hs
      exact absurd hs (by decide)
  rw [badTok] at hbt
  simp only [Bool.or_eq_false_iff] at hbt
  obtain ⟨⟨hcont, hos⟩, hpair⟩ := hbt
  have hmem : u ∉ badList := by
    intro hm
    have h2 : badList.contains u = true := List.elem_iff.mpr hm
    rw [hcont] at h2
    exact absurd h2 (by simp)
  rw [FCtotal]
  apply foldl_stepFc_id u hne fcList
  intro fc hfc
  simp only [fcList, List.mem_cons, List.not_mem_nil, or_false] at hfc
  rcases hfc with h|h|h|h|h|h|h|h|h|h|h|h|h|h|h|h|h|h|h|h|h|h|h|h|h|h|h|h|h|h|h|h|h|h|h|h
  all_goals subst h
  all_goals first
    | exact fcOs_id u hos
    | exact fcPair_id _ (by decide) u hpair
    | exact fcW_ne _ _ u (fun he => hmem (by rw [he]; decide))

theorem rulesFold_fix (x : List Char) (hc : '©' ∉ x)
    (ht : ∀ u ∈ tokensOf x, FCtotal u = u) :
    ocrRules.foldl (fun acc r => reSub r.1 r.2 acc) x = x := by
  rw [rulesFold_eq, fixA_id x hc]
  exact mapTokens_id FCtotal x ht

theorem not_mem_y (x57 : List Char) (hc : '©' ∉ x57) :
    '©' ∉ pyStripList (cleanupLines x57) := by
  intro hm
  have h1 : '©' ∈ cleanupLines x57 := pyStripList_sub _ '©' hm
  rw [cleanupLines] at h1
  rcases mem_intercalate '©' _ h1 with he | ⟨l, hl, hcl⟩
  · exact absurd he (by decide)
  · rcases cleanup_mem _ [] l hl with h2 | h2
    · simp at h2
    · exact hc (mem_split_mem '\n' x57 l h2 '©' hcl)

theorem tokensOf_y_sub (x57 : List Char) (u : List Char)
    (hu : u ∈ tokensOf (pyStripList (cleanupLines x57))) : u ∈ tokensOf x57 := by
  rw [tokensOf_pyStripList, cleanupLines, tokensOf_intercalate] at hu
  obtain ⟨tl, htl, hutl⟩ := List.mem_flatten.mp hu
  obtain ⟨l, hl, rfl⟩ := List.mem_map.mp htl
  rcases cleanup_mem _ [] l hl with h2 | h2
  · simp at h2
  · exact token_of_line x57 l u h2 hutl

theorem cleanup_strip_core (kept : List (List Char))
    (hok : ∀ l ∈ kept, lineOK l = true)
    (hch : chainOK kept = true)
    (hhd : headOK kept = true)
    (hnl : ∀ l ∈ kept, '\n' ∉ l)
    (hlast : blankB (kept.getLastD []) = false)
    (hne : kept ≠ []) :
    cleanupLines (pyStripList (List.intercalate ['\n'] kept)) =
      pyStripList (List.intercalate ['\n'] kept) := by
  cases kept with
  | nil => exact absurd rfl hne
  | cons K0 rest =>
    have hg0 : goodB K0 = true := hhd
    rcases List.eq_nil_or_concat rest with hr | ⟨mid, Klast, hr⟩
    · subst hr
      have hstrip : pyStripList (List.intercalate ['\n'] [K0]) = pyStripList K0 := by
        rw [ic_single]
      rw [hstrip]
      have hnn : '\n' ∉ pyStripList K0 :=
        fun hm => hnl K0 (by simp) (pyStripList_sub K0 '\n' hm)
      rw [cleanupLines, split_of_no_sep '\n' _ hnn,
        cleanup_fold_id [pyStripList K0]
          (by
            intro l hl
            rw [List.mem_singleton] at hl
            subst hl
            rw [lineOK_strip]
            exact hok K0 (by simp))
          (chainOK_single _)
          (by
            show goodB (pyStripList K0) = true
            rw [goodB_strip]
            exact hg0),
        ic_single]
    · subst hr
      simp only [List.concat_eq_append] at hok hch hhd hnl hlast ⊢
      have hlastKl : ((K0 :: (mid ++ [Klast])).getLastD []) = Klast := by
        rw [show K0 :: (mid ++ [Klast]) = (K0 :: mid) ++ [Klast] from by simp,
          getLastD_concat']
      rw [hlastKl] at hlast
      have hKlast_ns : ∃ c ∈ Klast, isPySpace c = false :=
        exists_nonspace_of_not_blank Klast hlast
      have hK0dw : K0.dropWhile isPySpace ≠ [] :=
        dropWhile_ne_nil_of_nonspace K0
          (exists_nonspace_of_not_blank K0 (goodB_not_blank K0 hg0))
      have hstrip : pyStripList (List.intercalate ['\n'] (K0 :: (mid ++ [Klast]))) =
          List.intercalate ['\n'] ((K0.dropWhile isPySpace :: mid) ++ [rstripL Klast]) := by
        rw [pyStrip_as_rstrip, lstrip_intercalate K0 (mid ++ [Klast]) hK0dw,
          show K0.dropWhile isPySpace :: (mid ++ [Klast]) =
            (K0.dropWhile isPySpace :: mid) ++ [Klast] from by simp]
        exact rstrip_intercalate (K0.dropWhile isPySpace :: mid) Klast (by simp) hKlast_ns
      rw [hstrip]
      have hnosep : ∀ l ∈ (K0.dropWhile isPySpace :: mid) ++ [rstripL Klast], '\n' ∉ l := by
        intro l hl
        simp only [List.cons_append, List.mem_cons, List.mem_append,
          List.mem_singleton, List.not_mem_nil, or_false] at hl
        rcases hl with rfl | hl | rfl
        · intro hm
          exact hnl K0 (by simp) ((List.dropWhile_sublist isPySpace).mem hm)
        · exact hnl l (by simp [hl])
        · intro hm
          exact hnl Klast (by simp) (rstripL_sub Klast '\n' hm)
      have hok2 : ∀ l ∈ (K0.dropWhile isPySpace :: mid) ++ [rstripL Klast],
          lineOK l = true := by
        intro l hl
        simp only [List.cons_append, List.mem_cons, List.mem_append,
          List.mem_singleton, List.not_mem_nil, or_false] at hl
        rcases hl with rfl | hl | rfl
        · rw [lineOK_lstrip]
          exact hok K0 (by simp)
        · exact hok l (by simp [hl])
        · rw [lineOK_rstrip]
          exact hok Klast (by simp)
      have hhd2 : headOK ((K0.dropWhile isPySpace :: mid) ++ [rstripL Klast]) = true := by
        show goodB (K0.dropWhile isPySpace) = true
        rw [goodB_lstrip]
        exact hg0
      have hch2 : chainOK ((K0.dropWhile isPySpace :: mid) ++ [rstripL Klast]) = true := by
        rw [show (K0.dropWhile isPySpace :: mid) ++ [rstripL Klast] =
            K0.dropWhile isPySpace :: (mid ++ [rstripL Klast]) from by simp,
          chainOK_head_congr (K0.dropWhile isPySpace) K0 (blankB_lstrip K0)
            (mid ++ [rstripL Klast]),
          show K0 :: (mid ++ [rstripL Klast]) = (K0 :: mid) ++ [rstripL Klast] from by simp,
          chainOK_last_congr (rstripL Klast) Klast (blankB_rstrip Klast) (K0 :: mid),
          show (K0 :: mid) ++ [Klast] = K0 :: (mid ++ [Klast]) from by simp]
        exact hch
      rw [cleanupLines, split_intercalate '\n' _ (by simp) hnosep,
        cleanup_fold_id _ hok2 hch2 hhd2]

theorem cleanup_strip_fix (kept : List (List Char))
    (hok : ∀ l ∈ kept, lineOK l = true)
    (hch : chainOK kept = true)
    (hhd : headOK kept = true)
    (hnl : ∀ l ∈ kept, '\n' ∉ l) :
    cleanupLines (pyStripList (List.intercalate ['\n'] kept)) =
      pyStripList (List.intercalate ['\n'] kept) := by
  cases kept with
  | nil => rfl
  | cons K0 rest =>
    by_cases hbl : blankB ((K0 :: rest).getLastD []) = true
    · rcases List.eq_nil_or_concat rest with hr | ⟨mid, Klast, hr⟩
      · subst hr
        have hb0 : blankB K0 = false := goodB_not_blank K0 hhd
        rw [getLastD_single, hb0] at hbl
        exact absurd hbl (by simp)
      · subst hr
        simp only [List.concat_eq_append] at hok hch hhd hnl hbl ⊢
        have hlastKl : ((K0 :: (mid ++ [Klast])).getLastD []) = Klast := by
          rw [show K0 :: (mid ++ [Klast]) = (K0 :: mid) ++ [Klast] from by simp,
            getLastD_concat']
        rw [hlastKl] at hbl
        have hic : List.intercalate ['\n'] (K0 :: (mid ++ [Klast])) =
            List.intercalate ['\n'] (K0 :: mid) ++ (['\n'] ++ Klast) := by
          rw [show K0 :: (mid ++ [Klast]) = (K0 :: mid) ++ [Klast] from by simp,
            ic_concat ['\n'] Klast (K0 :: mid) (by simp), List.append_assoc]
        have hsp : ∀ c ∈ ['\n'] ++ Klast, isPySpace c = true := by
          intro c hc
          rcases List.mem_append.mp hc with h | h
          · rw [List.mem_singleton] at h
            rw [h]
            decide
          · exact all_space_of_blank Klast hbl c h
        have hstr : pyStripList (List.intercalate ['\n'] (K0 :: (mid ++ [Klast]))) =
            pyStripList (List.intercalate ['\n'] (K0 :: mid)) := by
          rw [hic, strip_append_spaces _ _ hsp]
        rw [hstr]
        have hchx : chainOK ((K0 :: mid) ++ [Klast]) = true := by
          rw [show (K0 :: mid) ++ [Klast] = K0 :: (mid ++ [Klast]) from by simp]
          exact hch
        apply cleanup_strip_core (K0 :: mid)
        · intro l hl
          apply hok
          rcases List.mem_cons.mp hl with rfl | hl2
          · simp
          · simp [hl2]
        · exact chainOK_concat_left Klast (K0 :: mid) hchx
        · exact hhd
        · intro l hl
          apply hnl
          rcases List.mem_cons.mp hl with rfl | hl2
          · simp
          · simp [hl2]
        · exact chainOK_last_of_blank Klast hbl (K0 :: mid) (by simp) hchx
        · simp
    · have hbf : blankB ((K0 :: rest).getLastD []) = false := by
        cases h : blankB ((K0 :: rest).getLastD []) with
        | false => rfl
        | true => exact absurd h hbl
      exact cleanup_strip_core (K0 :: rest) hok hch hhd hnl hbf (by simp)

theorem fix_pass2 (x : List Char) :
    pyStripList (cleanupLines (ocrRules.foldl (fun acc r => reSub r.1 r.2 acc)
        (pyStripList (cleanupLines (ocrRules.foldl (fun acc r => reSub r.1 r.2 acc) x))))) =
      pyStripList (cleanupLines (ocrRules.foldl (fun acc r => reSub r.1 r.2 acc) x)) := by
  generalize hx57 : ocrRules.foldl (fun acc r => reSub r.1 r.2 acc) x = x57
  have hcy : '©' ∉ pyStripList (cleanupLines x57) := by
    apply not_mem_y x57
    rw [← hx57, rulesFold_eq]
    exact not_mem_x57 x
  have hty : ∀ u ∈ tokensOf (pyStripList (cleanupLines x57)), FCtotal u = u := by
    intro u hu
    have hu57 := tokensOf_y_sub x57 u hu
    rw [← hx57, rulesFold_eq] at hu57
    obtain ⟨t, ht, hfc, hne⟩ := tokens_mapTokens_sub FCtotal (fixA x)
      (fun t ht => FCtotal_word t (tokensOf_all_word (fixA x) t ht).2) u hu57
    rcases FCtotal_stable t (tokensOf_all_word (fixA x) t ht).1
      (tokensOf_all_word (fixA x) t ht).2 with h0 | hst
    · rw [hfc] at h0
      exact absurd h0 hne
    · rw [hfc] at hst
      exact FCtotal_id_of_stable u hne hst
  rw [rulesFold_fix _ hcy hty]
  have hkept := cleanup_inv (splitOnCharList '\n' x57) []
    (fun l hl => absurd hl (List.not_mem_nil l)) rfl rfl
  obtain ⟨hok, hhd, hch⟩ := hkept
  have hnl : ∀ l ∈ (splitOnCharList '\n' x57).foldl cleanupStep [], '\n' ∉ l := by
    intro l hl
    rcases cleanup_mem _ [] l hl with h | h
    · simp at h
    · exact split_no_sep '\n' x57 l h
  rw [show cleanupLines (pyStripList (cleanupLines x57)) = pyStripList (cleanupLines x57)
    from cleanup_strip_fix _ hok hch hhd hnl]
  exact pyStripList_idem _

/-- C5: the fixed-rule OCR-error substitution pass is idempotent — for every
string `t`, `fix_common_ocr_errors (fix_common_ocr_errors t)` equals
`fix_common_ocr_errors t`: no substitution rule's output re-triggers any rule
on a second application, the line cleanup keeps every line it has already
kept, and the final strip is idempotent. -/
theorem c5_fix_idempotent (t : String) :
    fix_common_ocr_errors (fix_common_ocr_errors t) = fix_common_ocr_errors t := by
  by_cases hs : t = ""
  · subst hs
    rfl
  · rw [show fix_common_ocr_errors t = String.mk (pyStripList (cleanupLines
      (ocrRules.foldl (fun acc r => reSub r.1 r.2 acc) t.data))) from by
        rw [fix_common_ocr_errors, if_neg hs]]
    by_cases hy : pyStripList (cleanupLines
        (ocrRules.foldl (fun acc r => reSub r.1 r.2 acc) t.data)) = []
    · rw [hy]
      rfl
    · rw [fix_common_ocr_errors, if_neg (by
        intro he
        apply hy
        have hd := congrArg String.data he
        simpa using hd)]
      rw [show ∀ l : List Char, (String.mk l).data = l from fun l => rfl]
      exact congrArg String.mk (fix_pass2 t.data)
